import Mathlib

/-! # Conflict resolution in the ledger: commit graph, common ancestor,
merge resolver and conflict resolver client

A shallow embedding of `src/app/merging/merge_resolver.cc` and
`src/app/merging/conflict_resolver_client.cc`, together with a model of the
common ancestor search those files call (its own source file is not part of
the sources; only `common_ancestor_unittest.cc` is).
-/

/-! # Part 1: the embedding -/

namespace Ledger

/-! ## Data model -/

abbrev CommitId := Nat

abbrev ObjectId := String

/-- The reserved id of the root commit (`storage::kFirstPageCommitId`). -/
def kFirstPageCommitId : CommitId := 0

/-- A commit, with the accessors of `storage::Commit` (`fake_commit.h`). -/
structure Commit where
  /-- the commit id, a `CommitId` -/
  GetId : Nat
  GetParentIds : List Nat
  /-- a signed 64-bit timestamp -/
  GetTimestamp : Int
  /-- the id of the entries tree -/
  GetRootId : ObjectId
deriving DecidableEq, Repr

/-- The commits a page storage holds. -/
abbrev PageStorage := List Commit

/-- Modelled from the spec: the storage collaborator's `get_commit(id)`
(`PageStorage::GetCommit`; the storage is not among the sources), a lookup by
id in which `none` stands for a non-OK status. -/
def GetCommit (s : PageStorage) (id : CommitId) : Option Commit :=
  s.find? (fun c => c.GetId == id)

/-- `p` is a stored parent of `c`. -/
def IsParent (s : PageStorage) (p c : Commit) : Prop :=
  p.GetId ∈ c.GetParentIds ∧ GetCommit s p.GetId = some p

/-- `a` is an ancestor of `c`, the commit itself included. -/
def IsAncestor (s : PageStorage) (a c : Commit) : Prop :=
  Relation.ReflTransGen (IsParent s) a c

/-- `a` is a common ancestor of `l` and `r`. -/
def IsCommonAncestor (s : PageStorage) (l r a : Commit) : Prop :=
  IsAncestor s a l ∧ IsAncestor s a r

/-- Modelled from the spec: the bitmask `{left_side, right_side}` of the
common ancestor finder (`common_ancestor.cc` is not among the sources): which
input has reached a commit. -/
structure SideTag where
  left_side : Bool
  right_side : Bool
deriving DecidableEq, Repr

/-- Modelled from the spec: the union of two tags, used where a commit of
the common ancestor finder is reached again. -/
def SideTag.union (a b : SideTag) : SideTag :=
  ⟨a.left_side || b.left_side, a.right_side || b.right_side⟩

/-- Modelled from the spec: the tag is `{L,R}`, the test the common
ancestor finder makes on the commit it pops. -/
def SideTag.both (t : SideTag) : Bool := t.left_side && t.right_side

/-- Modelled from the spec: the order of the common ancestor finder's
max-heap, keyed on `(timestamp, id)`: `a` is strictly older than `b`. -/
def older (a b : Commit) : Bool :=
  decide (a.GetTimestamp < b.GetTimestamp) ||
    (decide (a.GetTimestamp = b.GetTimestamp) && decide (a.GetId < b.GetId))

/-- Modelled from the spec: the side tags of the common ancestor finder,
section 9's map from commit id to accumulated side tag: a tag once given to a
commit stays with it. -/
abbrev TagMap := CommitId → SideTag

/-- Modelled from the spec: the tag map of the common ancestor finder
before any commit is reached. -/
def noTags : TagMap := fun _ => ⟨false, false⟩

/-- Modelled from the spec: the common ancestor finder gives the tag `t`
to the commit `id`, in union with the tag it has accumulated. -/
def addTag (m : TagMap) (id : CommitId) (t : SideTag) : TagMap :=
  fun i => if i = id then (m i).union t else m i

/-- Modelled from the spec: the frontier (`in_progress`) of the common
ancestor finder, the commits under consideration, one entry per commit. -/
abbrev Frontier := List Commit

/-- Modelled from the spec: the newest commit of the frontier of the
common ancestor finder (the top of its max-heap). -/
def newest : Frontier → Option Commit
  | [] => none
  | c :: rest =>
    match newest rest with
    | none => some c
    | some m => if older m c then some c else some m

/-- Modelled from the spec: the popped commit leaves the frontier of the
common ancestor finder (commits are equal when their ids are). -/
def removeEntry (f : Frontier) (c : Commit) : Frontier :=
  f.filter (fun e => e.GetId != c.GetId)

/-- Modelled from the spec: a commit enters the frontier of the common
ancestor finder unless it is there already. -/
def pushEntry (f : Frontier) (p : Commit) : Frontier :=
  if f.any (fun e => e.GetId == p.GetId) then f else f ++ [p]

/-- Modelled from the spec: the state of the search of the common
ancestor finder: the accumulated tags and the frontier. -/
structure SearchState where
  tags : TagMap
  frontier : Frontier

/-- Modelled from the spec: the common ancestor finder reaches the commit
`p` with the tag `t`: the tag is merged into the one `p` has accumulated and
`p` is under consideration. -/
def mergeTag (st : SearchState) (t : SideTag) (p : Commit) : SearchState :=
  ⟨addTag st.tags p.GetId t, pushEntry st.frontier p⟩

/-- Modelled from the spec: the common ancestor finder fetches the parents
of the popped commit; `none` when a lookup fails. -/
def fetchParents (s : PageStorage) : List CommitId → Option (List Commit)
  | [] => some []
  | id :: ids =>
    match GetCommit s id with
    | none => none
    | some p =>
      match fetchParents s ids with
      | none => none
      | some ps => some (p :: ps)

/-- Modelled from the spec: how a search of the common ancestor finder
ends. The spec names the first two outcomes; it does not say what an empty
frontier gives. -/
inductive SearchResult where
  /-- status OK, with the commit found -/
  | found (c : Commit)
  /-- a storage lookup failed and its error is propagated -/
  | storage_error
  /-- the frontier ran empty before the search could end on a commit -/
  | frontier_empty
  /-- the loop was cut after the given number of rounds -/
  | out_of_fuel
deriving DecidableEq, Repr

/-- Modelled from the spec: the test the common ancestor finder makes on
the commit `c` it pops: its tag is `{L,R}` and no other commit is left under
consideration. Section 4.1 words step 2 of the loop as the tag `{L,R}` alone,
under "we continue until we can prove no younger candidate exists"; with the
tag alone the search would end on `A` for `(1, merge)` in scenario S3, where
the spec and `CommonAncestorTest.MergeCommitAndSomeOthers` give the root. So
the search goes on replacing the newest commit by its parents until one commit
is left, and ends on it when it carries both tags, which a last commit that
is an ancestor of both inputs does (`emits_of_last`). -/
def emits (st : SearchState) (c : Commit) : Bool :=
  (st.tags c.GetId).both && (removeEntry st.frontier c).isEmpty

/-- Modelled from the spec: the common ancestor finder expands the popped
commit `c`: `c` leaves the frontier and each of its parents is reached with
the tag of `c`. -/
def expand (st : SearchState) (c : Commit) (ps : List Commit) : SearchState :=
  ps.foldl (fun acc p => mergeTag acc (st.tags c.GetId) p)
    ⟨st.tags, removeEntry st.frontier c⟩

/-- Modelled from the spec: the loop of the common ancestor finder
(`common_ancestor.cc` is not among the sources), section 4.1: pop the newest
commit; if the search ends on it (`emits`), emit it and terminate; else fetch
its parents and merge the popped commit's tag into the tags for each of
them. -/
def searchLoop (s : PageStorage) : Nat → SearchState → SearchResult
  | 0, _ => .out_of_fuel
  | n + 1, st =>
    match newest st.frontier with
    | none => .frontier_empty
    | some c =>
      if emits st c then .found c
      else
        match fetchParents s c.GetParentIds with
        | none => .storage_error
        | some ps => searchLoop s n (expand st c ps)

/-- Modelled from the spec: the initial state of the common ancestor
finder, `left` tagged `{L}` and `right` tagged `{R}`. -/
def initialState (left right : Commit) : SearchState :=
  mergeTag (mergeTag ⟨noTags, []⟩ ⟨true, false⟩ left) ⟨false, true⟩ right

/-- Modelled from the spec: `FindCommonAncestor(left, right)` of
`common_ancestor.cc`, which is not among the sources; the search of section
4.1 run for at most `fuel` rounds. -/
def FindCommonAncestor (s : PageStorage) (fuel : Nat) (left right : Commit) : SearchResult :=
  searchLoop s fuel (initialState left right)

/-- Modelled from the spec: the commits the loop of the common ancestor
finder pops and examines, in the order it pops them; the loop is that of
`searchLoop`. -/
def searchPops (s : PageStorage) : Nat → SearchState → List Commit
  | 0, _ => []
  | n + 1, st =>
    match newest st.frontier with
    | none => []
    | some c =>
      if emits st c then [c]
      else
        match fetchParents s c.GetParentIds with
        | none => [c]
        | some ps => c :: searchPops s n (expand st c ps)

/-- Modelled from the spec: the commits `FindCommonAncestor(left, right)`
pops and examines when run for at most `fuel` rounds. -/
def FindCommonAncestorPops (s : PageStorage) (fuel : Nat) (left right : Commit) : List Commit :=
  searchPops s fuel (initialState left right)

/-! ### Valid commit graphs -/

/-- A checkable form of the data model's invariants, `rank` witnessing
that the graph is acyclic: every commit is found under its own id; the commit
with the reserved id is the one without parents; a commit has at most two
parents; every parent id is the id of a stored commit of smaller rank. It
follows that the root is an ancestor of every commit. -/
def validDag (rank : Commit → Nat) (s : PageStorage) : Bool :=
  s.all (fun c =>
    decide (GetCommit s c.GetId = some c) &&
    decide (c.GetParentIds = [] ↔ c.GetId = kFirstPageCommitId) &&
    decide (c.GetParentIds.length ≤ 2) &&
    c.GetParentIds.all (fun pid =>
      match GetCommit s pid with
      | some p => decide (rank p < rank c)
      | none => false))

/-- Every parent id of a stored commit is the id of a stored commit that
is strictly older in the heap order `(timestamp, id)`. -/
def parentsOlder (s : PageStorage) : Bool :=
  s.all (fun c => c.GetParentIds.all (fun pid =>
    match GetCommit s pid with
    | some p => older p c
    | none => false))

/-- Tag inclusion. -/
def SideTag.le (a b : SideTag) : Prop :=
  (a.left_side = true → b.left_side = true) ∧ (a.right_side = true → b.right_side = true)

/-- What the search keeps true of its state for the inputs `l` and `r`:
the commits of the frontier are stored, one entry each, and carry a tag; a
tag names only inputs the commit is an ancestor of; the inputs carry their
tags; a commit that is not in the frontier has passed its tag on to its
parents. -/
structure SearchOK (s : PageStorage) (l r : Commit) (st : SearchState) : Prop where
  stored : ∀ c ∈ st.frontier, GetCommit s c.GetId = some c
  nodup : (st.frontier.map (fun c => c.GetId)).Nodup
  tagged : ∀ c ∈ st.frontier,
    (st.tags c.GetId).left_side = true ∨ (st.tags c.GetId).right_side = true
  sound : ∀ x, GetCommit s x.GetId = some x →
    ((st.tags x.GetId).left_side = true → IsAncestor s x l) ∧
    ((st.tags x.GetId).right_side = true → IsAncestor s x r)
  inputs : (st.tags l.GetId).left_side = true ∧ (st.tags r.GetId).right_side = true
  passed : ∀ x p, GetCommit s x.GetId = some x → x ∉ st.frontier → IsParent s p x →
    (st.tags x.GetId).le (st.tags p.GetId)

/-- One round of the search that does not end it: the commit popped and
the parents fetched. -/
structure Round (s : PageStorage) (st : SearchState) (c : Commit) (ps : List Commit) :
    Prop where
  popped : newest st.frontier = some c
  not_emits : emits st c = false
  fetched : fetchParents s c.GetParentIds = some ps

/-- The weight of a commit in the measure of the frontier that shows the
search ends. -/
def weight (rank : Commit → Nat) (c : Commit) : Nat := 3 ^ rank c

/-- The measure of the frontier that shows the search ends: it falls with
every round. -/
def frontierWeight (rank : Commit → Nat) (f : Frontier) : Nat := (f.map (weight rank)).sum

namespace Example

/-- The graph of `CommonAncestorTest.MergeCommitAndSomeOthers`: `A` and `B`
are children of the root, `merge` has the parents `A` and `B`, `c1` is a child
of `A` and `c2` a child of `B`; timestamps follow the order of creation. -/
def root : Commit := ⟨kFirstPageCommitId, [], 0, ""⟩

def A : Commit := ⟨1, [0], 1, "a"⟩

def B : Commit := ⟨2, [0], 2, "b"⟩

def merge : Commit := ⟨3, [1, 2], 3, "c"⟩

def c1 : Commit := ⟨4, [1], 4, "1"⟩

def c2 : Commit := ⟨5, [2], 5, "2"⟩

def testGraph : PageStorage := [root, A, B, merge, c1, c2]

/-- Two children of a root whose timestamp lies between theirs. -/
def skewRoot : Commit := ⟨kFirstPageCommitId, [], 3, "100"⟩

def skewA : Commit := ⟨1, [0], 5, "101"⟩

def skewB : Commit := ⟨2, [0], 1, "102"⟩

def skewGraph : PageStorage := [skewRoot, skewA, skewB]

/-- A chain `chainRoot ← X ← Y ← Z` in which `Z` is older than its parent `Y`. -/
def chainRoot : Commit := ⟨kFirstPageCommitId, [], 0, "100"⟩

def X : Commit := ⟨1, [0], 1, "101"⟩

def Y : Commit := ⟨2, [1], 5, "102"⟩

def Z : Commit := ⟨3, [2], 3, "103"⟩

def chainGraph : PageStorage := [chainRoot, X, Y, Z]

end Example

/-! ## Merge resolver (`merge_resolver.cc`) -/

namespace storage

/-- Statuses of the storage layer (`storage::Status`). -/
inductive Status where
  | OK
  | NOT_FOUND
  | FORMAT_ERROR
  | ILLEGAL_STATE
deriving DecidableEq, Repr

end storage

/-- Statuses of the ledger surfaced to the resolver (`ledger::Status`). -/
inductive Status where
  | OK
  | PARTIAL_RESULT
  | NOT_FOUND
  | INTERNAL_ERROR
  | ILLEGAL_STATE
deriving DecidableEq, Repr

/-- A merge strategy object, by identity. -/
abbrev StrategyId := Nat

/-- What the merge resolver does to its collaborators, in the order it does
it, with marks for the steps of its own that the properties speak of. -/
inductive ResolverEffect where
  /-- `PostCheckConflicts()`: a delayed `CheckConflicts` task is posted -/
  | PostCheckConflicts
  /-- `strategy_->Cancel()` -/
  | Cancel (strategy : StrategyId)
  /-- `storage_->GetCommit(id, ...)` -/
  | GetCommit (id : CommitId)
  /-- `storage_->MergeIdenticalCommits(commits[0], commits[1], ...)` -/
  | MergeIdenticalCommits (c0 c1 : Commit)
  /-- `FindCommonAncestor(..., head1, head2, ...)` -/
  | FindCommonAncestor (head1 head2 : Commit)
  /-- `strategy_->Merge(storage_, page_manager_, head1, head2, ancestor, ...)` -/
  | Merge (strategy : StrategyId) (head1 head2 ancestor : Commit)
  /-- `on_empty_callback_()` -/
  | on_empty_callback
  /-- `FTL_LOG(ERROR)` -/
  | log_error (message : String)
  /-- the scoped cleanup of `ResolveConflicts` starts running -/
  | cleanup
  /-- `commits[0]` or `commits[1]` is read where the vector holds no such commit -/
  | missing_commit
  /-- a call through `strategy_` while it is null -/
  | null_strategy
deriving DecidableEq, Repr

/-- Where a round of `ResolveConflicts` stands: which callback holds its
scoped cleanup. -/
inductive RoundPhase where
  /-- the waiter's callback: the head commits are being fetched -/
  | fetching
  /-- the callback of `MergeIdenticalCommits` -/
  | merging_identical
  /-- the callback of `FindCommonAncestor`, with the heads it captured -/
  | finding_ancestor (head1 head2 : Commit)
  /-- the `on_done` closure handed to `strategy_->Merge` -/
  | merging
deriving DecidableEq, Repr

/-- The state of a `MergeResolver`. `rounds` lists the scoped cleanups that
are armed and have not run, one per round of `ResolveConflicts`; `crashed` is
set when a step has undefined behaviour, after which nothing more is
modelled. -/
structure MergeResolver where
  strategy_ : Option StrategyId
  next_strategy_ : Option StrategyId
  merge_in_progress_ : Bool
  on_empty_callback_ : Bool
  rounds : List RoundPhase
  crashed : Bool
  log : List ResolverEffect
deriving DecidableEq, Repr

/-- What reaches the merge resolver. A callback names the round whose
cleanup it holds by its position in `rounds`. -/
inductive ResolverEvent where
  /-- `OnNewCommits(commits, source)` -/
  | OnNewCommits
  /-- `SetMergeStrategy(strategy)`, `none` for a null pointer -/
  | SetMergeStrategy (strategy : Option StrategyId)
  /-- `set_on_empty(on_empty_callback)` -/
  | set_on_empty
  /-- a posted `CheckConflicts` task runs; `heads` is what
  `GetHeadCommitIds` returns -/
  | CheckConflicts (heads : List CommitId)
  /-- the waiter of the head fetch calls back -/
  | commits_fetched (round : Nat) (status : storage.Status) (commits : List Commit)
  /-- `MergeIdenticalCommits` calls back -/
  | identical_merged (round : Nat) (status : storage.Status)
  /-- `FindCommonAncestor` calls back -/
  | ancestor_found (round : Nat) (status : Status) (common_ancestor : Commit)
  /-- the strategy releases the `on_done` closure of `Merge` -/
  | merge_done (round : Nat)
deriving DecidableEq, Repr

namespace MergeResolver

def emit (r : MergeResolver) (e : ResolverEffect) : MergeResolver :=
  { r with log := r.log ++ [e] }

/-- Undefined behaviour: the effect is recorded and the model stops. -/
def crash (r : MergeResolver) (e : ResolverEffect) : MergeResolver :=
  { r with log := r.log ++ [e], crashed := true }

/-- The constructor: registers as a commit watcher and posts a first check. -/
def create : MergeResolver :=
  { strategy_ := none, next_strategy_ := none, merge_in_progress_ := false,
    on_empty_callback_ := false, rounds := [], crashed := false,
    log := [.PostCheckConflicts] }

def PostCheckConflicts (r : MergeResolver) : MergeResolver :=
  r.emit .PostCheckConflicts

def SetMergeStrategy (r : MergeResolver) (strategy : Option StrategyId) : MergeResolver :=
  if r.merge_in_progress_ then
    let r1 : MergeResolver := { r with next_strategy_ := strategy }
    match r1.strategy_ with
    | some s => r1.emit (.Cancel s)
    | none => r1.crash .null_strategy
  else
    let r1 : MergeResolver := { r with strategy_ := strategy }
    if r1.strategy_.isSome then r1.PostCheckConflicts else r1

/-- The scoped cleanup armed by `ResolveConflicts`, run for the round at
position `i`. -/
def cleanup (r : MergeResolver) (i : Nat) : MergeResolver :=
  let r1 : MergeResolver :=
    { r with rounds := r.rounds.eraseIdx i, log := r.log ++ [ResolverEffect.cleanup] }
  let r2 : MergeResolver := { r1 with merge_in_progress_ := false }
  let r3 : MergeResolver :=
    match r2.next_strategy_ with
    | some s => { r2 with strategy_ := some s, next_strategy_ := none }
    | none => r2
  let r4 := r3.PostCheckConflicts
  if r4.on_empty_callback_ then r4.emit .on_empty_callback else r4

def setPhase (r : MergeResolver) (i : Nat) (p : RoundPhase) : MergeResolver :=
  { r with rounds := r.rounds.set i p }

def ResolveConflicts (r : MergeResolver) (heads : List CommitId) : MergeResolver :=
  let r1 : MergeResolver :=
    { r with merge_in_progress_ := true, rounds := r.rounds ++ [RoundPhase.fetching] }
  { r1 with log := r1.log ++ heads.map ResolverEffect.GetCommit }

def CheckConflicts (r : MergeResolver) (heads : List CommitId) : MergeResolver :=
  if r.strategy_.isNone || r.merge_in_progress_ then r
  else if heads.length = 1 then r
  else r.ResolveConflicts heads

/-- The comparator of the `std::sort` in `ResolveConflicts` orders by
timestamp, ascending; this is the order the sorted vector is in. -/
def timestampLe (a b : Commit) : Prop := a.GetTimestamp ≤ b.GetTimestamp

instance : DecidableRel timestampLe := fun a b =>
  inferInstanceAs (Decidable (a.GetTimestamp ≤ b.GetTimestamp))

/-- The continuation given to the waiter of the head fetch. The root ids
of `commits[0]` and `commits[1]` are compared before `status` is looked at;
`std::sort` is rendered by an insertion sort with the same comparator. -/
def onCommitsFetched (r : MergeResolver) (i : Nat) (status : storage.Status)
    (commits : List Commit) : MergeResolver :=
  match commits with
  | c0 :: c1 :: _ =>
    if c0.GetRootId = c1.GetRootId then
      (r.setPhase i .merging_identical).emit (.MergeIdenticalCommits c0 c1)
    else if r.next_strategy_.isSome then r.cleanup i
    else if status ≠ .OK then
      (r.emit (.log_error "Failed to retrieve head commits.")).cleanup i
    else
      match commits.insertionSort timestampLe with
      | head1 :: head2 :: _ =>
        (r.setPhase i (.finding_ancestor head1 head2)).emit
          (.FindCommonAncestor head1 head2)
      | _ => r.crash .missing_commit
  | _ => r.crash .missing_commit

/-- The callback given to `MergeIdenticalCommits`. -/
def onIdenticalMerged (r : MergeResolver) (i : Nat) (status : storage.Status) :
    MergeResolver :=
  if status ≠ .OK then
    (r.emit (.log_error "Unable to merge identical commits.")).cleanup i
  else r.cleanup i

/-- The callback given to `FindCommonAncestor`. -/
def onAncestorFound (r : MergeResolver) (i : Nat) (head1 head2 : Commit) (status : Status)
    (common_ancestor : Commit) : MergeResolver :=
  if r.next_strategy_.isSome then r.cleanup i
  else if status ≠ .OK then
    (r.emit (.log_error "Failed to find common ancestor of head commits.")).cleanup i
  else
    match r.strategy_ with
    | some s => (r.setPhase i .merging).emit (.Merge s head1 head2 common_ancestor)
    | none => r.crash .null_strategy

/-- One event. A callback for a round that is not waiting for it does not
exist and changes nothing. -/
def step (r : MergeResolver) (ev : ResolverEvent) : MergeResolver :=
  if r.crashed then r
  else
    match ev with
    | .OnNewCommits => r.PostCheckConflicts
    | .SetMergeStrategy strategy => r.SetMergeStrategy strategy
    | .set_on_empty => { r with on_empty_callback_ := true }
    | .CheckConflicts heads => r.CheckConflicts heads
    | .commits_fetched i status commits =>
      match r.rounds.get? i with
      | some .fetching => r.onCommitsFetched i status commits
      | _ => r
    | .identical_merged i status =>
      match r.rounds.get? i with
      | some .merging_identical => r.onIdenticalMerged i status
      | _ => r
    | .ancestor_found i status common_ancestor =>
      match r.rounds.get? i with
      | some (.finding_ancestor head1 head2) =>
        r.onAncestorFound i head1 head2 status common_ancestor
      | _ => r
    | .merge_done i =>
      match r.rounds.get? i with
      | some .merging => r.cleanup i
      | _ => r

def run (r : MergeResolver) (evs : List ResolverEvent) : MergeResolver :=
  evs.foldl step r

end MergeResolver

/-- A merge of two heads is under way in a round: `MergeIdenticalCommits`
or `strategy_->Merge` has been called and the round's cleanup has not run. -/
def RoundPhase.isMerge : RoundPhase → Bool
  | .merging_identical => true
  | .merging => true
  | _ => false

/-- The effect starts a merge of two heads. -/
def ResolverEffect.isMergeStart : ResolverEffect → Bool
  | .MergeIdenticalCommits _ _ => true
  | .Merge _ _ _ _ => true
  | _ => false

namespace MergeResolver

/-- What the cleanup appends to the log. -/
def cleanupEffects (r : MergeResolver) : List ResolverEffect :=
  [.cleanup, .PostCheckConflicts] ++ (if r.on_empty_callback_ then [.on_empty_callback] else [])

/-! ### One round at a time -/

/-- At most one cleanup is armed, and the flag says whether one is. -/
def OneRoundOf (rounds : List RoundPhase) (merge_in_progress : Bool) : Prop :=
  rounds.length ≤ 1 ∧ (merge_in_progress = true ↔ rounds ≠ [])

/-- At most one cleanup is armed, and `merge_in_progress_` says whether one is. -/
def OneRound (r : MergeResolver) : Prop :=
  OneRoundOf r.rounds r.merge_in_progress_

/-- The number of merges of two heads started so far. -/
def mergeStarts (log : List ResolverEffect) : Nat :=
  log.countP ResolverEffect.isMergeStart

/-- Going from `r` to `r'` arms a new cleanup only if none is armed in `r`
and its flag is down. -/
def ArmsIdle (r r' : MergeResolver) : Prop :=
  r.rounds.length < r'.rounds.length → r.merge_in_progress_ = false ∧ r.rounds = []

/-- Going from `r` to `r'` starts a merge of two heads only if no round of
`r` has a merge under way. -/
def StartsIdle (r r' : MergeResolver) : Prop :=
  mergeStarts r.log < mergeStarts r'.log → ∀ p ∈ r.rounds, p.isMerge = false

/-! ### The order of the heads given to the strategy -/

instance : IsTotal Commit timestampLe := ⟨fun a b => le_total a.GetTimestamp b.GetTimestamp⟩

instance : IsTrans Commit timestampLe :=
  ⟨fun a b c (hab : a.GetTimestamp ≤ b.GetTimestamp) (hbc : b.GetTimestamp ≤ c.GetTimestamp) =>
    le_trans hab hbc⟩

/-- The heads of a `Merge` call are in ascending order of timestamp. -/
def effectOrdered : ResolverEffect → Prop
  | .Merge _ head1 head2 _ => head1.GetTimestamp ≤ head2.GetTimestamp
  | _ => True

/-- The heads a pending `FindCommonAncestor` callback has captured are in
ascending order of timestamp. -/
def phaseOrdered : RoundPhase → Prop
  | .finding_ancestor head1 head2 => head1.GetTimestamp ≤ head2.GetTimestamp
  | _ => True

def MergeOrdered (r : MergeResolver) : Prop :=
  (∀ e ∈ r.log, effectOrdered e) ∧ (∀ p ∈ r.rounds, phaseOrdered p)

/-! ### The exits of a round -/

/-- The vector of fetched heads holds `commits[0]` and `commits[1]`, and
their root ids differ. -/
def differentHeads : List Commit → Bool
  | c0 :: c1 :: _ => decide (c0.GetRootId ≠ c1.GetRootId)
  | _ => false

/-- The event takes a round of `ResolveConflicts` to one of its exits:
the fetch of the heads has failed (the waiter calls back with a status that
is not OK) or has ended with a strategy pending, on heads that differ; the
callback of `MergeIdenticalCommits` runs, with or without an error; the
search for the common ancestor has failed or has ended with a strategy
pending; the strategy releases the `on_done` closure of `Merge`. -/
def exitPath (r : MergeResolver) : ResolverEvent → Bool
  | .commits_fetched i status commits =>
    match r.rounds.get? i with
    | some .fetching =>
      decide (status ≠ .OK) || (r.next_strategy_.isSome && differentHeads commits)
    | _ => false
  | .identical_merged i _ =>
    match r.rounds.get? i with
    | some .merging_identical => true
    | _ => false
  | .ancestor_found i status _ =>
    match r.rounds.get? i with
    | some (.finding_ancestor _ _) => r.next_strategy_.isSome || decide (status ≠ .OK)
    | _ => false
  | .merge_done i =>
    match r.rounds.get? i with
    | some .merging => true
    | _ => false
  | _ => false

/-- The event is not the end of a fetch, or the vector it hands over holds
`commits[0]` and `commits[1]` with different root ids: the waiter's callback
gets past its first test, the comparison of these root ids. -/
def headsDiffer : ResolverEvent → Bool
  | .commits_fetched _ _ commits => differentHeads commits
  | _ => true

/-- The scoped cleanup has run once between `r` and `r'`: but for error
messages logged before it, the log has grown by the mark of the cleanup, one
`PostCheckConflicts` and, if `on_empty_callback_` is set, one call of it, in
this order; the flag is down and no cleanup is armed any more; the pending
strategy, if there was one, is the strategy and none is pending. -/
structure CleanedUp (r r' : MergeResolver) : Prop where
  log : ∃ pre, (∀ e ∈ pre, ∃ message, e = ResolverEffect.log_error message) ∧
    r'.log = r.log ++ pre ++ ([ResolverEffect.cleanup, ResolverEffect.PostCheckConflicts] ++
      (if r.on_empty_callback_ then [ResolverEffect.on_empty_callback] else []))
  merge_in_progress : r'.merge_in_progress_ = false
  rounds : r'.rounds = []
  next_strategy : r'.next_strategy_ = none
  strategy : r'.strategy_ = (match r.next_strategy_ with
    | some s => some s
    | none => r.strategy_)
  on_empty_callback : r'.on_empty_callback_ = r.on_empty_callback_
  alive : r'.crashed = false

end MergeResolver

namespace Example

/-- Two heads with different contents, `headOld` created before `headNew`. -/
def headOld : Commit := ⟨11, [0], 10, "a"⟩

def headNew : Commit := ⟨12, [0], 20, "b"⟩

/-- Three heads, in the order of their ids; the two oldest, `headY` and
`headZ`, have the same contents, the first two do not. -/
def headX : Commit := ⟨11, [0], 30, "a"⟩

def headY : Commit := ⟨12, [0], 10, "b"⟩

def headZ : Commit := ⟨13, [0], 20, "b"⟩

/-- A round on the heads `headOld` and `headNew` that runs to the call of
the strategy. -/
def twoHeadRound : List ResolverEvent :=
  [.SetMergeStrategy (some 1), .CheckConflicts [11, 12],
    .commits_fetched 0 .OK [headOld, headNew], .ancestor_found 0 .OK root]

/-- A round on the three heads `headX`, `headY`, `headZ`, all fetched. -/
def threeHeadRound : List ResolverEvent :=
  [.SetMergeStrategy (some 1), .CheckConflicts [11, 12, 13],
    .commits_fetched 0 .OK [headX, headY, headZ], .ancestor_found 0 .OK root]

/-- A round during which the strategy is set to null, run to its end. -/
def nullStrategyRound : List ResolverEvent :=
  [.SetMergeStrategy (some 1), .CheckConflicts [11, 12], .SetMergeStrategy none,
    .commits_fetched 0 .OK [headOld, headNew], .ancestor_found 0 .OK root, .merge_done 0]

/-- A round on two heads for which the fetch of a head fails: the waiter
calls back with the error and without the commits. -/
def failedFetchRound : List ResolverEvent :=
  [.SetMergeStrategy (some 1), .CheckConflicts [11, 12], .commits_fetched 0 .NOT_FOUND []]

/-- The start of a round on two heads: the heads are being fetched. -/
def fetchingRound : List ResolverEvent :=
  [.SetMergeStrategy (some 1), .CheckConflicts [11, 12]]

end Example

/-! ## Conflict resolver client (`conflict_resolver_client.cc`) -/

inductive ValueSource where
  | RIGHT
  | NEW
  | DELETE
deriving DecidableEq, Repr

inductive Priority where
  | EAGER
  | LAZY
deriving DecidableEq, Repr

namespace storage

inductive KeyPriority where
  | EAGER
  | LAZY
deriving DecidableEq, Repr

end storage

/-- The value of a `NEW` merged value: inline bytes or a reference. -/
inductive BytesOrReference where
  | bytes (b : String)
  | reference (opaque_id : String)
deriving DecidableEq, Repr

/-- One decision of the resolver for one key. The nullable `new_value` of
the interface is modelled as always present: the code reads it for `NEW`
only, and dereferences it unchecked there. -/
structure MergedValue where
  key : String
  source : ValueSource
  new_value : BytesOrReference
  priority : Priority
deriving DecidableEq, Repr

/-- The changes of one page of a diff, as `ComputePageChange` returns them. -/
abbrev PageChange := List (String × String)

/-- What the storage answers for one merged value: the status and object id
of the lookup (`GetEntryFromCommit`) or of the object add
(`AddObjectFromLocal`) where the value asks for one, and the status
`journal_->Put` returns. -/
structure StorageAnswer where
  status : storage.Status
  object_id : ObjectId
  put_status : storage.Status
deriving DecidableEq, Repr

/-- Modelled from the spec: `PageUtils::ConvertStatus`, whose source is not
among the sources: the fixed translation of storage statuses into the statuses
surfaced to the resolver, `OK` to `OK`, `NOT_FOUND` to `NOT_FOUND`, other
storage errors to themselves or to `INTERNAL_ERROR`. -/
def ConvertStatus : storage.Status → Status
  | .OK => .OK
  | .NOT_FOUND => .NOT_FOUND
  | .ILLEGAL_STATE => .ILLEGAL_STATE
  | .FORMAT_ERROR => .INTERNAL_ERROR

/-- What the client does to its collaborators, in the order it does it. -/
inductive ClientEffect where
  /-- `storage_->StartMergeCommit(left, right, &journal_)` and its status -/
  | StartMergeCommit (left right : CommitId) (status : storage.Status)
  /-- `manager_->BindPageSnapshot(commit, ...)` -/
  | BindPageSnapshot (commit : CommitId)
  /-- `conflict_resolver_->Resolve(...)` -/
  | Resolve
  /-- `journal_->Rollback()` -/
  | journal_Rollback
  /-- `journal_->Delete(key)` -/
  | journal_Delete (key : String)
  /-- `journal_->Put(key, object_id, priority)` and the status it returns -/
  | journal_Put (key : String) (object_id : ObjectId) (priority : storage.KeyPriority)
      (status : storage.Status)
  /-- `journal_->Commit(...)` -/
  | journal_Commit
  /-- the closure `on_done_` held since the constructor is called -/
  | on_done
  /-- `on_done()` is called on the closure left empty by an earlier
  `Finalize` -/
  | empty_on_done
  /-- a call through `journal_` while it is null -/
  | null_journal
  /-- `storage_->GetEntryFromCommit(*right_, key, ...)` -/
  | GetEntryFromCommit (commit : CommitId) (key : String)
  /-- `storage_->AddObjectFromLocal(socket, size, ...)` with the bytes written -/
  | AddObjectFromLocal (bytes : String)
  /-- `diff_utils::ComputePageChange(storage_, *ancestor_, commit, "", token, ...)` -/
  | ComputePageChange (base other : CommitId) (token : String)
  /-- the reply to `GetLeftDiff` or `GetRightDiff` -/
  | diff_reply (status : Status) (change : Option PageChange) (next_token : Option String)
  /-- the reply to `Merge` -/
  | merge_reply (status : Status)
  /-- the reply to `Done` -/
  | done_reply (status : Status)
  /-- `FTL_LOG(ERROR)` -/
  | log_error (message : String)
deriving DecidableEq, Repr

/-- Modelled from the spec: a `Merge` operation in the operation serializer
(`operation_serializer_`, whose class is not among the sources): the batch with
the storage's answers, whether its closure has run, and the results its waiter
has collected. -/
structure PendingMerge where
  values : List (MergedValue × StorageAnswer)
  started : Bool
  results : List (storage.Status × ObjectId)
deriving DecidableEq, Repr

/-- The state of a `ConflictResolverClient`. `destroyed` says the object
is gone (its weak pointers are invalid); `crashed` is set when a step has
undefined behaviour or calls an empty closure, after which nothing more is
modelled. -/
structure ConflictResolverClient where
  left_ : Commit
  right_ : Commit
  ancestor_ : Commit
  journal_ : Bool
  on_done_ : Bool
  in_client_request_ : Bool
  cancelled_ : Bool
  operation_serializer_ : List PendingMerge
  commit_pending : Bool
  destroyed : Bool
  crashed : Bool
  log : List ClientEffect
deriving DecidableEq, Repr

/-- What reaches the client after `Start`. -/
inductive ClientEvent where
  /-- `Cancel()` -/
  | Cancel
  /-- `GetLeftDiff(token)`, with what `ComputePageChange` calls back with -/
  | GetLeftDiff (token : String) (status : Status) (change : PageChange) (next_token : String)
  /-- `GetRightDiff(token)`, with what `ComputePageChange` calls back with -/
  | GetRightDiff (token : String) (status : Status) (change : PageChange) (next_token : String)
  /-- `Merge(merged_values)`, with what the storage will answer -/
  | Merge (merged_values : List (MergedValue × StorageAnswer))
  /-- the waiter of the running `Merge` calls back -/
  | merge_results
  /-- `Done()` -/
  | Done
  /-- `journal_->Commit` calls back -/
  | commit_done (status : storage.Status)
  /-- the destructor -/
  | destroy
deriving DecidableEq, Repr

namespace ConflictResolverClient

def emit (c : ConflictResolverClient) (e : ClientEffect) : ConflictResolverClient :=
  { c with log := c.log ++ [e] }

/-- Undefined behaviour or an abort: the effect is recorded and the model
stops. -/
def crash (c : ConflictResolverClient) (e : ClientEffect) : ConflictResolverClient :=
  { c with log := c.log ++ [e], crashed := true }

/-- The constructor. -/
def create (left right ancestor : Commit) : ConflictResolverClient :=
  { left_ := left, right_ := right, ancestor_ := ancestor, journal_ := false,
    on_done_ := true, in_client_request_ := false, cancelled_ := false,
    operation_serializer_ := [], commit_pending := false, destroyed := false,
    crashed := false, log := [] }

/-- `if (journal_) { journal_->Rollback(); journal_.reset(); }` -/
def rollbackJournal (c : ConflictResolverClient) : ConflictResolverClient :=
  if c.journal_ then { c with journal_ := false, log := c.log ++ [.journal_Rollback] }
  else c

/-- `auto on_done = std::move(on_done_); on_done_ = nullptr; on_done();`:
calling the closure a second time calls an empty closure. -/
def callOnDone (c : ConflictResolverClient) : ConflictResolverClient :=
  if c.on_done_ then { c with on_done_ := false, log := c.log ++ [.on_done] }
  else c.crash .empty_on_done

def Finalize (c : ConflictResolverClient) : ConflictResolverClient :=
  c.rollbackJournal.callOnDone

/-- `Start()`, `status` being what `StartMergeCommit` returns; the journal
is set only on success. -/
def Start (c : ConflictResolverClient) (status : storage.Status) : ConflictResolverClient :=
  let c1 : ConflictResolverClient :=
    { c with journal_ := decide (status = .OK),
             log := c.log ++ [.StartMergeCommit c.left_.GetId c.right_.GetId status] }
  if status ≠ .OK then
    (c1.emit (.log_error "Unable to start merge commit")).Finalize
  else
    let c2 : ConflictResolverClient :=
      { c1 with log := c1.log ++ [.BindPageSnapshot c.ancestor_.GetId,
                  .BindPageSnapshot c.left_.GetId, .BindPageSnapshot c.right_.GetId] }
    { c2 with in_client_request_ := true, log := c2.log ++ [.Resolve] }

def Cancel (c : ConflictResolverClient) : ConflictResolverClient :=
  let c1 : ConflictResolverClient := { c with cancelled_ := true }
  if c1.in_client_request_ then c1.Finalize else c1

/-- `GetDiff(commit, token, callback)` together with the callback it gives
`ComputePageChange`, run on what the computation returns: the request itself
reads and writes no state, so the state is the one the callback finds. -/
def GetDiff (c : ConflictResolverClient) (commit : Commit) (token : String) (status : Status)
    (change : PageChange) (next_token : String) : ConflictResolverClient :=
  let c1 := c.emit (.ComputePageChange c.ancestor_.GetId commit.GetId token)
  if c1.destroyed then c1.emit (.diff_reply .INTERNAL_ERROR none none)
  else if c1.cancelled_ then (c1.emit (.diff_reply .INTERNAL_ERROR none none)).Finalize
  else if status ≠ .OK then
    ((c1.emit (.log_error "Unable to compute diff")).emit (.diff_reply status none none)).Finalize
  else
    c1.emit (.diff_reply (if next_token.isEmpty then .OK else .PARTIAL_RESULT) (some change)
      (if next_token.isEmpty then none else some next_token))

def GetLeftDiff (c : ConflictResolverClient) (token : String) (status : Status)
    (change : PageChange) (next_token : String) : ConflictResolverClient :=
  c.GetDiff c.left_ token status change next_token

def GetRightDiff (c : ConflictResolverClient) (token : String) (status : Status)
    (change : PageChange) (next_token : String) : ConflictResolverClient :=
  c.GetDiff c.right_ token status change next_token

/-- `OnNextMergeResult(merged_value, waiter)`: the state after it and what
the waiter's callback for this value receives. -/
def OnNextMergeResult (c : ConflictResolverClient) (merged_value : MergedValue)
    (answer : StorageAnswer) : ConflictResolverClient × (storage.Status × ObjectId) :=
  match merged_value.source with
  | .RIGHT =>
    let c1 := c.emit (.GetEntryFromCommit c.right_.GetId merged_value.key)
    if answer.status ≠ .OK then
      if answer.status = .NOT_FOUND then
        (c1.emit (.log_error "Key is not present in the right change."), (answer.status, ""))
      else (c1, (answer.status, ""))
    else (c1, (.OK, answer.object_id))
  | .NEW =>
    match merged_value.new_value with
    | .bytes b => (c.emit (.AddObjectFromLocal b), (answer.status, answer.object_id))
    | .reference opaque_id => (c, (.OK, opaque_id))
  | .DELETE =>
    if c.journal_ then (c.emit (.journal_Delete merged_value.key), (.OK, ""))
    else (c.crash .null_journal, (.OK, ""))

/-- The loop over the batch that calls `OnNextMergeResult` for each value. -/
def collectResults (c : ConflictResolverClient) :
    List (MergedValue × StorageAnswer) →
      ConflictResolverClient × List (storage.Status × ObjectId)
  | [] => (c, [])
  | (v, a) :: rest =>
    let (c1, res) := c.OnNextMergeResult v a
    if c1.crashed then (c1, [res])
    else
      let (c2, results) := c1.collectResults rest
      (c2, res :: results)

/-- Modelled from the spec: the status with which the fan-out of lookups
and object adds of a batch completes (`callback::Waiter`, created with
`storage::Status::OK`, is not among the sources): the first status that is not
OK. -/
def waiterStatus : List (storage.Status × ObjectId) → storage.Status
  | [] => .OK
  | (st, _) :: rest => if st ≠ .OK then st else waiterStatus rest

def toKeyPriority : Priority → storage.KeyPriority
  | .EAGER => .EAGER
  | .LAZY => .LAZY

/-- The loop of `journal_->Put` calls over the object ids, with the status
to reply with; an empty object id is skipped, a failed `Put` ends the loop. -/
def putAll (c : ConflictResolverClient) :
    List (MergedValue × StorageAnswer) → List (storage.Status × ObjectId) →
      ConflictResolverClient × Status
  | (v, a) :: values, (_, object_id) :: results =>
    if object_id.isEmpty then c.putAll values results
    else if c.journal_ then
      let c1 := c.emit (.journal_Put v.key object_id (toKeyPriority v.priority) a.put_status)
      if a.put_status ≠ .OK then (c1, ConvertStatus a.put_status)
      else c1.putAll values results
    else (c.crash .null_journal, .INTERNAL_ERROR)
  | _, _ => (c, .OK)

/-- The closure `Merge` gives the operation serializer, run when the
operation reaches the head of the queue: `none` when the operation is over at
once, else the results the waiter collects. -/
def startMerge (c : ConflictResolverClient) (values : List (MergedValue × StorageAnswer)) :
    ConflictResolverClient × Option (List (storage.Status × ObjectId)) :=
  if c.destroyed then (c.emit (.merge_reply .INTERNAL_ERROR), none)
  else
    let (c1, results) := c.collectResults values
    (c1, some results)

/-- Modelled from the spec: the operation serializer, whose class is not
among the sources; a new operation is queued behind the completion of the one
before it. This starts the operations at the head of the queue until one waits
for its waiter (at most `fuel` of them). -/
def pump : Nat → ConflictResolverClient → ConflictResolverClient
  | 0, c => c
  | fuel + 1, c =>
    if c.crashed then c
    else
      match c.operation_serializer_ with
      | [] => c
      | op :: rest =>
        if op.started then c
        else
          match c.startMerge op.values with
          | (c1, none) => pump fuel { c1 with operation_serializer_ := rest }
          | (c1, some results) =>
            { c1 with operation_serializer_ :=
                { op with started := true, results := results } :: rest }

/-- `Merge(merged_values, callback)`: the operation is queued behind the
ones before it. -/
def Merge (c : ConflictResolverClient) (merged_values : List (MergedValue × StorageAnswer)) :
    ConflictResolverClient :=
  let c1 : ConflictResolverClient :=
    { c with operation_serializer_ :=
        c.operation_serializer_ ++ [{ values := merged_values, started := false, results := [] }] }
  pump c1.operation_serializer_.length c1

/-- The callback of the waiter of the running `Merge`. -/
def onMergeResults (c : ConflictResolverClient) (op : PendingMerge) : ConflictResolverClient :=
  if c.destroyed then c.emit (.merge_reply .INTERNAL_ERROR)
  else if c.cancelled_ || waiterStatus op.results ≠ .OK then
    let c1 := c.Finalize
    if c1.crashed then c1
    else c1.emit (.merge_reply
      (if c1.cancelled_ then .INTERNAL_ERROR else ConvertStatus (waiterStatus op.results)))
  else
    let (c1, status) := c.putAll op.values op.results
    if c1.crashed then c1 else c1.emit (.merge_reply status)

def Done (c : ConflictResolverClient) : ConflictResolverClient :=
  let c1 : ConflictResolverClient := { c with in_client_request_ := false }
  if c1.journal_ then { c1 with commit_pending := true, log := c1.log ++ [.journal_Commit] }
  else c1.crash .null_journal

/-- `journal_.reset()` -/
def resetJournal (c : ConflictResolverClient) : ConflictResolverClient :=
  { c with journal_ := false }

/-- `if (failed) FTL_LOG(ERROR) << message;` -/
def logErrorIf (c : ConflictResolverClient) (failed : Bool) (message : String) :
    ConflictResolverClient :=
  if failed then c.emit (.log_error message) else c

/-- The callback given to `journal_->Commit`. -/
def onCommitDone (c : ConflictResolverClient) (status : storage.Status) :
    ConflictResolverClient :=
  let c1 : ConflictResolverClient := { c with commit_pending := false }
  let c2 := c1.logErrorIf (decide (status ≠ .OK)) "Unable to commit merge journal"
  let c3 := c2.emit (.done_reply (ConvertStatus status))
  if c3.destroyed then c3 else c3.resetJournal.Finalize

/-- The destructor. -/
def destroy (c : ConflictResolverClient) : ConflictResolverClient :=
  { c.rollbackJournal with destroyed := true }

/-- One event. Nothing can be called on a destroyed client; callbacks that
hold a weak pointer still run. -/
def step (c : ConflictResolverClient) (ev : ClientEvent) : ConflictResolverClient :=
  if c.crashed then c
  else
    match ev with
    | .Cancel => if c.destroyed then c else c.Cancel
    | .GetLeftDiff token status change next_token =>
      c.GetLeftDiff token status change next_token
    | .GetRightDiff token status change next_token =>
      c.GetRightDiff token status change next_token
    | .Merge merged_values => c.Merge merged_values
    | .merge_results =>
      match c.operation_serializer_ with
      | op :: rest =>
        if op.started then
          let c1 := c.onMergeResults op
          pump rest.length { c1 with operation_serializer_ := rest }
        else c
      | [] => c
    | .Done => if c.destroyed then c else c.Done
    | .commit_done status => if c.commit_pending then c.onCommitDone status else c
    | .destroy => if c.destroyed then c else c.destroy

def run (c : ConflictResolverClient) (evs : List ClientEvent) : ConflictResolverClient :=
  evs.foldl step c

end ConflictResolverClient

/-- The operations `GetLeftDiff`, `GetRightDiff`, `Merge` and `Cancel`,
with the completion of a `Merge`. -/
def ClientEvent.isProviderOp : ClientEvent → Bool
  | .Cancel => true
  | .GetLeftDiff _ _ _ _ => true
  | .GetRightDiff _ _ _ _ => true
  | .Merge _ => true
  | .merge_results => true
  | _ => false

/-- The effect neither calls `on_done_` nor opens or ends the journal. -/
def ClientEffect.isQuiet : ClientEffect → Bool
  | .StartMergeCommit _ _ _ => false
  | .journal_Rollback => false
  | .journal_Commit => false
  | .on_done => false
  | _ => true

/-- How often the closure `on_done_` has been called. -/
def onDoneCalls (log : List ClientEffect) : Nat :=
  log.count .on_done

/-- The state of the journal of the client, read off the calls made. -/
inductive JournalState where
  | not_started
  | open_
  | committed
  | rolled_back
deriving DecidableEq, Repr

def journalStep (j : JournalState) : ClientEffect → JournalState
  | .StartMergeCommit _ _ .OK => .open_
  | .journal_Rollback => .rolled_back
  | .journal_Commit => .committed
  | _ => j

/-- The state of the journal after the calls of `log`. -/
def journalState (log : List ClientEffect) : JournalState :=
  log.foldl journalStep .not_started

/-- The journal has been ended: committed or rolled back. -/
def JournalState.ended : JournalState → Prop
  | .committed => True
  | .rolled_back => True
  | _ => False

/-- No journal is open. -/
def JournalState.closed (j : JournalState) : Prop := j ≠ .open_

/-- A condition on the journal that holds once it is committed or rolled
back: `JournalState.closed` and `JournalState.ended` are the two in use. -/
structure EndCondition (P : JournalState → Prop) : Prop where
  committed : P .committed
  rolled_back : P .rolled_back

namespace ConflictResolverClient

/-! ### Steps that leave the journal and `on_done_` alone -/

/-- Going from `c` to `c'` leaves `on_done_`, the journal pointer and the
flags of the protocol as they are, calls `on_done_` on no path, neither starts
nor ends a journal, and stops the model only at a call through a null journal. -/
structure Quiet (c c' : ConflictResolverClient) : Prop where
  on_done : c'.on_done_ = c.on_done_
  journal : c'.journal_ = c.journal_
  in_request : c'.in_client_request_ = c.in_client_request_
  destroyed : c'.destroyed = c.destroyed
  commit_pending : c'.commit_pending = c.commit_pending
  cancelled : c'.cancelled_ = c.cancelled_
  log : ∃ l, c'.log = c.log ++ l ∧ ∀ e ∈ l, e.isQuiet = true
  crashed : c'.crashed = true → c.crashed = true ∨ c.journal_ = false

/-- Whenever `on_done_` is called in `log`, the journal is in a state `P`
after the calls before it. -/
def DoneClosed (P : JournalState → Prop) (log : List ClientEffect) : Prop :=
  ∀ pre post, log = pre ++ ClientEffect.on_done :: post → P (journalState pre)

/-- What holds of the journal at every point: `on_done_` was only called
with the journal in a state `P`, and the journal of a client that holds none,
or has called `Commit` on it, is in a state `P`. -/
def JournalClosed (P : JournalState → Prop) (c : ConflictResolverClient) : Prop :=
  DoneClosed P c.log ∧
    ((c.journal_ = true ∧ c.commit_pending = false) ∨ P (journalState c.log))

/-- `on_done_` was only called with the journal in a state `P`, and the
journal is in a state `P`. -/
def JournalEnded (P : JournalState → Prop) (c : ConflictResolverClient) : Prop :=
  DoneClosed P c.log ∧ P (journalState c.log)

/-! ### `on_done_` is called once -/

/-- What holds of a client in the hands of the resolver: `Done` has not
been called and the client is alive; `on_done_` has been called once if it
is consumed and not at all if it is not; the journal is held as long as
`on_done_` is, and the model has not stopped before `on_done_` is consumed.
With `consumed`, moreover, `on_done_` is consumed. -/
structure OnDoneOnce (consumed : Bool) (c : ConflictResolverClient) : Prop where
  in_request : c.in_client_request_ = true
  alive : c.destroyed = false
  no_commit : c.commit_pending = false
  calls : onDoneCalls c.log = if c.on_done_ then 0 else 1
  held : c.on_done_ = true → c.journal_ = true ∧ c.crashed = false
  dropped : c.on_done_ = false → c.journal_ = false
  consumed : consumed = true → c.on_done_ = false

end ConflictResolverClient

/-! ### What the resolver and the journal see of the client -/

/-- The replies given to `GetLeftDiff` and `GetRightDiff`, in order: the
status, the page change and the next token of each. -/
def diffReplies (log : List ClientEffect) : List (Status × Option PageChange × Option String) :=
  log.filterMap fun e =>
    match e with
    | .diff_reply status change next_token => some (status, change, next_token)
    | _ => none

/-- The replies given to `Merge`, in order. -/
def mergeReplies (log : List ClientEffect) : List Status :=
  log.filterMap fun e =>
    match e with
    | .merge_reply status => some status
    | _ => none

/-- An operation on the journal of the merge commit. -/
inductive JournalOp where
  | put (key : String) (object_id : ObjectId) (priority : storage.KeyPriority)
  | delete (key : String)
deriving DecidableEq, Repr

def JournalOp.isPut : JournalOp → Bool
  | .put _ _ _ => true
  | .delete _ => false

/-- The `Put` and `Delete` calls made on the journal, in order. -/
def journalOps (log : List ClientEffect) : List JournalOp :=
  log.filterMap fun e =>
    match e with
    | .journal_Put key object_id priority _ => some (.put key object_id priority)
    | .journal_Delete key => some (.delete key)
    | _ => none

/-- The object id of a put; a delete has none. -/
def JournalOp.object_id : JournalOp → ObjectId
  | .put _ object_id _ => object_id
  | .delete _ => ""

/-- The priority a merged value asks for, as the specification states it
(not the code): `EAGER` is `EAGER` and `LAZY` is `LAZY`. -/
def specKeyPriority : Priority → storage.KeyPriority
  | .EAGER => .EAGER
  | .LAZY => .LAZY

/-- The journal operation a merged value stands for, as the specification
states it (not the code): `RIGHT` is a put of the object id of the right
commit's entry for the key, `NEW` with bytes a put of the id of the object
added, `NEW` with a reference a put of its `opaque_id`, and `DELETE` a delete
of the key. -/
def specMergeOp (va : MergedValue × StorageAnswer) : JournalOp :=
  match va.1.source with
  | .RIGHT => .put va.1.key va.2.object_id (specKeyPriority va.1.priority)
  | .NEW =>
    match va.1.new_value with
    | .bytes _ => .put va.1.key va.2.object_id (specKeyPriority va.1.priority)
    | .reference opaque_id => .put va.1.key opaque_id (specKeyPriority va.1.priority)
  | .DELETE => .delete va.1.key

namespace Example

/-- A client whose `Start` has succeeded: the left head is the newer one. -/
def client : ConflictResolverClient :=
  (ConflictResolverClient.create headNew headOld root).Start .OK

/-- The storage answers OK throughout. -/
def allOK : StorageAnswer := ⟨.OK, "", .OK⟩

/-- A batch that sets the key `k` and then deletes it. -/
def putThenDelete : List (MergedValue × StorageAnswer) :=
  [(⟨"k", .NEW, .reference "obj", .EAGER⟩, allOK), (⟨"k", .DELETE, .bytes "", .LAZY⟩, allOK)]

/-- A batch of one reference whose `opaque_id` is empty. -/
def emptyReference : List (MergedValue × StorageAnswer) :=
  [(⟨"e", .NEW, .reference "", .EAGER⟩, allOK)]

/-- A batch with a value of each kind, for which the storage answers OK. -/
def allSources : List (MergedValue × StorageAnswer) :=
  [(⟨"a", .RIGHT, .bytes "", .LAZY⟩, ⟨.OK, "entry", .OK⟩),
   (⟨"b", .DELETE, .bytes "", .EAGER⟩, allOK),
   (⟨"c", .NEW, .bytes "text", .EAGER⟩, ⟨.OK, "added", .OK⟩),
   (⟨"d", .NEW, .reference "obj", .LAZY⟩, allOK)]

/-- A batch queued in the serializer, not started. -/
def behind : List PendingMerge := [⟨putThenDelete, false, []⟩]

/-- A started client with two batches in its serializer, neither started:
the first is at the head, the second is queued behind it. -/
def queued : ConflictResolverClient :=
  { client with operation_serializer_ := ⟨allSources, false, []⟩ :: behind }

/-- A batch of one reference for which `journal_->Put` fails. -/
def failedPut : List (MergedValue × StorageAnswer) :=
  [(⟨"k", .NEW, .reference "obj", .EAGER⟩, ⟨.OK, "", .ILLEGAL_STATE⟩)]

/-- A batch of one `RIGHT` value whose key the right commit does not have. -/
def failedLookup : List (MergedValue × StorageAnswer) :=
  [(⟨"k", .RIGHT, .bytes "", .EAGER⟩, ⟨.NOT_FOUND, "", .OK⟩)]

/-- A batch of one `NEW` value whose bytes the storage fails to add. -/
def failedAdd : List (MergedValue × StorageAnswer) :=
  [(⟨"k", .NEW, .bytes "text", .EAGER⟩, ⟨.FORMAT_ERROR, "", .OK⟩)]

end Example

end Ledger

/-! # Part 2: the properties -/

namespace Ledger

/-! ### The heap order -/

theorem older_irrefl (a : Commit) : older a a = false := by
  simp [older]

theorem older_iff (a b : Commit) : older a b = true ↔
    (a.GetTimestamp < b.GetTimestamp ∨
      (a.GetTimestamp = b.GetTimestamp ∧ a.GetId < b.GetId)) := by
  simp [older]

theorem older_false_iff (a b : Commit) : older a b = false ↔
    ¬ (a.GetTimestamp < b.GetTimestamp ∨
      (a.GetTimestamp = b.GetTimestamp ∧ a.GetId < b.GetId)) := by
  rw [← older_iff]
  simp

theorem older_trans {a b c : Commit} (hab : older a b = true) (hbc : older b c = true) :
    older a c = true := by
  rw [older_iff] at *
  omega

/-- Two commits neither of which is older than the other have the same id. -/
theorem id_eq_of_not_older {a b : Commit} (hab : older a b = false) (hba : older b a = false) :
    a.GetId = b.GetId := by
  rw [older_false_iff] at *
  omega

theorem older_of_not_older_of_older {x e c : Commit} (hex : older e x = false)
    (hec : older e c = true) : older x c = true := by
  rw [older_false_iff] at hex
  rw [older_iff] at *
  omega

/-! ### The storage -/

theorem GetCommit_id {s : PageStorage} {id : CommitId} {c : Commit}
    (h : GetCommit s id = some c) : c.GetId = id := by
  have := List.find?_some h
  simpa using this

theorem GetCommit_mem {s : PageStorage} {id : CommitId} {c : Commit}
    (h : GetCommit s id = some c) : c ∈ s :=
  List.mem_of_find?_eq_some h

/-- Two stored commits with the same id are the same commit. -/
theorem stored_eq_of_id_eq {s : PageStorage} {a b : Commit}
    (ha : GetCommit s a.GetId = some a) (hb : GetCommit s b.GetId = some b)
    (h : a.GetId = b.GetId) : a = b := by
  rw [h, hb] at ha
  exact (Option.some.inj ha).symm

theorem fetchParents_spec {s : PageStorage} :
    ∀ {ids : List CommitId} {ps : List Commit}, fetchParents s ids = some ps →
      (∀ p ∈ ps, p.GetId ∈ ids ∧ GetCommit s p.GetId = some p) ∧
      (∀ id ∈ ids, ∃ p ∈ ps, p.GetId = id)
  | [], ps, h => by
    simp only [fetchParents, Option.some.injEq] at h
    subst h
    simp
  | id :: ids, ps, h => by
    simp only [fetchParents] at h
    cases hg : GetCommit s id with
    | none => simp [hg] at h
    | some p =>
      cases hf : fetchParents s ids with
      | none => simp [hg, hf] at h
      | some qs =>
        simp only [hg, hf, Option.some.injEq] at h
        subst h
        have ih := fetchParents_spec hf
        have hid := GetCommit_id hg
        constructor
        · intro q hq
          rcases List.mem_cons.1 hq with rfl | hq
          · exact ⟨by simp [hid], by rw [hid]; exact hg⟩
          · exact ⟨List.mem_cons_of_mem _ (ih.1 q hq).1, (ih.1 q hq).2⟩
        · intro i hi
          rcases List.mem_cons.1 hi with rfl | hi
          · exact ⟨p, List.mem_cons_self _ _, hid⟩
          · obtain ⟨q, hq, hqi⟩ := ih.2 i hi
            exact ⟨q, List.mem_cons_of_mem _ hq, hqi⟩

theorem fetchParents_isSome {s : PageStorage} :
    ∀ {ids : List CommitId}, (∀ id ∈ ids, ∃ p, GetCommit s id = some p) →
      ∃ ps, fetchParents s ids = some ps
  | [], _ => ⟨[], rfl⟩
  | id :: ids, h => by
    obtain ⟨p, hp⟩ := h id (List.mem_cons_self _ _)
    obtain ⟨ps, hps⟩ := fetchParents_isSome (fun i hi => h i (List.mem_cons_of_mem _ hi))
    exact ⟨p :: ps, by simp [fetchParents, hp, hps]⟩

theorem parentsOlder_spec {s : PageStorage} (h : parentsOlder s = true) {c : Commit}
    (hc : c ∈ s) {pid : Nat} (hpid : pid ∈ c.GetParentIds) :
    ∃ p, GetCommit s pid = some p ∧ older p c = true := by
  simp only [parentsOlder, List.all_eq_true] at h
  have := h c hc pid hpid
  cases hg : GetCommit s pid with
  | none => simp [hg] at this
  | some p => exact ⟨p, rfl, by simpa [hg] using this⟩

theorem parent_older {s : PageStorage} (h : parentsOlder s = true) {p c : Commit}
    (hc : GetCommit s c.GetId = some c) (hpc : IsParent s p c) : older p c = true := by
  obtain ⟨q, hq, hqc⟩ := parentsOlder_spec h (GetCommit_mem hc) hpc.1
  rw [hpc.2] at hq
  cases hq
  exact hqc

/-- A proper ancestor reaches its descendant through one of its parents. -/
theorem ancestor_cases {s : PageStorage} {z c : Commit} (hzc : IsAncestor s z c) :
    z = c ∨ ∃ p, IsParent s p c ∧ IsAncestor s z p := by
  rcases Relation.ReflTransGen.cases_tail hzc with h | ⟨p, hzp, hpc⟩
  · exact Or.inl h.symm
  · exact Or.inr ⟨p, hpc, hzp⟩

theorem ancestor_stored {s : PageStorage} {z c : Commit} (hzc : IsAncestor s z c)
    (hc : GetCommit s c.GetId = some c) : GetCommit s z.GetId = some z := by
  rcases Relation.ReflTransGen.cases_head hzc with h | ⟨b, hzb, _⟩
  · rw [h]; exact hc
  · exact hzb.2

theorem ancestor_of_no_parents {s : PageStorage} {z c : Commit} (hc : c.GetParentIds = [])
    (h : IsAncestor s z c) : z = c := by
  rcases ancestor_cases h with h | ⟨p, hp, _⟩
  · exact h
  · have := hp.1
    rw [hc] at this
    simp at this

/-! ### The frontier and the tags -/

theorem newest_eq_none {f : Frontier} (h : newest f = none) : f = [] := by
  cases f with
  | nil => rfl
  | cons c rest =>
    simp only [newest] at h
    split at h
    · cases h
    · split at h <;> cases h

theorem newest_mem : ∀ {f : Frontier} {m : Commit}, newest f = some m → m ∈ f
  | [], _, h => by simp [newest] at h
  | c :: rest, m, h => by
    simp only [newest] at h
    split at h
    · cases h
      exact List.mem_cons_self _ _
    · rename_i m' hm'
      split at h
      · cases h
        exact List.mem_cons_self _ _
      · cases h
        exact List.mem_cons_of_mem _ (newest_mem hm')

/-- No commit of the frontier is newer than the one popped. -/
theorem newest_max : ∀ {f : Frontier} {m : Commit}, newest f = some m →
    ∀ e ∈ f, older m e = false
  | [], _, h => by simp [newest] at h
  | c :: rest, m, h => by
    simp only [newest] at h
    split at h
    · rename_i hn
      cases h
      intro e he
      rw [newest_eq_none hn] at he
      rcases List.mem_cons.1 he with rfl | he
      · exact older_irrefl _
      · simp at he
    · rename_i m' hm'
      have ih := newest_max hm'
      split at h
      · rename_i hlt
        cases h
        intro e he
        rcases List.mem_cons.1 he with rfl | he
        · exact older_irrefl _
        · cases hx : older c e with
          | false => rfl
          | true =>
            have := older_trans hlt hx
            rw [ih e he] at this
            cases this
      · rename_i hlt
        cases h
        intro e he
        rcases List.mem_cons.1 he with rfl | he
        · simpa using hlt
        · exact ih e he

theorem SideTag.le_refl (a : SideTag) : a.le a := ⟨id, id⟩

theorem SideTag.le_trans {a b c : SideTag} (h1 : a.le b) (h2 : b.le c) : a.le c :=
  ⟨fun h => h2.1 (h1.1 h), fun h => h2.2 (h1.2 h)⟩

theorem SideTag.le_union_left (a b : SideTag) : a.le (a.union b) := by
  constructor <;> intro h <;> simp [SideTag.union, h]

theorem SideTag.le_union_right (a b : SideTag) : b.le (a.union b) := by
  constructor <;> intro h <;> simp [SideTag.union, h]

theorem addTag_le (m : TagMap) (id : CommitId) (t : SideTag) (i : CommitId) :
    (m i).le (addTag m id t i) := by
  unfold addTag
  split
  · exact SideTag.le_union_left _ _
  · exact SideTag.le_refl _

theorem addTag_self (m : TagMap) (id : CommitId) (t : SideTag) : t.le (addTag m id t id) := by
  simp only [addTag, if_true]
  exact SideTag.le_union_right _ _

/-- A side of the tag of `i` after `addTag` was there before or comes with
the tag given to `i`. -/
theorem addTag_cases (m : TagMap) (id : CommitId) (t : SideTag) (i : CommitId)
    (side : SideTag → Bool)
    (hside : ∀ a b : SideTag, side (a.union b) = true → side a = true ∨ side b = true)
    (h : side (addTag m id t i) = true) : side (m i) = true ∨ (i = id ∧ side t = true) := by
  unfold addTag at h
  split at h
  · rename_i hi
    rcases hside _ _ h with h | h
    · exact Or.inl h
    · exact Or.inr ⟨hi, h⟩
  · exact Or.inl h

theorem left_union (a b : SideTag) (h : (a.union b).left_side = true) :
    a.left_side = true ∨ b.left_side = true := by
  simpa [SideTag.union] using h

theorem right_union (a b : SideTag) (h : (a.union b).right_side = true) :
    a.right_side = true ∨ b.right_side = true := by
  simpa [SideTag.union] using h

theorem mem_pushEntry {f : Frontier} {p x : Commit} (h : x ∈ pushEntry f p) :
    x ∈ f ∨ x = p := by
  unfold pushEntry at h
  split at h
  · exact Or.inl h
  · rcases List.mem_append.1 h with h | h
    · exact Or.inl h
    · exact Or.inr (by simpa using h)

theorem pushEntry_sub {f : Frontier} (p : Commit) {x : Commit} (h : x ∈ f) :
    x ∈ pushEntry f p := by
  unfold pushEntry
  split
  · exact h
  · exact List.mem_append_left _ h

theorem pushEntry_has (f : Frontier) (p : Commit) : ∃ e ∈ pushEntry f p, e.GetId = p.GetId := by
  unfold pushEntry
  split
  · rename_i h
    obtain ⟨e, he, hid⟩ := List.any_eq_true.1 h
    exact ⟨e, he, by simpa using hid⟩
  · exact ⟨p, by simp, rfl⟩

theorem pushEntry_nodup {f : Frontier} (p : Commit)
    (h : (f.map (fun c => c.GetId)).Nodup) :
    ((pushEntry f p).map (fun c => c.GetId)).Nodup := by
  unfold pushEntry
  split
  · exact h
  · rename_i hn
    rw [List.map_append, List.nodup_append]
    refine ⟨h, by simp, ?_⟩
    intro i hi hi'
    simp only [List.map_cons, List.map_nil, List.mem_singleton] at hi'
    subst hi'
    obtain ⟨e, he, hid⟩ := List.mem_map.1 hi
    exact hn (List.any_eq_true.2 ⟨e, he, by simpa using hid⟩)

theorem frontierWeight_pushEntry (rank : Commit → Nat) (f : Frontier) (p : Commit) :
    frontierWeight rank (pushEntry f p) ≤ frontierWeight rank f + weight rank p := by
  unfold pushEntry
  split
  · exact Nat.le_add_right _ _
  · simp [frontierWeight]

theorem frontierWeight_removeEntry (rank : Commit → Nat) :
    ∀ (f : Frontier) (c : Commit), c ∈ f →
      frontierWeight rank (removeEntry f c) + weight rank c ≤ frontierWeight rank f
  | [], c, h => by simp at h
  | e :: rest, c, h => by
    have hle : frontierWeight rank (removeEntry rest c) ≤ frontierWeight rank rest := by
      unfold frontierWeight removeEntry
      exact List.Sublist.sum_le_sum ((List.filter_sublist _).map _) (fun _ _ => Nat.zero_le _)
    rcases List.mem_cons.1 h with rfl | h
    · simp only [removeEntry, List.filter_cons, bne_self_eq_false, Bool.false_eq_true,
        if_false]
      simp only [frontierWeight, List.map_cons, List.sum_cons]
      have := hle
      simp only [frontierWeight, removeEntry] at this
      omega
    · have ih := frontierWeight_removeEntry rank rest c h
      simp only [removeEntry, List.filter_cons]
      split
      · simp only [frontierWeight, List.map_cons, List.sum_cons]
        simp only [frontierWeight, removeEntry] at ih
        omega
      · simp only [frontierWeight, List.map_cons, List.sum_cons]
        simp only [frontierWeight, removeEntry] at ih
        omega

/-! ### Reaching the parents of a popped commit -/

theorem reach_tags_le (t : SideTag) : ∀ (ps : List Commit) (g : SearchState) (i : CommitId),
    (g.tags i).le ((ps.foldl (fun acc p => mergeTag acc t p) g).tags i)
  | [], g, i => SideTag.le_refl _
  | p :: ps, g, i => by
    simp only [List.foldl_cons]
    exact SideTag.le_trans (addTag_le g.tags p.GetId t i) (reach_tags_le t ps (mergeTag g t p) i)

theorem reach_tags_has (t : SideTag) : ∀ (ps : List Commit) (g : SearchState), ∀ p ∈ ps,
    t.le ((ps.foldl (fun acc p => mergeTag acc t p) g).tags p.GetId)
  | [], _, p, hp => by simp at hp
  | q :: ps, g, p, hp => by
    simp only [List.foldl_cons]
    rcases List.mem_cons.1 hp with rfl | hp
    · exact SideTag.le_trans (addTag_self g.tags p.GetId t)
        (reach_tags_le t ps (mergeTag g t p) p.GetId)
    · exact reach_tags_has t ps _ p hp

/-- A side of a tag after the parents are reached was there before or
comes from the tag of the popped commit, the commit being one of the parents. -/
theorem reach_tags_cases (t : SideTag) (side : SideTag → Bool)
    (hside : ∀ a b : SideTag, side (a.union b) = true → side a = true ∨ side b = true) :
    ∀ (ps : List Commit) (g : SearchState) (i : CommitId),
      side ((ps.foldl (fun acc p => mergeTag acc t p) g).tags i) = true →
        side (g.tags i) = true ∨ (side t = true ∧ ∃ p ∈ ps, p.GetId = i)
  | [], g, i, h => Or.inl h
  | q :: ps, g, i, h => by
    simp only [List.foldl_cons] at h
    rcases reach_tags_cases t side hside ps _ i h with h | ⟨ht, p, hp, hpi⟩
    · rcases addTag_cases g.tags q.GetId t i side hside h with h | ⟨hi, ht⟩
      · exact Or.inl h
      · exact Or.inr ⟨ht, q, List.mem_cons_self _ _, hi.symm⟩
    · exact Or.inr ⟨ht, p, List.mem_cons_of_mem _ hp, hpi⟩

theorem reach_tags_same (t : SideTag) : ∀ (ps : List Commit) (g : SearchState) (i : CommitId),
    (∀ p ∈ ps, p.GetId ≠ i) → (ps.foldl (fun acc p => mergeTag acc t p) g).tags i = g.tags i
  | [], _, _, _ => rfl
  | q :: ps, g, i, h => by
    simp only [List.foldl_cons]
    rw [reach_tags_same t ps _ i (fun p hp => h p (List.mem_cons_of_mem _ hp))]
    have : i ≠ q.GetId := fun e => h q (List.mem_cons_self _ _) e.symm
    simp [mergeTag, addTag, this]

theorem reach_mem (t : SideTag) : ∀ (ps : List Commit) (g : SearchState) (x : Commit),
    x ∈ (ps.foldl (fun acc p => mergeTag acc t p) g).frontier → x ∈ g.frontier ∨ x ∈ ps
  | [], _, _, h => Or.inl h
  | q :: ps, g, x, h => by
    simp only [List.foldl_cons] at h
    rcases reach_mem t ps _ x h with h | h
    · rcases mem_pushEntry h with h | h
      · exact Or.inl h
      · exact Or.inr (h ▸ List.mem_cons_self _ _)
    · exact Or.inr (List.mem_cons_of_mem _ h)

theorem reach_sub (t : SideTag) : ∀ (ps : List Commit) (g : SearchState) (x : Commit),
    x ∈ g.frontier → x ∈ (ps.foldl (fun acc p => mergeTag acc t p) g).frontier
  | [], _, _, h => h
  | q :: ps, g, x, h => by
    simp only [List.foldl_cons]
    exact reach_sub t ps _ x (pushEntry_sub q h)

theorem reach_has (t : SideTag) : ∀ (ps : List Commit) (g : SearchState), ∀ p ∈ ps,
    ∃ e ∈ (ps.foldl (fun acc p => mergeTag acc t p) g).frontier, e.GetId = p.GetId
  | [], _, p, hp => by simp at hp
  | q :: ps, g, p, hp => by
    simp only [List.foldl_cons]
    rcases List.mem_cons.1 hp with rfl | hp
    · obtain ⟨e, he, hid⟩ := pushEntry_has g.frontier p
      exact ⟨e, reach_sub t ps _ e he, hid⟩
    · exact reach_has t ps _ p hp

theorem reach_nodup (t : SideTag) : ∀ (ps : List Commit) (g : SearchState),
    (g.frontier.map (fun c => c.GetId)).Nodup →
      ((ps.foldl (fun acc p => mergeTag acc t p) g).frontier.map (fun c => c.GetId)).Nodup
  | [], _, h => h
  | q :: ps, g, h => by
    simp only [List.foldl_cons]
    exact reach_nodup t ps _ (pushEntry_nodup q h)

theorem reach_weight (rank : Commit → Nat) (t : SideTag) :
    ∀ (ps : List Commit) (g : SearchState),
      frontierWeight rank (ps.foldl (fun acc p => mergeTag acc t p) g).frontier ≤
        frontierWeight rank g.frontier + (ps.map (weight rank)).sum
  | [], _ => by simp
  | q :: ps, g => by
    simp only [List.foldl_cons, List.map_cons, List.sum_cons]
    have h1 := reach_weight rank t ps (mergeTag g t q)
    have h2 := frontierWeight_pushEntry rank g.frontier q
    simp only [mergeTag] at h1 ⊢
    omega

theorem mem_removeEntry {f : Frontier} {c x : Commit} :
    x ∈ removeEntry f c ↔ x ∈ f ∧ x.GetId ≠ c.GetId := by
  simp [removeEntry]

/-! ### What the search keeps true -/

theorem Round.stored {s : PageStorage} {l r : Commit} {st : SearchState} {c : Commit}
    {ps : List Commit} (h : Round s st c ps) (hok : SearchOK s l r st) :
    GetCommit s c.GetId = some c :=
  hok.stored c (newest_mem h.popped)

theorem Round.parents {s : PageStorage} {st : SearchState} {c : Commit} {ps : List Commit}
    (h : Round s st c ps) : ∀ p ∈ ps, IsParent s p c :=
  fun p hp => (fetchParents_spec h.fetched).1 p hp

/-- A commit of the next frontier was in the frontier, the popped commit
apart, or is a parent of the popped commit. -/
theorem Round.next_mem {s : PageStorage} {st : SearchState} {c : Commit} {ps : List Commit}
    (_h : Round s st c ps) {x : Commit} (hx : x ∈ (expand st c ps).frontier) :
    (x ∈ st.frontier ∧ x.GetId ≠ c.GetId) ∨ x ∈ ps := by
  rcases reach_mem _ ps _ x hx with h | h
  · exact Or.inl (mem_removeEntry.1 h)
  · exact Or.inr h

theorem Round.next_ok {s : PageStorage} {l r : Commit} {st : SearchState} {c : Commit}
    {ps : List Commit} (h : Round s st c ps) (hok : SearchOK s l r st) :
    SearchOK s l r (expand st c ps) := by
  have hc := h.stored hok
  have hcf := newest_mem h.popped
  have hle : ∀ i, (st.tags i).le ((expand st c ps).tags i) := fun i =>
    reach_tags_le _ ps ⟨st.tags, removeEntry st.frontier c⟩ i
  refine ⟨?_, ?_, ?_, ?_, ⟨(hle _).1 hok.inputs.1, (hle _).2 hok.inputs.2⟩, ?_⟩
  · intro x hx
    rcases h.next_mem hx with hx | hx
    · exact hok.stored x hx.1
    · exact (h.parents x hx).2
  · exact reach_nodup _ ps _ (hok.nodup.sublist ((List.filter_sublist _).map _))
  · intro x hx
    rcases h.next_mem hx with hx | hx
    · rcases hok.tagged x hx.1 with ht | ht
      · exact Or.inl ((hle _).1 ht)
      · exact Or.inr ((hle _).2 ht)
    · have := reach_tags_has (st.tags c.GetId) ps ⟨st.tags, removeEntry st.frontier c⟩ x hx
      rcases hok.tagged c hcf with ht | ht
      · exact Or.inl (this.1 ht)
      · exact Or.inr (this.2 ht)
  · intro x hx
    constructor
    · intro ht
      rcases reach_tags_cases (st.tags c.GetId) SideTag.left_side left_union ps
        ⟨st.tags, removeEntry st.frontier c⟩ x.GetId ht with ht | ⟨ht, p, hp, hpx⟩
      · exact (hok.sound x hx).1 ht
      · have hpc := h.parents p hp
        have hxp : x = p := stored_eq_of_id_eq hx hpc.2 hpx.symm
        rw [hxp]
        exact Relation.ReflTransGen.head hpc ((hok.sound c hc).1 ht)
    · intro ht
      rcases reach_tags_cases (st.tags c.GetId) SideTag.right_side right_union ps
        ⟨st.tags, removeEntry st.frontier c⟩ x.GetId ht with ht | ⟨ht, p, hp, hpx⟩
      · exact (hok.sound x hx).2 ht
      · have hpc := h.parents p hp
        have hxp : x = p := stored_eq_of_id_eq hx hpc.2 hpx.symm
        rw [hxp]
        exact Relation.ReflTransGen.head hpc ((hok.sound c hc).2 ht)
  · intro x p hx hxf hpx
    -- `x` is not among the parents reached: it would be in the frontier
    have hnot : ∀ q ∈ ps, q.GetId ≠ x.GetId := by
      intro q hq hqx
      obtain ⟨e, he, heq⟩ := reach_has (st.tags c.GetId) ps
        ⟨st.tags, removeEntry st.frontier c⟩ q hq
      have hes : GetCommit s e.GetId = some e := by
        rcases h.next_mem he with he' | he'
        · exact hok.stored e he'.1
        · exact (h.parents e he').2
      have : e = x := stored_eq_of_id_eq hes hx (heq.trans hqx)
      exact hxf (this ▸ he)
    have hsame : (expand st c ps).tags x.GetId = st.tags x.GetId :=
      reach_tags_same _ ps _ _ hnot
    rw [hsame]
    by_cases hxc : x.GetId = c.GetId
    · have hxc' : x = c := stored_eq_of_id_eq hx hc hxc
      subst hxc'
      obtain ⟨q, hq, hqp⟩ := (fetchParents_spec h.fetched).2 p.GetId hpx.1
      have := reach_tags_has (st.tags x.GetId) ps ⟨st.tags, removeEntry st.frontier x⟩ q hq
      rw [hqp] at this
      exact this
    · have hxf' : x ∉ st.frontier := by
        intro hmem
        exact hxf (reach_sub _ ps ⟨st.tags, removeEntry st.frontier c⟩ x
          (mem_removeEntry.2 ⟨hmem, hxc⟩))
      exact SideTag.le_trans (hok.passed x p hx hxf' hpx) (hle _)

theorem initialState_ok {s : PageStorage} {l r : Commit}
    (hl : GetCommit s l.GetId = some l) (hr : GetCommit s r.GetId = some r) :
    SearchOK s l r (initialState l r) := by
  have hmem : ∀ x ∈ (initialState l r).frontier, x = l ∨ x = r := by
    intro x hx
    simp only [initialState, mergeTag] at hx
    rcases mem_pushEntry hx with hx | hx
    · rcases mem_pushEntry hx with hx | hx
      · simp at hx
      · exact Or.inl hx
    · exact Or.inr hx
  have hl_in : l ∈ (initialState l r).frontier := by
    simp only [initialState, mergeTag]
    exact pushEntry_sub r (by simp [pushEntry])
  have hr_in : ∃ e ∈ (initialState l r).frontier, e.GetId = r.GetId := by
    simp only [initialState, mergeTag]
    exact pushEntry_has _ r
  have htag : ∀ i, (initialState l r).tags i =
      if i = r.GetId then (if i = l.GetId then ⟨true, true⟩ else ⟨false, true⟩)
      else (if i = l.GetId then ⟨true, false⟩ else ⟨false, false⟩) := by
    intro i
    simp only [initialState, mergeTag, addTag, noTags, SideTag.union]
    split <;> split <;> simp
  refine ⟨?_, ?_, ?_, ?_, ?_, ?_⟩
  · intro x hx
    rcases hmem x hx with rfl | rfl
    · exact hl
    · exact hr
  · simp only [initialState, mergeTag]
    exact pushEntry_nodup r (pushEntry_nodup l (by simp))
  · intro x hx
    rw [htag]
    rcases hmem x hx with rfl | rfl
    · split <;> simp
    · simp only [if_true]
      split <;> simp
  · intro x hx
    rw [htag]
    constructor
    · intro h
      have : x.GetId = l.GetId := by
        by_contra hne
        simp [hne] at h
        split at h <;> simp at h
      rw [stored_eq_of_id_eq hx hl this]
      exact Relation.ReflTransGen.refl
    · intro h
      have : x.GetId = r.GetId := by
        by_contra hne
        simp [hne] at h
        split at h <;> simp at h
      rw [stored_eq_of_id_eq hx hr this]
      exact Relation.ReflTransGen.refl
  · rw [htag, htag]
    constructor
    · split <;> simp
    · simp only [if_true]
      split <;> simp
  · intro x p hx hxf _
    have h1 : x.GetId ≠ l.GetId := fun e => hxf (stored_eq_of_id_eq hx hl e ▸ hl_in)
    have h2 : x.GetId ≠ r.GetId := by
      intro e
      obtain ⟨y, hy, hyr⟩ := hr_in
      have hys : GetCommit s y.GetId = some y := by
        rcases hmem y hy with rfl | rfl
        · exact hl
        · exact hr
      exact hxf (stored_eq_of_id_eq hys hx (hyr.trans e.symm) ▸ hy)
    rw [htag x.GetId]
    simp only [h1, h2, if_false]
    exact ⟨fun h => by simp at h, fun h => by simp at h⟩

/-! ### What the search returns -/

theorem searchLoop_round {s : PageStorage} {st : SearchState} {c : Commit} {ps : List Commit}
    (h : Round s st c ps) (n : Nat) :
    searchLoop s (n + 1) st = searchLoop s n (expand st c ps) := by
  simp [searchLoop, h.popped, h.not_emits, h.fetched]

theorem searchLoop_emit {s : PageStorage} {st : SearchState} {c : Commit}
    (hp : newest st.frontier = some c) (he : emits st c = true) (n : Nat) :
    searchLoop s (n + 1) st = .found c := by
  simp [searchLoop, hp, he]

/-- What the search keeps true of the commit it ends on, whatever it is:
`P` holds of a commit on which a state ends that the search can reach. -/
theorem searchLoop_found {s : PageStorage} {l r : Commit} (I : SearchState → Prop)
    (hI : ∀ st c ps, SearchOK s l r st → I st → Round s st c ps → I (expand st c ps))
    (P : Commit → Prop)
    (hP : ∀ st c, SearchOK s l r st → I st → newest st.frontier = some c →
      emits st c = true → P c) :
    ∀ (n : Nat) (st : SearchState), SearchOK s l r st → I st →
      ∀ c, searchLoop s n st = .found c → P c
  | 0, _, _, _, c, h => by simp [searchLoop] at h
  | n + 1, st, hok, hi, c, h => by
    cases hp : newest st.frontier with
    | none => simp [searchLoop, hp] at h
    | some c' =>
      cases he : emits st c' with
      | true =>
        rw [searchLoop_emit hp he] at h
        cases h
        exact hP st _ hok hi hp he
      | false =>
        cases hfe : fetchParents s c'.GetParentIds with
        | none => simp [searchLoop, hp, he, hfe] at h
        | some ps =>
          have hr : Round s st c' ps := ⟨hp, he, hfe⟩
          rw [searchLoop_round hr] at h
          exact searchLoop_found I hI P hP n _ (hr.next_ok hok) (hI st c' ps hok hi hr) c h

/-- Whatever the timestamps: a commit the search returns is a common
ancestor of the inputs. -/
theorem searchLoop_sound {s : PageStorage} {l r : Commit} (n : Nat) (st : SearchState)
    (hok : SearchOK s l r st) (c : Commit) (h : searchLoop s n st = .found c) :
    IsCommonAncestor s l r c := by
  refine searchLoop_found (fun _ => True) (fun _ _ _ _ _ _ => trivial)
    (IsCommonAncestor s l r) ?_ n st hok trivial c h
  intro st c hok _ hp he
  have hs := hok.sound c (hok.stored c (newest_mem hp))
  simp only [emits, SideTag.both, Bool.and_eq_true] at he
  exact ⟨hs.1 he.1.1, hs.2 he.1.2⟩

/-! ### Valid commit graphs -/

theorem validDag_spec {rank : Commit → Nat} {s : PageStorage} (h : validDag rank s = true)
    {c : Commit} (hc : c ∈ s) :
    GetCommit s c.GetId = some c ∧ (c.GetParentIds = [] ↔ c.GetId = kFirstPageCommitId) ∧
    c.GetParentIds.length ≤ 2 ∧
    ∀ pid ∈ c.GetParentIds, ∃ p, GetCommit s pid = some p ∧ rank p < rank c := by
  simp only [validDag, List.all_eq_true, Bool.and_eq_true, decide_eq_true_eq] at h
  obtain ⟨⟨⟨h1, h2⟩, h3⟩, h4⟩ := h c hc
  refine ⟨h1, h2, h3, ?_⟩
  intro pid hpid
  have := h4 pid hpid
  cases hg : GetCommit s pid with
  | none => simp [hg] at this
  | some p => exact ⟨p, rfl, by simpa [hg] using this⟩

/-- In a valid graph a stored parent has a smaller rank than its child. -/
theorem rank_parent {rank : Commit → Nat} {s : PageStorage} (h : validDag rank s = true)
    {p c : Commit} (hc : GetCommit s c.GetId = some c) (hpc : IsParent s p c) :
    rank p < rank c := by
  obtain ⟨q, hq, hlt⟩ := (validDag_spec h (GetCommit_mem hc)).2.2.2 p.GetId hpc.1
  rw [hpc.2] at hq
  cases hq
  exact hlt

/-- In a valid graph the commit without parents is an ancestor of every
stored commit. -/
theorem root_ancestor {rank : Commit → Nat} {s : PageStorage} (h : validDag rank s = true)
    {c : Commit} (hc : GetCommit s c.GetId = some c) (hroot : c.GetParentIds = []) :
    ∀ (n : Nat) (x : Commit), rank x ≤ n → GetCommit s x.GetId = some x → IsAncestor s c x := by
  have hcid := (validDag_spec h (GetCommit_mem hc)).2.1.1 hroot
  intro n
  induction n with
  | zero =>
    intro x hx hxs
    obtain ⟨_, hx2, _, hx4⟩ := validDag_spec h (GetCommit_mem hxs)
    cases hpx : x.GetParentIds with
    | nil =>
      rw [stored_eq_of_id_eq hc hxs (hcid.trans (hx2.1 hpx).symm)]
      exact Relation.ReflTransGen.refl
    | cons pid rest =>
      obtain ⟨p, _, hlt⟩ := hx4 pid (by simp [hpx])
      omega
  | succ n ih =>
    intro x hx hxs
    obtain ⟨_, hx2, _, hx4⟩ := validDag_spec h (GetCommit_mem hxs)
    cases hpx : x.GetParentIds with
    | nil =>
      rw [stored_eq_of_id_eq hc hxs (hcid.trans (hx2.1 hpx).symm)]
      exact Relation.ReflTransGen.refl
    | cons pid rest =>
      obtain ⟨p, hp, hlt⟩ := hx4 pid (by simp [hpx])
      have hpid := GetCommit_id hp
      have hps : GetCommit s p.GetId = some p := by rw [hpid]; exact hp
      have hpar : IsParent s p x := ⟨by rw [hpid, hpx]; simp, hps⟩
      exact Relation.ReflTransGen.tail (ih p (by omega) hps) hpar

/-- When a single commit is left in the frontier, the tag of each of its
descendants has been passed down to it. -/
theorem tags_passed_down {s : PageStorage} {l r : Commit} {st : SearchState}
    (hok : SearchOK s l r st) {c : Commit} (honly : ∀ e ∈ st.frontier, e = c) {x : Commit}
    (hcx : IsAncestor s c x) :
    GetCommit s x.GetId = some x → (st.tags x.GetId).le (st.tags c.GetId) := by
  induction hcx with
  | refl => exact fun _ => SideTag.le_refl _
  | @tail b x' _ hbx ih =>
    intro hx
    by_cases hmem : x' ∈ st.frontier
    · rw [honly x' hmem]
      exact SideTag.le_refl _
    · exact SideTag.le_trans (hok.passed x' b hx hmem hbx) (ih hbx.2)

/-- The search ends on the last commit of the frontier when it is an
ancestor of both inputs. -/
theorem emits_of_last {s : PageStorage} {l r : Commit} {st : SearchState}
    (hok : SearchOK s l r st) (hl : GetCommit s l.GetId = some l)
    (hr : GetCommit s r.GetId = some r) {c : Commit} (hp : newest st.frontier = some c)
    (hlast : removeEntry st.frontier c = []) (hc : IsCommonAncestor s l r c) :
    emits st c = true := by
  have hcs := hok.stored c (newest_mem hp)
  have honly : ∀ e ∈ st.frontier, e = c := by
    intro e he
    by_contra hne
    have hid : e.GetId ≠ c.GetId := fun hid => hne (stored_eq_of_id_eq (hok.stored e he) hcs hid)
    have : e ∈ removeEntry st.frontier c := mem_removeEntry.2 ⟨he, hid⟩
    rw [hlast] at this
    simp at this
  have h1 := (tags_passed_down hok honly hc.1 hl).1 hok.inputs.1
  have h2 := (tags_passed_down hok honly hc.2 hr).2 hok.inputs.2
  simp [emits, SideTag.both, h1, h2, hlast]

/-! ### The search ends -/

theorem fetchParents_length {s : PageStorage} :
    ∀ {ids : List CommitId} {ps : List Commit}, fetchParents s ids = some ps →
      ps.length = ids.length
  | [], ps, h => by
    simp only [fetchParents, Option.some.injEq] at h
    subst h
    rfl
  | id :: ids, ps, h => by
    simp only [fetchParents] at h
    cases hg : GetCommit s id with
    | none => simp [hg] at h
    | some p =>
      cases hf : fetchParents s ids with
      | none => simp [hg, hf] at h
      | some qs =>
        simp only [hg, hf, Option.some.injEq] at h
        subst h
        simp [fetchParents_length hf]

/-- In a valid graph the parents of a commit weigh less than the commit. -/
theorem weight_parents {rank : Commit → Nat} {c : Commit} {ps : List Commit}
    (hlen : ps.length ≤ 2) (hrank : ∀ p ∈ ps, rank p < rank c) :
    (ps.map (weight rank)).sum < weight rank c := by
  cases hk : rank c with
  | zero =>
    cases ps with
    | nil => simp [weight]
    | cons p _ =>
      have := hrank p (List.mem_cons_self _ _)
      omega
  | succ k =>
    have hle : ∀ x ∈ ps.map (weight rank), x ≤ 3 ^ k := by
      intro x hx
      obtain ⟨p, hp, rfl⟩ := List.mem_map.1 hx
      have := hrank p hp
      exact Nat.pow_le_pow_right (by decide) (by omega)
    have h1 := List.sum_le_card_nsmul _ _ hle
    simp only [List.length_map, smul_eq_mul] at h1
    have h2 : ps.length * 3 ^ k ≤ 2 * 3 ^ k := Nat.mul_le_mul_right _ hlen
    have h3 : 0 < 3 ^ k := Nat.pow_pos (by decide)
    simp only [weight, hk, pow_succ]
    omega

/-- In a valid graph the measure of the frontier falls with every round. -/
theorem Round.next_weight {rank : Commit → Nat} {s : PageStorage} {l r : Commit}
    {st : SearchState} {c : Commit} {ps : List Commit} (h : Round s st c ps)
    (hok : SearchOK s l r st) (hv : validDag rank s = true) :
    frontierWeight rank (expand st c ps).frontier < frontierWeight rank st.frontier := by
  have hc := h.stored hok
  have h1 := reach_weight rank (st.tags c.GetId) ps ⟨st.tags, removeEntry st.frontier c⟩
  have h2 := frontierWeight_removeEntry rank st.frontier c (newest_mem h.popped)
  have h3 : (ps.map (weight rank)).sum < weight rank c := by
    refine weight_parents ?_ (fun p hp => rank_parent hv hc (h.parents p hp))
    rw [fetchParents_length h.fetched]
    exact (validDag_spec hv (GetCommit_mem hc)).2.2.1
  simp only [expand] at h1 ⊢
  omega

/-- In a valid graph the lookups of the parents of a stored commit succeed. -/
theorem fetchParents_valid {rank : Commit → Nat} {s : PageStorage}
    (hv : validDag rank s = true) {c : Commit} (hc : GetCommit s c.GetId = some c) :
    ∃ ps, fetchParents s c.GetParentIds = some ps :=
  @fetchParents_isSome s c.GetParentIds (fun id hid => by
    obtain ⟨p, hp, _⟩ := (validDag_spec hv (GetCommit_mem hc)).2.2.2 id hid
    exact ⟨p, hp⟩)

/-- In a valid graph a round leaves a commit in the frontier. -/
theorem Round.next_nonempty {rank : Commit → Nat} {s : PageStorage} {l r : Commit}
    {st : SearchState} {c : Commit} {ps : List Commit} (h : Round s st c ps)
    (hok : SearchOK s l r st) (hv : validDag rank s = true)
    (hl : GetCommit s l.GetId = some l) (hr : GetCommit s r.GetId = some r) :
    (expand st c ps).frontier ≠ [] := by
  have hc := h.stored hok
  cases hps : ps with
  | cons p rest =>
    obtain ⟨e, he, _⟩ := reach_has (st.tags c.GetId) ps
      ⟨st.tags, removeEntry st.frontier c⟩ p (by simp [hps])
    rw [← hps]
    exact List.ne_nil_of_mem he
  | nil =>
    have hroot : c.GetParentIds = [] := by
      have := fetchParents_length h.fetched
      rw [hps] at this
      exact List.length_eq_zero.1 this.symm
    cases hrem : removeEntry st.frontier c with
    | nil =>
      have hca : IsCommonAncestor s l r c :=
        ⟨root_ancestor hv hc hroot _ l (le_refl _) hl, root_ancestor hv hc hroot _ r (le_refl _) hr⟩
      have := emits_of_last hok hl hr h.popped hrem hca
      rw [h.not_emits] at this
      cases this
    | cons e rest =>
      simp [expand, hrem]

/-- In a valid graph the search returns a commit, a common ancestor of the
inputs, within as many rounds as the measure of the frontier allows. -/
theorem searchLoop_total {rank : Commit → Nat} {s : PageStorage} {l r : Commit}
    (hv : validDag rank s = true) (hl : GetCommit s l.GetId = some l)
    (hr : GetCommit s r.GetId = some r) :
    ∀ (n : Nat) (st : SearchState), SearchOK s l r st → st.frontier ≠ [] →
      frontierWeight rank st.frontier < n →
      ∃ c, searchLoop s n st = .found c ∧ IsCommonAncestor s l r c
  | 0, _, _, _, h => absurd h (Nat.not_lt_zero _)
  | n + 1, st, hok, hne, hn => by
    cases hp : newest st.frontier with
    | none => exact absurd (newest_eq_none hp) hne
    | some c =>
      cases he : emits st c with
      | true =>
        exact ⟨c, searchLoop_emit hp he n,
          searchLoop_sound (n + 1) st hok c (searchLoop_emit hp he n)⟩
      | false =>
        obtain ⟨ps, hfe⟩ := fetchParents_valid hv (hok.stored c (newest_mem hp))
        have hround : Round s st c ps := ⟨hp, he, hfe⟩
        rw [searchLoop_round hround]
        have hlt := hround.next_weight hok hv
        exact searchLoop_total hv hl hr n _ (hround.next_ok hok)
          (hround.next_nonempty hok hv hl hr) (by omega)

theorem initialState_weight (rank : Commit → Nat) (l r : Commit) :
    frontierWeight rank (initialState l r).frontier ≤ 3 ^ rank l + 3 ^ rank r := by
  have h1 := frontierWeight_pushEntry rank (pushEntry [] l) r
  have h2 := frontierWeight_pushEntry rank [] l
  simp only [initialState, mergeTag, weight] at h1 h2 ⊢
  simp only [frontierWeight, List.map_nil, List.sum_nil] at h2
  simp only [frontierWeight] at h1 ⊢
  omega

theorem initialState_nonempty (l r : Commit) : (initialState l r).frontier ≠ [] := by
  obtain ⟨e, he, _⟩ := pushEntry_has (pushEntry [] l) r
  exact List.ne_nil_of_mem he

/-- The search on stored inputs in a valid graph, whatever the
timestamps: it returns a common ancestor of the inputs. -/
theorem FindCommonAncestor_total {rank : Commit → Nat} {s : PageStorage} {l r : Commit}
    (hv : validDag rank s = true) (hl : GetCommit s l.GetId = some l)
    (hr : GetCommit s r.GetId = some r) {fuel : Nat} (hfuel : 3 ^ rank l + 3 ^ rank r < fuel) :
    ∃ c, FindCommonAncestor s fuel l r = .found c ∧ IsCommonAncestor s l r c :=
  searchLoop_total hv hl hr fuel _ (initialState_ok hl hr) (initialState_nonempty l r)
    (lt_of_le_of_lt (initialState_weight rank l r) hfuel)

/-! ### Parents older than their children -/

/-- Parents older than their children: after a round every commit of the
frontier is older than the commit popped. -/
theorem Round.next_older {s : PageStorage} {l r : Commit} {st : SearchState} {c : Commit}
    {ps : List Commit} (h : Round s st c ps) (hok : SearchOK s l r st)
    (hs : parentsOlder s = true) :
    ∀ e ∈ (expand st c ps).frontier, older e c = true := by
  intro e he
  rcases h.next_mem he with ⟨hef, hne⟩ | hep
  · cases hx : older e c with
    | true => rfl
    | false => exact absurd (id_eq_of_not_older hx (newest_max h.popped e hef)) hne
  · exact parent_older hs (h.stored hok) (h.parents e hep)

/-! ### The commits the search examines -/

theorem searchPops_round {s : PageStorage} {st : SearchState} {c : Commit} {ps : List Commit}
    (h : Round s st c ps) (n : Nat) :
    searchPops s (n + 1) st = c :: searchPops s n (expand st c ps) := by
  simp [searchPops, h.popped, h.not_emits, h.fetched]

/-- Whatever the timestamps: a commit the search pops is an ancestor of
one of the inputs. -/
theorem searchPops_ancestors {s : PageStorage} {l r : Commit} :
    ∀ (n : Nat) (st : SearchState), SearchOK s l r st →
      ∀ x ∈ searchPops s n st, IsAncestor s x l ∨ IsAncestor s x r
  | 0, _, _, x, hx => by simp [searchPops] at hx
  | n + 1, st, hok, x, hx => by
    cases hp : newest st.frontier with
    | none => simp [searchPops, hp] at hx
    | some c =>
      have hc := newest_mem hp
      have hcanc : IsAncestor s c l ∨ IsAncestor s c r := by
        have hs := hok.sound c (hok.stored c hc)
        rcases hok.tagged c hc with h | h
        · exact Or.inl (hs.1 h)
        · exact Or.inr (hs.2 h)
      cases he : emits st c with
      | true =>
        simp only [searchPops, hp, he, if_true, List.mem_singleton] at hx
        rw [hx]; exact hcanc
      | false =>
        cases hfe : fetchParents s c.GetParentIds with
        | none =>
          simp only [searchPops, hp, he, hfe, Bool.false_eq_true, if_false,
            List.mem_singleton] at hx
          rw [hx]; exact hcanc
        | some ps =>
          have hr : Round s st c ps := ⟨hp, he, hfe⟩
          rw [searchPops_round hr] at hx
          rcases List.mem_cons.1 hx with rfl | hx
          · exact hcanc
          · exact searchPops_ancestors n _ (hr.next_ok hok) x hx

/-- Parents older than their children: a commit the search pops is in the
frontier or older than a commit of it, and none is popped twice. -/
theorem searchPops_nodup {s : PageStorage} {l r : Commit} (hs : parentsOlder s = true) :
    ∀ (n : Nat) (st : SearchState), SearchOK s l r st →
      (searchPops s n st).Nodup ∧
        ∀ x ∈ searchPops s n st, ∃ e ∈ st.frontier, x = e ∨ older x e = true
  | 0, _, _ => by simp [searchPops]
  | n + 1, st, hok => by
    cases hp : newest st.frontier with
    | none => simp [searchPops, hp]
    | some c =>
      have hc := newest_mem hp
      cases he : emits st c with
      | true =>
        simp only [searchPops, hp, he, if_true, List.nodup_singleton, List.mem_singleton,
          true_and]
        rintro x rfl
        exact ⟨_, hc, Or.inl rfl⟩
      | false =>
        cases hfe : fetchParents s c.GetParentIds with
        | none =>
          simp only [searchPops, hp, he, hfe, Bool.false_eq_true, if_false,
            List.nodup_singleton, List.mem_singleton, true_and]
          rintro x rfl
          exact ⟨_, hc, Or.inl rfl⟩
        | some ps =>
          have hr : Round s st c ps := ⟨hp, he, hfe⟩
          rw [searchPops_round hr]
          obtain ⟨ih1, ih2⟩ := searchPops_nodup hs n _ (hr.next_ok hok)
          have hold : ∀ x ∈ searchPops s n (expand st c ps), older x c = true := by
            intro x hx
            obtain ⟨e, he', h⟩ := ih2 x hx
            have hec := hr.next_older hok hs e he'
            rcases h with rfl | h
            · exact hec
            · exact older_trans h hec
          refine ⟨List.nodup_cons.2 ⟨?_, ih1⟩, ?_⟩
          · intro hmem
            have := hold c hmem
            rw [older_irrefl] at this
            cases this
          · intro x hx
            rcases List.mem_cons.1 hx with rfl | hx
            · exact ⟨_, hc, Or.inl rfl⟩
            · exact ⟨_, hc, Or.inr (hold x hx)⟩

/-- The ancestors of two stored commits are stored commits. -/
theorem ancestors_finite {s : PageStorage} {a b : Commit}
    (ha : GetCommit s a.GetId = some a) (hb : GetCommit s b.GetId = some b) :
    {c | IsAncestor s c a ∨ IsAncestor s c b} ⊆ (↑s.toFinset : Set Commit) := by
  intro c hc
  simp only [Finset.mem_coe, List.mem_toFinset]
  rcases hc with h | h
  · exact GetCommit_mem (ancestor_stored h ha)
  · exact GetCommit_mem (ancestor_stored h hb)

/-! ### Inputs without merge commits among their ancestors -/

/-- An ancestor of a commit with one parent is the commit or an ancestor
of the parent. -/
theorem ancestor_of_one_parent {s : PageStorage} {z c p : Commit}
    (hc : c.GetParentIds = [p.GetId]) (hp : GetCommit s p.GetId = some p)
    (h : IsAncestor s z c) : z = c ∨ IsAncestor s z p := by
  rcases ancestor_cases h with h | ⟨q, hq, hzq⟩
  · exact Or.inl h
  · have hid := hq.1
    rw [hc, List.mem_singleton] at hid
    rw [stored_eq_of_id_eq hq.2 hp hid] at hzq
    exact Or.inr hzq

/-! ### The common ancestor returned -/

/-- The search on the graph of `common_ancestor_unittest.cc` returns what
the tests `TwoChildrenOfRoot`, `RootAndChild` and `MergeCommitAndSomeOthers`
expect: the root for `(A, B)`, for `(root, A)`, for `(c1, merge)` and for
`(c2, A)`. -/
theorem FindCommonAncestor_unit_tests :
    FindCommonAncestor Example.testGraph 5 Example.A Example.B = .found Example.root ∧
    FindCommonAncestor Example.testGraph 5 Example.root Example.A = .found Example.root ∧
    FindCommonAncestor Example.testGraph 5 Example.c1 Example.merge = .found Example.root ∧
    FindCommonAncestor Example.testGraph 5 Example.c2 Example.A = .found Example.root :=
  ⟨by decide, by decide, by decide, by decide⟩

/-- C1: on a valid commit graph (acyclic, as `rank` witnesses; every
parent stored; the root the one commit without parents, so that it is an
ancestor of every commit) and for stored commits `left` and `right`,
`FindCommonAncestor left right` run for enough rounds returns a commit (status
OK), and that commit is an ancestor of `left` and an ancestor of `right`, the
commit itself counting. Nothing is assumed of the timestamps. -/
theorem FindCommonAncestor_common_ancestor (rank : Commit → Nat) (s : PageStorage)
    (left right : Commit) (hv : validDag rank s = true)
    (hl : GetCommit s left.GetId = some left) (hr : GetCommit s right.GetId = some right)
    (fuel : Nat) (hfuel : 3 ^ rank left + 3 ^ rank right < fuel) :
    ∃ c, FindCommonAncestor s fuel left right = .found c ∧
      IsAncestor s c left ∧ IsAncestor s c right :=
  FindCommonAncestor_total hv hl hr hfuel

/-- C1 (witness): `c1` and the merge commit of the test graph. -/
theorem FindCommonAncestor_common_ancestor_witness :
    validDag (fun c => c.GetId) Example.testGraph = true ∧
    ∃ c, FindCommonAncestor Example.testGraph 109 Example.c1 Example.merge = .found c ∧
      IsAncestor Example.testGraph c Example.c1 ∧ IsAncestor Example.testGraph c Example.merge :=
  ⟨by decide, FindCommonAncestor_common_ancestor (fun c => c.GetId) Example.testGraph Example.c1
    Example.merge (by decide) (by decide) (by decide) 109 (by decide)⟩

/-- C3: on a valid commit graph and for stored commits `a` and `b` whose
only common ancestor is the root, `FindCommonAncestor a b` run for enough
rounds completes with a commit (status OK) whose id is `kFirstPageCommitId`.
Nothing is assumed of the timestamps. -/
theorem FindCommonAncestor_first_commit (rank : Commit → Nat) (s : PageStorage) (a b : Commit)
    (hv : validDag rank s = true)
    (ha : GetCommit s a.GetId = some a) (hb : GetCommit s b.GetId = some b)
    (honly : ∀ z, IsCommonAncestor s a b z → z.GetId = kFirstPageCommitId)
    (fuel : Nat) (hfuel : 3 ^ rank a + 3 ^ rank b < fuel) :
    ∃ c, FindCommonAncestor s fuel a b = .found c ∧ c.GetId = kFirstPageCommitId := by
  obtain ⟨c, hc, hca⟩ := FindCommonAncestor_total hv ha hb hfuel
  exact ⟨c, hc, honly c hca⟩

/-- C3 (witness): `c1`, the end of the chain grown from `A`, and `B`, the
other child of the root, in the test graph. -/
theorem FindCommonAncestor_first_commit_witness :
    FindCommonAncestor Example.testGraph 91 Example.c1 Example.B = .found Example.root ∧
    ∃ c, FindCommonAncestor Example.testGraph 91 Example.c1 Example.B = .found c ∧
      c.GetId = kFirstPageCommitId :=
  ⟨by decide, FindCommonAncestor_first_commit (fun c => c.GetId) Example.testGraph Example.c1
    Example.B (by decide) (by decide) (by decide)
    (fun z hz => by
      have hroot : ∀ {z}, IsAncestor Example.testGraph z Example.root → z = Example.root :=
        fun h => ancestor_of_no_parents rfl h
      rcases ancestor_of_one_parent (s := Example.testGraph) (p := Example.root) rfl rfl hz.2 with h2 | h2
      · rcases ancestor_of_one_parent (s := Example.testGraph) (p := Example.A) rfl rfl hz.1 with h1 | h1
        · rw [h2] at h1
          exact absurd h1 (by decide)
        · rcases ancestor_of_one_parent (s := Example.testGraph) (p := Example.root) rfl rfl h1 with h1 | h1
          · rw [h2] at h1
            exact absurd h1 (by decide)
          · rw [hroot h1]; rfl
      · rw [hroot h2]; rfl)
    91 (by decide)⟩

/-- C4: the shape of scenario S3 and of
`CommonAncestorTest.MergeCommitAndSomeOthers`, whatever the ids and the other
commits of the storage: `A` and `B` are children of `R`, `M` is the merge
commit with the parents `A` and `B`, `C` (commit 1) is a child of `A`, all
stored, with timestamps in the order of creation `R`, `A`, `B`, `M`, `C`.
Then `FindCommonAncestor C M`, given five rounds or more, returns `R`. -/
theorem FindCommonAncestor_merge_and_child (s : PageStorage) (R A B M C : Commit)
    (hR : GetCommit s R.GetId = some R) (hA : GetCommit s A.GetId = some A)
    (hB : GetCommit s B.GetId = some B) (hM : GetCommit s M.GetId = some M)
    (hC : GetCommit s C.GetId = some C)
    (hAp : A.GetParentIds = [R.GetId]) (hBp : B.GetParentIds = [R.GetId])
    (hMp : M.GetParentIds = [A.GetId, B.GetId]) (hCp : C.GetParentIds = [A.GetId])
    (hRA : R.GetTimestamp < A.GetTimestamp) (hAB : A.GetTimestamp < B.GetTimestamp)
    (hBM : B.GetTimestamp < M.GetTimestamp) (hMC : M.GetTimestamp < C.GetTimestamp)
    (fuel : Nat) (hfuel : 5 ≤ fuel) :
    FindCommonAncestor s fuel C M = .found R := by
  obtain ⟨n, rfl⟩ : ∃ n, fuel = n + 5 := ⟨fuel - 5, by omega⟩
  have ne : ∀ {x y : Commit}, GetCommit s x.GetId = some x → GetCommit s y.GetId = some y →
      x.GetTimestamp < y.GetTimestamp → x.GetId ≠ y.GetId ∧ y.GetId ≠ x.GetId := by
    intro x y hx hy hlt
    have : x.GetId ≠ y.GetId := by
      intro h
      have := stored_eq_of_id_eq hx hy h
      rw [this] at hlt
      exact lt_irrefl _ hlt
    exact ⟨this, fun h => this h.symm⟩
  obtain ⟨nRA, nAR⟩ := ne hR hA hRA
  obtain ⟨nRB, nBR⟩ := ne hR hB (by omega)
  obtain ⟨nRM, nMR⟩ := ne hR hM (by omega)
  obtain ⟨nRC, nCR⟩ := ne hR hC (by omega)
  obtain ⟨nAB, nBA⟩ := ne hA hB hAB
  obtain ⟨nAM, nMA⟩ := ne hA hM (by omega)
  obtain ⟨nAC, nCA⟩ := ne hA hC (by omega)
  obtain ⟨nBM, nMB⟩ := ne hB hM hBM
  obtain ⟨nBC, nCB⟩ := ne hB hC (by omega)
  obtain ⟨nMC, nCM⟩ := ne hM hC hMC
  have ol : ∀ {x y : Commit}, x.GetTimestamp < y.GetTimestamp →
      older x y = true ∧ older y x = false := by
    intro x y hlt
    refine ⟨by simp [older, hlt], ?_⟩
    rw [older_false_iff]
    omega
  -- the initial state
  obtain ⟨st0, h0⟩ : ∃ st, st = initialState C M := ⟨_, rfl⟩
  have f0 : st0.frontier = [C, M] := by
    rw [h0]; simp [initialState, mergeTag, pushEntry, nCM]
  have t0C : st0.tags C.GetId = ⟨true, false⟩ := by
    rw [h0]; simp [initialState, mergeTag, addTag, noTags, SideTag.union, nCM]
  have t0M : st0.tags M.GetId = ⟨false, true⟩ := by
    rw [h0]; simp [initialState, mergeTag, addTag, noTags, SideTag.union, nMC]
  have t0A : st0.tags A.GetId = ⟨false, false⟩ := by
    rw [h0]; simp [initialState, mergeTag, addTag, noTags, SideTag.union, nAC, nAM]
  have t0B : st0.tags B.GetId = ⟨false, false⟩ := by
    rw [h0]; simp [initialState, mergeTag, addTag, noTags, SideTag.union, nBC, nBM]
  have t0R : st0.tags R.GetId = ⟨false, false⟩ := by
    rw [h0]; simp [initialState, mergeTag, addTag, noTags, SideTag.union, nRC, nRM]
  have r0 : Round s st0 C [A] :=
    ⟨by simp [f0, newest, (ol hMC).1], by simp [emits, t0C, SideTag.both],
      by simp [hCp, fetchParents, hA]⟩
  -- `C` is replaced by its parent `A`
  obtain ⟨st1, h1⟩ : ∃ st, st = expand st0 C [A] := ⟨_, rfl⟩
  have f1 : st1.frontier = [M, A] := by
    rw [h1]; simp [expand, mergeTag, pushEntry, removeEntry, f0, nMC, nMA]
  have t1M : st1.tags M.GetId = ⟨false, true⟩ := by
    rw [h1]; simp [expand, mergeTag, addTag, SideTag.union, t0M, nMA]
  have t1A : st1.tags A.GetId = ⟨true, false⟩ := by
    rw [h1]; simp [expand, mergeTag, addTag, SideTag.union, t0A, t0C]
  have t1B : st1.tags B.GetId = ⟨false, false⟩ := by
    rw [h1]; simp [expand, mergeTag, addTag, SideTag.union, t0B, nBA]
  have t1R : st1.tags R.GetId = ⟨false, false⟩ := by
    rw [h1]; simp [expand, mergeTag, addTag, SideTag.union, t0R, nRA]
  have r1 : Round s st1 M [A, B] :=
    ⟨by simp [f1, newest, (ol (lt_trans hAB hBM)).1], by simp [emits, t1M, SideTag.both],
      by simp [hMp, fetchParents, hA, hB]⟩
  -- `M` is replaced by its parents `A` and `B`
  obtain ⟨st2, h2⟩ : ∃ st, st = expand st1 M [A, B] := ⟨_, rfl⟩
  have f2 : st2.frontier = [A, B] := by
    rw [h2]; simp [expand, mergeTag, pushEntry, removeEntry, f1, nAM, nAB]
  have t2A : st2.tags A.GetId = ⟨true, true⟩ := by
    rw [h2]; simp [expand, mergeTag, addTag, SideTag.union, t1A, t1M, nAB]
  have t2B : st2.tags B.GetId = ⟨false, true⟩ := by
    rw [h2]; simp [expand, mergeTag, addTag, SideTag.union, t1B, t1M, nBA]
  have t2R : st2.tags R.GetId = ⟨false, false⟩ := by
    rw [h2]; simp [expand, mergeTag, addTag, SideTag.union, t1R, nRA, nRB]
  have r2 : Round s st2 B [R] :=
    ⟨by simp [f2, newest, (ol hAB).2], by simp [emits, t2B, SideTag.both],
      by simp [hBp, fetchParents, hR]⟩
  -- `B` is replaced by its parent `R`
  obtain ⟨st3, h3⟩ : ∃ st, st = expand st2 B [R] := ⟨_, rfl⟩
  have f3 : st3.frontier = [A, R] := by
    rw [h3]; simp [expand, mergeTag, pushEntry, removeEntry, f2, nAB, nAR]
  have t3A : st3.tags A.GetId = ⟨true, true⟩ := by
    rw [h3]; simp [expand, mergeTag, addTag, SideTag.union, t2A, nAR]
  have t3R : st3.tags R.GetId = ⟨false, true⟩ := by
    rw [h3]; simp [expand, mergeTag, addTag, SideTag.union, t2R, t2B]
  have r3 : Round s st3 A [R] :=
    ⟨by simp [f3, newest, (ol hRA).1], by simp [emits, f3, removeEntry, nRA],
      by simp [hAp, fetchParents, hR]⟩
  -- `A` carries both tags, but `R` is still in the frontier
  obtain ⟨st4, h4⟩ : ∃ st, st = expand st3 A [R] := ⟨_, rfl⟩
  have f4 : st4.frontier = [R] := by
    rw [h4]; simp [expand, mergeTag, pushEntry, removeEntry, f3, nRA]
  have t4R : st4.tags R.GetId = ⟨true, true⟩ := by
    rw [h4]; simp [expand, mergeTag, addTag, SideTag.union, t3R, t3A]
  unfold FindCommonAncestor
  rw [← h0, searchLoop_round r0, ← h1, searchLoop_round r1, ← h2, searchLoop_round r2, ← h3,
    searchLoop_round r3, ← h4]
  exact searchLoop_emit (by simp [f4, newest])
    (by simp [emits, t4R, SideTag.both, f4, removeEntry]) n

/-- C4 (witness): the graph of `CommonAncestorTest.MergeCommitAndSomeOthers`. -/
theorem FindCommonAncestor_merge_and_child_witness :
    FindCommonAncestor Example.testGraph 5 Example.c1 Example.merge = .found Example.root :=
  FindCommonAncestor_merge_and_child Example.testGraph Example.root Example.A Example.B
    Example.merge Example.c1 rfl rfl rfl rfl rfl rfl rfl rfl rfl (by decide) (by decide)
    (by decide) (by decide) 5 (by decide)

/-! ### The commits the search examines -/

/-- C13 (amended): on a valid commit graph and for stored commits `a` and
`b`, whatever the timestamps, the search of `FindCommonAncestor` ends: run for
enough rounds it returns a commit, and every commit it pops is an ancestor of
`a` or of `b` (the commit itself counts). When moreover every parent is
strictly older than its child in the frontier's `(timestamp, id)` order, no
commit is popped twice and the number of commits popped and examined is at
most the size of `ancestors(a) ∪ ancestors(b)`. -/
theorem FindCommonAncestor_pops_bounded (rank : Commit → Nat) (s : PageStorage) (a b : Commit)
    (hv : validDag rank s = true)
    (ha : GetCommit s a.GetId = some a) (hb : GetCommit s b.GetId = some b)
    (fuel : Nat) (hfuel : 3 ^ rank a + 3 ^ rank b < fuel) :
    (∃ c, FindCommonAncestor s fuel a b = .found c) ∧
    (∀ c ∈ FindCommonAncestorPops s fuel a b, IsAncestor s c a ∨ IsAncestor s c b) ∧
    (parentsOlder s = true →
      (FindCommonAncestorPops s fuel a b).Nodup ∧
      (FindCommonAncestorPops s fuel a b).length ≤
        Set.ncard {c | IsAncestor s c a ∨ IsAncestor s c b}) := by
  have hok := initialState_ok ha hb
  have hanc := searchPops_ancestors fuel _ hok
  obtain ⟨c, hc, _⟩ := FindCommonAncestor_total hv ha hb hfuel
  refine ⟨⟨c, hc⟩, hanc, fun hs => ?_⟩
  have hnd := (searchPops_nodup hs fuel _ hok).1
  refine ⟨hnd, ?_⟩
  have hfin : {c | IsAncestor s c a ∨ IsAncestor s c b}.Finite :=
    (Finset.finite_toSet s.toFinset).subset (ancestors_finite ha hb)
  have hsub : (↑(FindCommonAncestorPops s fuel a b).toFinset : Set Commit) ⊆
      {c | IsAncestor s c a ∨ IsAncestor s c b} := by
    intro c hc
    simp only [Finset.mem_coe, List.mem_toFinset] at hc
    exact hanc c hc
  have h1 := Set.ncard_le_ncard hsub hfin
  rw [Set.ncard_coe_Finset] at h1
  have h2 : (FindCommonAncestorPops s fuel a b).toFinset.card =
      (FindCommonAncestorPops s fuel a b).length := List.toFinset_card_of_nodup hnd
  rw [h2] at h1
  exact h1

/-- C13 (witness): the merge commit and `c1` of the test graph, in which
every parent is older than its child. -/
theorem FindCommonAncestor_pops_bounded_witness :
    parentsOlder Example.testGraph = true ∧
    FindCommonAncestorPops Example.testGraph 109 Example.merge Example.c1 =
      [Example.c1, Example.merge, Example.B, Example.A, Example.root] ∧
    (∃ c, FindCommonAncestor Example.testGraph 109 Example.merge Example.c1 = .found c) ∧
    (∀ c ∈ FindCommonAncestorPops Example.testGraph 109 Example.merge Example.c1,
      IsAncestor Example.testGraph c Example.merge ∨ IsAncestor Example.testGraph c Example.c1) ∧
    (parentsOlder Example.testGraph = true →
      (FindCommonAncestorPops Example.testGraph 109 Example.merge Example.c1).Nodup ∧
      (FindCommonAncestorPops Example.testGraph 109 Example.merge Example.c1).length ≤
        Set.ncard {c | IsAncestor Example.testGraph c Example.merge ∨
          IsAncestor Example.testGraph c Example.c1}) :=
  ⟨by decide, by decide,
    FindCommonAncestor_pops_bounded (fun c => c.GetId) Example.testGraph Example.merge Example.c1
      (by decide) (by decide) (by decide) 109 (by decide)⟩

/-- C13 (counterexample): two valid graphs in which a parent is newer than
its child. Two children of the root, the root's timestamp between theirs: the
search ends on the root, but it pops the root twice, the first time with the
left tag alone; four commits are popped and examined, and the inputs have
three ancestors between them. A chain in which `Z` is older than its parent
`Y`: the search for `(Y, Z)` pops and expands `Y` twice, before and after
`Z`. -/
theorem FindCommonAncestor_skew_pops_twice :
    validDag (fun c => c.GetId) Example.skewGraph = true ∧
    (∀ fuel, 4 ≤ fuel → FindCommonAncestor Example.skewGraph fuel Example.skewA Example.skewB =
      .found Example.skewRoot) ∧
    (∀ fuel, 4 ≤ fuel → FindCommonAncestorPops Example.skewGraph fuel Example.skewA Example.skewB =
      [Example.skewA, Example.skewRoot, Example.skewB, Example.skewRoot]) ∧
    Set.ncard {c | IsAncestor Example.skewGraph c Example.skewA ∨
      IsAncestor Example.skewGraph c Example.skewB} ≤ 3 ∧
    validDag (fun c => c.GetId) Example.chainGraph = true ∧
    (∀ fuel, 4 ≤ fuel → FindCommonAncestorPops Example.chainGraph fuel Example.Y Example.Z =
      [Example.Y, Example.Z, Example.Y, Example.X]) := by
  refine ⟨by decide, ?_, ?_, ?_, by decide, ?_⟩
  · intro fuel hfuel
    obtain ⟨n, rfl⟩ : ∃ n, fuel = n + 4 := ⟨fuel - 4, by omega⟩
    rfl
  · intro fuel hfuel
    obtain ⟨n, rfl⟩ : ∃ n, fuel = n + 4 := ⟨fuel - 4, by omega⟩
    rfl
  · have hfin := Finset.finite_toSet Example.skewGraph.toFinset
    have h1 := Set.ncard_le_ncard
      (ancestors_finite (s := Example.skewGraph) (a := Example.skewA) (b := Example.skewB)
        (by decide) (by decide)) hfin
    rw [Set.ncard_coe_Finset] at h1
    exact h1.trans (List.toFinset_card_le _)
  · intro fuel hfuel
    obtain ⟨n, rfl⟩ : ∃ n, fuel = n + 4 := ⟨fuel - 4, by omega⟩
    rfl

namespace MergeResolver

/-! ### Reachable states -/

theorem run_nil (r : MergeResolver) : r.run [] = r := rfl

theorem run_cons (r : MergeResolver) (ev : ResolverEvent) (evs : List ResolverEvent) :
    r.run (ev :: evs) = (r.step ev).run evs := rfl

theorem run_append (r : MergeResolver) (evs evs' : List ResolverEvent) :
    r.run (evs ++ evs') = (r.run evs).run evs' := by
  simp [run, List.foldl_append]

/-- A property of the initial state that every event preserves holds after
every sequence of events. -/
theorem run_induction {P : MergeResolver → Prop} (h0 : P create)
    (hstep : ∀ r ev, P r → P (r.step ev)) (evs : List ResolverEvent) :
    P (create.run evs) := by
  have key : ∀ (evs : List ResolverEvent) (r : MergeResolver), P r → P (r.run evs) := by
    intro evs
    induction evs with
    | nil => intro r hr; exact hr
    | cons ev evs ih => intro r hr; exact ih _ (hstep r ev hr)
  exact key evs create h0

/-! ### What the steps change -/

@[simp] theorem emit_rounds (r : MergeResolver) (e : ResolverEffect) :
    (r.emit e).rounds = r.rounds := rfl

@[simp] theorem emit_merge_in_progress (r : MergeResolver) (e : ResolverEffect) :
    (r.emit e).merge_in_progress_ = r.merge_in_progress_ := rfl

@[simp] theorem emit_strategy (r : MergeResolver) (e : ResolverEffect) :
    (r.emit e).strategy_ = r.strategy_ := rfl

@[simp] theorem emit_next_strategy (r : MergeResolver) (e : ResolverEffect) :
    (r.emit e).next_strategy_ = r.next_strategy_ := rfl

@[simp] theorem emit_log (r : MergeResolver) (e : ResolverEffect) :
    (r.emit e).log = r.log ++ [e] := rfl

@[simp] theorem crash_rounds (r : MergeResolver) (e : ResolverEffect) :
    (r.crash e).rounds = r.rounds := rfl

@[simp] theorem crash_merge_in_progress (r : MergeResolver) (e : ResolverEffect) :
    (r.crash e).merge_in_progress_ = r.merge_in_progress_ := rfl

@[simp] theorem crash_log (r : MergeResolver) (e : ResolverEffect) :
    (r.crash e).log = r.log ++ [e] := rfl

@[simp] theorem setPhase_rounds (r : MergeResolver) (i : Nat) (p : RoundPhase) :
    (r.setPhase i p).rounds = r.rounds.set i p := rfl

@[simp] theorem setPhase_merge_in_progress (r : MergeResolver) (i : Nat) (p : RoundPhase) :
    (r.setPhase i p).merge_in_progress_ = r.merge_in_progress_ := rfl

@[simp] theorem setPhase_log (r : MergeResolver) (i : Nat) (p : RoundPhase) :
    (r.setPhase i p).log = r.log := rfl

@[simp] theorem setPhase_strategy (r : MergeResolver) (i : Nat) (p : RoundPhase) :
    (r.setPhase i p).strategy_ = r.strategy_ := rfl

@[simp] theorem cleanup_rounds (r : MergeResolver) (i : Nat) :
    (r.cleanup i).rounds = r.rounds.eraseIdx i := by
  unfold cleanup
  cases r.next_strategy_ <;> cases r.on_empty_callback_ <;> rfl

@[simp] theorem cleanup_merge_in_progress (r : MergeResolver) (i : Nat) :
    (r.cleanup i).merge_in_progress_ = false := by
  unfold cleanup
  cases r.next_strategy_ <;> cases r.on_empty_callback_ <;> rfl

theorem cleanup_log (r : MergeResolver) (i : Nat) :
    (r.cleanup i).log = r.log ++ cleanupEffects r := by
  unfold cleanup cleanupEffects
  cases r.next_strategy_ <;> cases r.on_empty_callback_ <;>
    simp [PostCheckConflicts, emit]

theorem cleanup_strategy (r : MergeResolver) (i : Nat) :
    (r.cleanup i).strategy_ = (match r.next_strategy_ with
      | some s => some s
      | none => r.strategy_) := by
  unfold cleanup
  cases r.next_strategy_ <;> cases r.on_empty_callback_ <;> rfl

theorem cleanup_next_strategy (r : MergeResolver) (i : Nat) :
    (r.cleanup i).next_strategy_ = none := by
  unfold cleanup
  cases h : r.next_strategy_ <;> cases r.on_empty_callback_ <;> simp [PostCheckConflicts, emit, h]

/-! ### The branches of the handlers -/

/-- To show something of the state after an event it is enough to show it
of every handler, run on a round that waits for it. -/
theorem step_cases {P : MergeResolver → Prop} (r : MergeResolver) (ev : ResolverEvent)
    (hsame : P r)
    (hpost : P r.PostCheckConflicts)
    (hset : ∀ strategy, P (r.SetMergeStrategy strategy))
    (hempty : P { r with on_empty_callback_ := true })
    (hcheck : ∀ heads, P (r.CheckConflicts heads))
    (hfetch : ∀ i status commits, r.rounds.get? i = some .fetching →
      P (r.onCommitsFetched i status commits))
    (hident : ∀ i status, r.rounds.get? i = some .merging_identical →
      P (r.onIdenticalMerged i status))
    (hanc : ∀ i head1 head2 status a, r.rounds.get? i = some (.finding_ancestor head1 head2) →
      P (r.onAncestorFound i head1 head2 status a))
    (hdone : ∀ i, r.rounds.get? i = some .merging → P (r.cleanup i)) :
    P (r.step ev) := by
  unfold step
  split
  · exact hsame
  · cases ev with
    | OnNewCommits => exact hpost
    | SetMergeStrategy strategy => exact hset strategy
    | set_on_empty => exact hempty
    | CheckConflicts heads => exact hcheck heads
    | commits_fetched i status commits =>
      simp only
      split
      · rename_i h; exact hfetch i status commits h
      · exact hsame
    | identical_merged i status =>
      simp only
      split
      · rename_i h; exact hident i status h
      · exact hsame
    | ancestor_found i status a =>
      simp only
      split
      · rename_i head1 head2 h; exact hanc i head1 head2 status a h
      · exact hsame
    | merge_done i =>
      simp only
      split
      · rename_i h; exact hdone i h
      · exact hsame

theorem SetMergeStrategy_cases {P : MergeResolver → Prop} (r : MergeResolver)
    (strategy : Option StrategyId)
    (hcancel : ∀ s, r.merge_in_progress_ = true → r.strategy_ = some s →
      P (({ r with next_strategy_ := strategy } : MergeResolver).emit (.Cancel s)))
    (hnull : r.merge_in_progress_ = true → r.strategy_ = none →
      P (({ r with next_strategy_ := strategy } : MergeResolver).crash .null_strategy))
    (hswap : ∀ s, r.merge_in_progress_ = false → strategy = some s →
      P ({ r with strategy_ := some s } : MergeResolver).PostCheckConflicts)
    (hclear : r.merge_in_progress_ = false → strategy = none →
      P ({ r with strategy_ := none } : MergeResolver)) :
    P (r.SetMergeStrategy strategy) := by
  unfold SetMergeStrategy
  split
  · rename_i hm
    simp only
    split
    · rename_i s hs; exact hcancel s hm hs
    · rename_i hs; exact hnull hm hs
  · rename_i hm
    have hm' : r.merge_in_progress_ = false := by simpa using hm
    cases strategy with
    | some s => exact hswap s hm' rfl
    | none => exact hclear hm' rfl

theorem CheckConflicts_cases {P : MergeResolver → Prop} (r : MergeResolver)
    (heads : List CommitId) (hsame : P r)
    (hresolve : r.strategy_.isSome = true → r.merge_in_progress_ = false →
      heads.length ≠ 1 → P (r.ResolveConflicts heads)) :
    P (r.CheckConflicts heads) := by
  unfold CheckConflicts
  split
  · exact hsame
  · rename_i h
    split
    · exact hsame
    · rename_i hlen
      simp only [Bool.or_eq_true, Option.isNone_iff_eq_none, not_or] at h
      refine hresolve ?_ ?_ hlen
      · cases hs : r.strategy_ with
        | none => exact absurd hs h.1
        | some _ => rfl
      · simpa using h.2

theorem onCommitsFetched_cases {P : MergeResolver → Prop} (r : MergeResolver) (i : Nat)
    (status : storage.Status) (commits : List Commit)
    (hident : ∀ c0 c1 tl, commits = c0 :: c1 :: tl → c0.GetRootId = c1.GetRootId →
      P ((r.setPhase i .merging_identical).emit (.MergeIdenticalCommits c0 c1)))
    (hbail : ∀ c0 c1 tl, commits = c0 :: c1 :: tl → c0.GetRootId ≠ c1.GetRootId →
      r.next_strategy_.isSome = true → P (r.cleanup i))
    (herr : ∀ c0 c1 tl, commits = c0 :: c1 :: tl → c0.GetRootId ≠ c1.GetRootId →
      status ≠ .OK →
      P ((r.emit (.log_error "Failed to retrieve head commits.")).cleanup i))
    (hfind : ∀ c0 c1 tl head1 head2 tl', commits = c0 :: c1 :: tl →
      c0.GetRootId ≠ c1.GetRootId → r.next_strategy_ = none → status = .OK →
      commits.insertionSort timestampLe = head1 :: head2 :: tl' →
      P ((r.setPhase i (.finding_ancestor head1 head2)).emit
        (.FindCommonAncestor head1 head2)))
    (hcrash : P (r.crash .missing_commit)) :
    P (r.onCommitsFetched i status commits) := by
  unfold onCommitsFetched
  split
  · rename_i c0 c1 tl
    split
    · rename_i h; exact hident c0 c1 tl rfl h
    · rename_i hne
      split
      · rename_i h; exact hbail c0 c1 tl rfl hne h
      · rename_i hnext
        split
        · rename_i h; exact herr c0 c1 tl rfl hne h
        · rename_i hst
          split
          · rename_i head1 head2 tl' hsort
            refine hfind c0 c1 tl head1 head2 tl' rfl hne ?_ ?_ hsort
            · cases hn : r.next_strategy_ with
              | none => rfl
              | some _ => simp [hn] at hnext
            · simpa using hst
          · exact hcrash
  · exact hcrash

theorem onIdenticalMerged_cases {P : MergeResolver → Prop} (r : MergeResolver) (i : Nat)
    (status : storage.Status)
    (herr : status ≠ .OK →
      P ((r.emit (.log_error "Unable to merge identical commits.")).cleanup i))
    (hok : status = .OK → P (r.cleanup i)) :
    P (r.onIdenticalMerged i status) := by
  unfold onIdenticalMerged
  split
  · rename_i h; exact herr h
  · rename_i h; exact hok (by simpa using h)

theorem onAncestorFound_cases {P : MergeResolver → Prop} (r : MergeResolver) (i : Nat)
    (head1 head2 : Commit) (status : Status) (a : Commit)
    (hbail : r.next_strategy_.isSome = true → P (r.cleanup i))
    (herr : r.next_strategy_ = none → status ≠ .OK →
      P ((r.emit (.log_error "Failed to find common ancestor of head commits.")).cleanup i))
    (hmerge : ∀ s, r.next_strategy_ = none → status = .OK → r.strategy_ = some s →
      P ((r.setPhase i .merging).emit (.Merge s head1 head2 a)))
    (hnull : r.strategy_ = none → P (r.crash .null_strategy)) :
    P (r.onAncestorFound i head1 head2 status a) := by
  unfold onAncestorFound
  split
  · rename_i h; exact hbail h
  · rename_i hnext
    have hn : r.next_strategy_ = none := by
      cases hn : r.next_strategy_ with
      | none => rfl
      | some _ => simp [hn] at hnext
    split
    · rename_i h; exact herr hn h
    · rename_i hst
      split
      · rename_i s hs; exact hmerge s hn (by simpa using hst) hs
      · rename_i hs; exact hnull hs

theorem oneRoundOf_cases {l : List RoundPhase} {m : Bool} (h : OneRoundOf l m) :
    (l = [] ∧ m = false) ∨ (∃ p, l = [p] ∧ m = true) := by
  obtain ⟨hlen, hiff⟩ := h
  match l, hlen, hiff with
  | [], _, hiff =>
    left
    refine ⟨rfl, ?_⟩
    cases m with
    | false => rfl
    | true => exact absurd rfl (hiff.1 rfl)
  | [p], _, hiff => exact Or.inr ⟨p, rfl, hiff.2 (by simp)⟩
  | _ :: _ :: _, hlen, _ => simp at hlen

theorem oneRoundOf_set {l : List RoundPhase} {m : Bool} (h : OneRoundOf l m) (i : Nat)
    (p : RoundPhase) : OneRoundOf (l.set i p) m := by
  rcases oneRoundOf_cases h with ⟨rfl, rfl⟩ | ⟨q, rfl, rfl⟩
  · simpa using h
  · cases i <;> simp [OneRoundOf]

theorem oneRoundOf_eraseIdx {l : List RoundPhase} {m : Bool} (h : OneRoundOf l m) {i : Nat}
    {q : RoundPhase} (hi : l.get? i = some q) : OneRoundOf (l.eraseIdx i) false := by
  rcases oneRoundOf_cases h with ⟨rfl, rfl⟩ | ⟨p, rfl, rfl⟩
  · simp at hi
  · cases i with
    | zero => simp [OneRoundOf]
    | succ n => simp at hi

theorem oneRoundOf_append {l : List RoundPhase} (h : OneRoundOf l false) (p : RoundPhase) :
    OneRoundOf (l ++ [p]) true := by
  rcases oneRoundOf_cases h with ⟨rfl, _⟩ | ⟨q, _, hm⟩
  · simp [OneRoundOf]
  · cases hm

theorem oneRound_create : OneRound create := by
  simp [OneRound, OneRoundOf, create]

theorem oneRound_cleanup {r : MergeResolver} {l : List RoundPhase} {m : Bool}
    (h : OneRoundOf l m) (hl : r.rounds = l) {i : Nat} {q : RoundPhase}
    (hi : l.get? i = some q) : OneRound (r.cleanup i) := by
  show OneRoundOf _ _
  rw [cleanup_rounds, cleanup_merge_in_progress, hl]
  exact oneRoundOf_eraseIdx h hi

theorem oneRound_step (r : MergeResolver) (ev : ResolverEvent) (h : OneRound r) :
    OneRound (r.step ev) := by
  refine step_cases r ev h h ?_ h ?_ ?_ ?_ ?_ ?_
  · intro strategy
    refine SetMergeStrategy_cases r strategy ?_ ?_ ?_ ?_ <;> intros <;> exact h
  · intro heads
    refine CheckConflicts_cases r heads h ?_
    intro _ hm _
    have h' : OneRoundOf r.rounds false := by rw [← hm]; exact h
    exact oneRoundOf_append h' _
  · intro i status commits hi
    refine onCommitsFetched_cases r i status commits ?_ ?_ ?_ ?_ h
    · intros; exact oneRoundOf_set h i _
    · intros; exact oneRound_cleanup h rfl hi
    · intros; exact oneRound_cleanup (r := r.emit _) h rfl hi
    · intros; exact oneRoundOf_set h i _
  · intro i status hi
    refine onIdenticalMerged_cases r i status ?_ ?_
    · intros; exact oneRound_cleanup (r := r.emit _) h rfl hi
    · intros; exact oneRound_cleanup h rfl hi
  · intro i head1 head2 status a hi
    refine onAncestorFound_cases r i head1 head2 status a ?_ ?_ ?_ ?_
    · intros; exact oneRound_cleanup h rfl hi
    · intros; exact oneRound_cleanup (r := r.emit _) h rfl hi
    · intros; exact oneRoundOf_set h i _
    · intros; exact h
  · intro i hi
    exact oneRound_cleanup h rfl hi

theorem oneRound_run (evs : List ResolverEvent) : OneRound (create.run evs) :=
  run_induction oneRound_create oneRound_step evs

theorem mergeStarts_cleanupEffects (r : MergeResolver) : mergeStarts (cleanupEffects r) = 0 := by
  unfold cleanupEffects mergeStarts
  cases r.on_empty_callback_ <;> simp [ResolverEffect.isMergeStart]

theorem mergeStarts_cleanup (r : MergeResolver) (i : Nat) :
    mergeStarts (r.cleanup i).log = mergeStarts r.log := by
  rw [cleanup_log]
  unfold mergeStarts
  rw [List.countP_append]
  have := mergeStarts_cleanupEffects r
  unfold mergeStarts at this
  omega

theorem mergeStarts_emit (r : MergeResolver) (e : ResolverEffect) (he : e.isMergeStart = false) :
    mergeStarts (r.emit e).log = mergeStarts r.log := by
  simp [mergeStarts, List.countP_append, he]

theorem mergeStarts_crash (r : MergeResolver) (e : ResolverEffect) (he : e.isMergeStart = false) :
    mergeStarts (r.crash e).log = mergeStarts r.log := by
  simp [mergeStarts, List.countP_append, he]

theorem mergeStarts_ResolveConflicts (r : MergeResolver) (heads : List CommitId) :
    mergeStarts (r.ResolveConflicts heads).log = mergeStarts r.log := by
  simp [mergeStarts, ResolveConflicts, List.countP_append, List.countP_eq_zero,
    ResolverEffect.isMergeStart]

theorem rounds_of_get?_some {r : MergeResolver} (h : OneRound r) {i : Nat} {q : RoundPhase}
    (hi : r.rounds.get? i = some q) : r.rounds = [q] := by
  rcases oneRoundOf_cases h with ⟨hr, _⟩ | ⟨p, hr, _⟩
  · rw [hr] at hi; simp at hi
  · rw [hr] at hi ⊢
    cases i with
    | zero => simp at hi; rw [hi]
    | succ n => simp at hi

/-- A new cleanup is armed only when none is and the flag is down. -/
theorem arms_only_when_idle (r : MergeResolver) (h : OneRound r) (ev : ResolverEvent) :
    ArmsIdle r (r.step ev) := by
  have hset : ∀ (i : Nat) (p : RoundPhase) (r' : MergeResolver),
      r'.rounds = r.rounds.set i p → ArmsIdle r r' := by
    intro i p r' hr' hlt
    rw [hr', List.length_set] at hlt
    exact absurd hlt (lt_irrefl _)
  have hcl : ∀ (i : Nat) (r' : MergeResolver), r'.rounds = r.rounds →
      ArmsIdle r (r'.cleanup i) := by
    intro i r' hr' hlt
    rw [cleanup_rounds, hr'] at hlt
    have := List.length_eraseIdx_le r.rounds i
    omega
  have hsame : ∀ r' : MergeResolver, r'.rounds = r.rounds → ArmsIdle r r' := by
    intro r' hr' hlt
    rw [hr'] at hlt
    exact absurd hlt (lt_irrefl _)
  refine step_cases r ev (hsame r rfl) (hsame _ rfl) ?_ (hsame _ rfl) ?_ ?_ ?_ ?_ ?_
  · intro strategy
    refine SetMergeStrategy_cases r strategy ?_ ?_ ?_ ?_ <;> intros <;> exact hsame _ rfl
  · intro heads
    refine CheckConflicts_cases r heads (hsame r rfl) ?_
    intro _ hm _ _
    refine ⟨hm, ?_⟩
    rcases oneRoundOf_cases h with ⟨hr, _⟩ | ⟨p, _, hm'⟩
    · exact hr
    · rw [hm] at hm'; cases hm'
  · intro i status commits _
    refine onCommitsFetched_cases r i status commits ?_ ?_ ?_ ?_ (hsame _ rfl)
    · intros; exact hset i _ _ rfl
    · intros; exact hcl i r rfl
    · intros; exact hcl i (r.emit _) rfl
    · intros; exact hset i _ _ rfl
  · intro i status _
    refine onIdenticalMerged_cases r i status ?_ ?_
    · intros; exact hcl i (r.emit _) rfl
    · intros; exact hcl i r rfl
  · intro i head1 head2 status a _
    refine onAncestorFound_cases r i head1 head2 status a ?_ ?_ ?_ ?_
    · intros; exact hcl i r rfl
    · intros; exact hcl i (r.emit _) rfl
    · intros; exact hset i _ _ rfl
    · intros; exact hsame _ rfl
  · intro i _
    exact hcl i r rfl

/-- A merge of two heads starts only when no merge is under way. -/
theorem starts_only_when_none (r : MergeResolver) (h : OneRound r) (ev : ResolverEvent) :
    StartsIdle r (r.step ev) := by
  have hno : ∀ r' : MergeResolver, mergeStarts r'.log = mergeStarts r.log →
      StartsIdle r r' := by
    intro r' hr' hlt
    rw [hr'] at hlt
    exact absurd hlt (lt_irrefl _)
  have hcl : ∀ i, mergeStarts (r.cleanup i).log = mergeStarts r.log :=
    fun i => mergeStarts_cleanup r i
  have hcl' : ∀ i e, e.isMergeStart = false →
      mergeStarts ((r.emit e).cleanup i).log = mergeStarts r.log := by
    intro i e he
    rw [mergeStarts_cleanup, mergeStarts_emit r e he]
  have hphase : ∀ (i : Nat) (q : RoundPhase) (r' : MergeResolver),
      r.rounds.get? i = some q → q.isMerge = false → StartsIdle r r' := by
    intro i q r' hi hq _ p hp
    rw [rounds_of_get?_some h hi] at hp
    simp only [List.mem_singleton] at hp
    rw [hp]; exact hq
  refine step_cases r ev (hno r rfl)
    (hno r.PostCheckConflicts (mergeStarts_emit r .PostCheckConflicts rfl))
    ?_ (hno _ rfl) ?_ ?_ ?_ ?_ ?_
  · intro strategy
    refine SetMergeStrategy_cases r strategy ?_ ?_ ?_ ?_
    · intro s _ _; exact hno _ (mergeStarts_emit _ (.Cancel s) rfl)
    · intros; exact hno _ (mergeStarts_crash _ .null_strategy rfl)
    · intros; exact hno _ (mergeStarts_emit _ .PostCheckConflicts rfl)
    · intros; exact hno _ rfl
  · intro heads
    refine CheckConflicts_cases r heads (hno r rfl) ?_
    intros; exact hno _ (mergeStarts_ResolveConflicts r heads)
  · intro i status commits hi
    refine onCommitsFetched_cases r i status commits ?_ ?_ ?_ ?_
      (hno _ (mergeStarts_crash r .missing_commit rfl))
    · intros; exact hphase i _ _ hi rfl
    · intros; exact hno _ (hcl i)
    · intros; exact hno _ (hcl' i _ rfl)
    · intros; exact hphase i _ _ hi rfl
  · intro i status _
    refine onIdenticalMerged_cases r i status ?_ ?_
    · intros; exact hno _ (hcl' i _ rfl)
    · intros; exact hno _ (hcl i)
  · intro i head1 head2 status a hi
    refine onAncestorFound_cases r i head1 head2 status a ?_ ?_ ?_ ?_
    · intros; exact hno _ (hcl i)
    · intros; exact hno _ (hcl' i _ rfl)
    · intros; exact hphase i _ _ hi rfl
    · intros; exact hno _ (mergeStarts_crash r .null_strategy rfl)
  · intro i _
    exact hno _ (hcl i)

theorem CheckConflicts_noop (r : MergeResolver) (heads : List CommitId)
    (h : r.strategy_ = none ∨ r.merge_in_progress_ = true) : r.CheckConflicts heads = r := by
  unfold CheckConflicts
  rcases h with h | h <;> simp [h]

/-- C7: after every sequence of events of the merge resolver at most one
round is under way (one scoped cleanup armed) and `merge_in_progress_` is true
exactly then; `CheckConflicts` changes nothing when `strategy_` is null or
`merge_in_progress_` is true; a round is entered only from a state in which
`merge_in_progress_` is false and no cleanup is armed; and
`MergeIdenticalCommits` or `strategy_->Merge` is called only when no round has
a merge under way, so no second merge starts before the cleanup of the current
round has run. -/
theorem at_most_one_merge (evs : List ResolverEvent) :
    (create.run evs).rounds.length ≤ 1 ∧
    ((create.run evs).merge_in_progress_ = true ↔ (create.run evs).rounds ≠ []) ∧
    (∀ heads, (create.run evs).strategy_ = none ∨ (create.run evs).merge_in_progress_ = true →
      (create.run evs).CheckConflicts heads = create.run evs) ∧
    (∀ ev, (create.run evs).rounds.length < ((create.run evs).step ev).rounds.length →
      (create.run evs).merge_in_progress_ = false ∧ (create.run evs).rounds = []) ∧
    (∀ ev, mergeStarts (create.run evs).log < mergeStarts ((create.run evs).step ev).log →
      ∀ p ∈ (create.run evs).rounds, p.isMerge = false) :=
  ⟨(oneRound_run evs).1, (oneRound_run evs).2,
    fun heads h => CheckConflicts_noop _ heads h,
    arms_only_when_idle _ (oneRound_run evs),
    starts_only_when_none _ (oneRound_run evs)⟩

theorem sorted_heads {commits : List Commit} {head1 head2 : Commit} {tl : List Commit}
    (h : commits.insertionSort timestampLe = head1 :: head2 :: tl) :
    head1.GetTimestamp ≤ head2.GetTimestamp := by
  have hs := List.sorted_insertionSort timestampLe commits
  rw [h] at hs
  exact (List.sorted_cons.1 hs).1 head2 (List.mem_cons_self _ _)

theorem mergeOrdered_of {r r' : MergeResolver} (h : MergeOrdered r)
    (hlog : ∀ e ∈ r'.log, e ∈ r.log ∨ effectOrdered e)
    (hrounds : ∀ p ∈ r'.rounds, p ∈ r.rounds ∨ phaseOrdered p) : MergeOrdered r' := by
  constructor
  · intro e he
    rcases hlog e he with h' | h'
    · exact h.1 e h'
    · exact h'
  · intro p hp
    rcases hrounds p hp with h' | h'
    · exact h.2 p h'
    · exact h'

theorem mergeOrdered_emit {r : MergeResolver} (h : MergeOrdered r) (e : ResolverEffect)
    (he : effectOrdered e) : MergeOrdered (r.emit e) := by
  refine mergeOrdered_of h ?_ (fun p hp => Or.inl hp)
  intro x hx
  simp only [emit_log, List.mem_append, List.mem_singleton] at hx
  rcases hx with hx | rfl
  · exact Or.inl hx
  · exact Or.inr he

theorem mergeOrdered_crash {r : MergeResolver} (h : MergeOrdered r) (e : ResolverEffect)
    (he : effectOrdered e) : MergeOrdered (r.crash e) := by
  refine mergeOrdered_of h ?_ (fun p hp => Or.inl hp)
  intro x hx
  simp only [crash_log, List.mem_append, List.mem_singleton] at hx
  rcases hx with hx | rfl
  · exact Or.inl hx
  · exact Or.inr he

theorem mergeOrdered_setPhase {r : MergeResolver} (h : MergeOrdered r) (i : Nat)
    (p : RoundPhase) (hp : phaseOrdered p) : MergeOrdered (r.setPhase i p) := by
  refine mergeOrdered_of h (fun e he => Or.inl he) ?_
  intro q hq
  rcases List.mem_or_eq_of_mem_set hq with hq | rfl
  · exact Or.inl hq
  · exact Or.inr hp

theorem mergeOrdered_cleanup {r : MergeResolver} (h : MergeOrdered r) (i : Nat) :
    MergeOrdered (r.cleanup i) := by
  refine mergeOrdered_of h ?_ ?_
  · intro e he
    rw [cleanup_log] at he
    rcases List.mem_append.1 he with he | he
    · exact Or.inl he
    · right
      unfold cleanupEffects at he
      cases hc : r.on_empty_callback_ <;> simp [hc] at he <;>
        rcases he with rfl | rfl | rfl <;> trivial
  · intro p hp
    rw [cleanup_rounds] at hp
    exact Or.inl (List.mem_of_mem_eraseIdx hp)

theorem mergeOrdered_step (r : MergeResolver) (ev : ResolverEvent) (h : MergeOrdered r) :
    MergeOrdered (r.step ev) := by
  have hcl : ∀ (i : Nat) (e : ResolverEffect), effectOrdered e →
      MergeOrdered ((r.emit e).cleanup i) :=
    fun i e he => mergeOrdered_cleanup (mergeOrdered_emit h e he) i
  have hph : ∀ (i : Nat) (p : RoundPhase) (e : ResolverEffect), phaseOrdered p →
      effectOrdered e → MergeOrdered ((r.setPhase i p).emit e) :=
    fun i p e hp he => mergeOrdered_emit (mergeOrdered_setPhase h i p hp) e he
  refine step_cases r ev h (mergeOrdered_emit h .PostCheckConflicts trivial) ?_ h ?_ ?_ ?_ ?_ ?_
  · intro strategy
    refine SetMergeStrategy_cases r strategy ?_ ?_ ?_ ?_
    · intro s _ _
      exact mergeOrdered_emit (r := { r with next_strategy_ := strategy }) h (.Cancel s) trivial
    · intros
      exact mergeOrdered_crash (r := { r with next_strategy_ := strategy }) h .null_strategy
        trivial
    · intro s _ _
      exact mergeOrdered_emit (r := { r with strategy_ := some s }) h .PostCheckConflicts trivial
    · intros; exact h
  · intro heads
    refine CheckConflicts_cases r heads h ?_
    intros
    refine mergeOrdered_of h ?_ ?_
    · intro e he
      simp only [ResolveConflicts, List.mem_append, List.mem_map] at he
      rcases he with he | ⟨id, _, rfl⟩
      · exact Or.inl he
      · exact Or.inr trivial
    · intro p hp
      simp only [ResolveConflicts, List.mem_append, List.mem_singleton] at hp
      rcases hp with hp | rfl
      · exact Or.inl hp
      · exact Or.inr trivial
  · intro i status commits _
    refine onCommitsFetched_cases r i status commits ?_ ?_ ?_ ?_
      (mergeOrdered_crash h .missing_commit trivial)
    · intro c0 c1 _ _ _
      exact hph i .merging_identical (.MergeIdenticalCommits c0 c1) trivial trivial
    · intros; exact mergeOrdered_cleanup h i
    · intros; exact hcl i (.log_error _) trivial
    · intro c0 c1 tl head1 head2 tl' _ _ _ _ hsort
      exact hph i (.finding_ancestor head1 head2) (.FindCommonAncestor head1 head2)
        (sorted_heads hsort) trivial
  · intro i status _
    refine onIdenticalMerged_cases r i status ?_ ?_
    · intros; exact hcl i (.log_error _) trivial
    · intros; exact mergeOrdered_cleanup h i
  · intro i head1 head2 status a hi
    refine onAncestorFound_cases r i head1 head2 status a ?_ ?_ ?_ ?_
    · intros; exact mergeOrdered_cleanup h i
    · intros; exact hcl i (.log_error _) trivial
    · intro s _ _ _
      have hp : phaseOrdered (.finding_ancestor head1 head2) := h.2 _ (List.get?_mem hi)
      exact hph i .merging (.Merge s head1 head2 a) trivial hp
    · intros; exact mergeOrdered_crash h .null_strategy trivial
  · intro i _
    exact mergeOrdered_cleanup h i

theorem mergeOrdered_create : MergeOrdered create := by
  constructor
  · intro e he
    simp only [create, List.mem_singleton] at he
    subst he
    trivial
  · intro p hp
    simp [create] at hp

/-- C5 (amended): whenever the merge resolver calls
`strategy_->Merge(storage_, page_manager_, head1, head2, ancestor, ...)`, the
first commit passed is not newer than the second:
`head1.GetTimestamp ≤ head2.GetTimestamp` (the heads are sorted by timestamp,
ascending, and passed in that order). -/
theorem Merge_heads_ascending (evs : List ResolverEvent) (s : StrategyId)
    (head1 head2 ancestor : Commit)
    (h : ResolverEffect.Merge s head1 head2 ancestor ∈ (create.run evs).log) :
    head1.GetTimestamp ≤ head2.GetTimestamp :=
  (run_induction mergeOrdered_create mergeOrdered_step evs).1 _ h

theorem Merge_heads_ascending_witness :
    Example.headY.GetTimestamp ≤ Example.headZ.GetTimestamp :=
  Merge_heads_ascending Example.threeHeadRound 1 Example.headY Example.headZ Example.root
    (by decide)

/-- C5 (counterexample): on two heads with the timestamps 10 and 20 the
round calls `strategy_->Merge` with the older head first, so the first commit
passed does not have a timestamp greater than or equal to the second's. -/
theorem Merge_older_head_first :
    ResolverEffect.Merge 1 Example.headOld Example.headNew Example.root ∈
      (create.run Example.twoHeadRound).log ∧
    ¬ (Example.headOld.GetTimestamp ≥ Example.headNew.GetTimestamp) := by
  decide

/-- C6: with the three heads `headX`, `headY`, `headZ` all fetched, the
contents of the first two heads of the list differ, so `MergeIdenticalCommits`
is not called; the sort by timestamp then puts `headY` and `headZ` first, and
the round calls `strategy_->Merge` on these two, which share their root id. -/
theorem Merge_on_identical_heads :
    (create.run Example.threeHeadRound).log =
      [.PostCheckConflicts, .PostCheckConflicts, .GetCommit 11, .GetCommit 12, .GetCommit 13,
        .FindCommonAncestor Example.headY Example.headZ,
        .Merge 1 Example.headY Example.headZ Example.root] ∧
    Example.headY.GetRootId = Example.headZ.GetRootId := by
  decide

/-- C8: `SetMergeStrategy(nullptr)` while a merge is in progress. `Cancel`
is called on the installed strategy, but `next_strategy_` stays null, so a
cleanup that runs afterwards leaves the installed strategy in place, where for
a strategy `s` that is not null it installs `s` and empties `next_strategy_`.
In the run `nullStrategyRound` the round does not even bail out: it goes on to
`FindCommonAncestor` and to `strategy_->Merge` on strategy 1, and after its
cleanup the installed strategy is still strategy 1, not the null strategy that
was set. -/
theorem null_strategy_not_installed :
    (∀ (r : MergeResolver) (installed : StrategyId) (i : Nat),
      r.merge_in_progress_ = true → r.strategy_ = some installed →
        (r.SetMergeStrategy none).log = r.log ++ [.Cancel installed] ∧
        (r.SetMergeStrategy none).strategy_ = some installed ∧
        ((r.SetMergeStrategy none).cleanup i).strategy_ = some installed) ∧
    (∀ (r : MergeResolver) (installed s : StrategyId) (i : Nat),
      r.merge_in_progress_ = true → r.strategy_ = some installed →
        (r.SetMergeStrategy (some s)).log = r.log ++ [.Cancel installed] ∧
        (r.SetMergeStrategy (some s)).strategy_ = some installed ∧
        ((r.SetMergeStrategy (some s)).cleanup i).strategy_ = some s ∧
        ((r.SetMergeStrategy (some s)).cleanup i).next_strategy_ = none) ∧
    (create.run Example.nullStrategyRound).strategy_ = some 1 ∧
    (create.run Example.nullStrategyRound).next_strategy_ = none ∧
    (create.run Example.nullStrategyRound).merge_in_progress_ = false ∧
    (create.run Example.nullStrategyRound).log =
      [.PostCheckConflicts, .PostCheckConflicts, .GetCommit 11, .GetCommit 12, .Cancel 1,
        .FindCommonAncestor Example.headOld Example.headNew,
        .Merge 1 Example.headOld Example.headNew Example.root,
        .cleanup, .PostCheckConflicts] := by
  refine ⟨?_, ?_, by decide, by decide, by decide, by decide⟩
  · intro r installed i hm hs
    refine ⟨?_, ?_, ?_⟩
    · simp [SetMergeStrategy, hm, hs, emit]
    · simp [SetMergeStrategy, hm, hs, emit]
    · rw [cleanup_strategy]
      simp [SetMergeStrategy, hm, hs, emit]
  · intro r installed s i hm hs
    refine ⟨?_, ?_, ?_, ?_⟩
    · simp [SetMergeStrategy, hm, hs, emit]
    · simp [SetMergeStrategy, hm, hs, emit]
    · rw [cleanup_strategy]
      simp [SetMergeStrategy, hm, hs, emit]
    · exact cleanup_next_strategy _ i

/-! ### The exits of a round run the cleanup once -/

@[simp] theorem cleanup_crashed (r : MergeResolver) (i : Nat) :
    (r.cleanup i).crashed = r.crashed := by
  unfold cleanup
  cases r.next_strategy_ <;> cases r.on_empty_callback_ <;> rfl

@[simp] theorem cleanup_on_empty_callback (r : MergeResolver) (i : Nat) :
    (r.cleanup i).on_empty_callback_ = r.on_empty_callback_ := by
  unfold cleanup
  cases h : r.on_empty_callback_ <;> cases r.next_strategy_ <;>
    simp [PostCheckConflicts, emit, h]

theorem cleanedUp_cleanup {r : MergeResolver} (h : OneRound r) (hc : r.crashed = false)
    {i : Nat} {q : RoundPhase} (hi : r.rounds.get? i = some q)
    (pre : List ResolverEffect) (hpre : ∀ e ∈ pre, ∃ message, e = ResolverEffect.log_error message)
    (r1 : MergeResolver) (hlog : r1.log = r.log ++ pre) (hrounds : r1.rounds = r.rounds)
    (hnext : r1.next_strategy_ = r.next_strategy_) (hstrategy : r1.strategy_ = r.strategy_)
    (hempty : r1.on_empty_callback_ = r.on_empty_callback_) (hcrashed : r1.crashed = r.crashed) :
    CleanedUp r (r1.cleanup i) where
  log := ⟨pre, hpre, by rw [cleanup_log, hlog, cleanupEffects, hempty]⟩
  merge_in_progress := cleanup_merge_in_progress r1 i
  rounds := by
    rw [cleanup_rounds, hrounds, rounds_of_get?_some h hi]
    rw [rounds_of_get?_some h hi] at hi
    cases i with
    | zero => rfl
    | succ n => simp at hi
  next_strategy := cleanup_next_strategy r1 i
  strategy := by rw [cleanup_strategy, hnext, hstrategy]
  on_empty_callback := by rw [cleanup_on_empty_callback, hempty]
  alive := by rw [cleanup_crashed, hcrashed, hc]

/-- Each exit of a round, but for the end of a fetch whose heads cannot
be told apart or are missing, runs the cleanup once. -/
theorem exit_cleanedUp (r : MergeResolver) (h : OneRound r) (hc : r.crashed = false)
    (ev : ResolverEvent) (he : exitPath r ev = true) (hd : headsDiffer ev = true) :
    CleanedUp r (r.step ev) := by
  have plain : ∀ {i : Nat} {q : RoundPhase}, r.rounds.get? i = some q →
      CleanedUp r (r.cleanup i) := fun hi =>
    cleanedUp_cleanup h hc hi [] (by simp) r (by simp) rfl rfl rfl rfl rfl
  have logged : ∀ {i : Nat} {q : RoundPhase} (message : String), r.rounds.get? i = some q →
      CleanedUp r ((r.emit (.log_error message)).cleanup i) := fun message hi =>
    cleanedUp_cleanup h hc hi [.log_error message] (by simp) _ rfl rfl rfl rfl rfl rfl
  cases ev with
  | OnNewCommits => simp [exitPath] at he
  | SetMergeStrategy strategy => simp [exitPath] at he
  | set_on_empty => simp [exitPath] at he
  | CheckConflicts heads => simp [exitPath] at he
  | commits_fetched i status commits =>
    cases hg : r.rounds.get? i with
    | none => simp only [exitPath, hg] at he; try cases he
    | some q =>
      cases q with
      | fetching =>
        match commits, hd with
        | c0 :: c1 :: rest, hd =>
          simp only [headsDiffer, differentHeads, decide_eq_true_eq] at hd
          simp only [exitPath, hg, differentHeads, Bool.or_eq_true, Bool.and_eq_true,
            decide_eq_true_eq] at he
          simp only [step, hc, Bool.false_eq_true, if_false, hg, onCommitsFetched, hd]
          by_cases hn : r.next_strategy_.isSome = true
          · simp only [hn, if_true]
            exact plain hg
          · have hs : status ≠ .OK := by
              rcases he with h1 | h1
              · exact h1
              · exact absurd h1.1 hn
            simp only [hn, hs, Bool.false_eq_true, if_false, ne_eq, not_false_eq_true, if_true]
            exact logged _ hg
      | merging_identical => simp only [exitPath, hg] at he; try cases he
      | finding_ancestor h1 h2 => simp only [exitPath, hg] at he; try cases he
      | merging => simp only [exitPath, hg] at he; try cases he
  | identical_merged i status =>
    cases hg : r.rounds.get? i with
    | none => simp only [exitPath, hg] at he; try cases he
    | some q =>
      cases q with
      | merging_identical =>
        simp only [step, hc, Bool.false_eq_true, if_false, hg, onIdenticalMerged]
        split
        · exact logged _ hg
        · exact plain hg
      | fetching => simp only [exitPath, hg] at he; try cases he
      | finding_ancestor h1 h2 => simp only [exitPath, hg] at he; try cases he
      | merging => simp only [exitPath, hg] at he; try cases he
  | ancestor_found i status common_ancestor =>
    cases hg : r.rounds.get? i with
    | none => simp only [exitPath, hg] at he; try cases he
    | some q =>
      cases q with
      | finding_ancestor h1 h2 =>
        simp only [exitPath, hg, Bool.or_eq_true, decide_eq_true_eq] at he
        simp only [step, hc, Bool.false_eq_true, if_false, hg, onAncestorFound]
        by_cases hn : r.next_strategy_.isSome = true
        · simp only [hn, if_true]
          exact plain hg
        · have hs : status ≠ .OK := by
            rcases he with h1 | h1
            · exact absurd h1 hn
            · exact h1
          simp only [hn, hs, Bool.false_eq_true, if_false, ne_eq, not_false_eq_true, if_true]
          exact logged _ hg
      | fetching => simp only [exitPath, hg] at he; try cases he
      | merging_identical => simp only [exitPath, hg] at he; try cases he
      | merging => simp only [exitPath, hg] at he; try cases he
  | merge_done i =>
    cases hg : r.rounds.get? i with
    | none => simp only [exitPath, hg] at he; try cases he
    | some q =>
      cases q with
      | merging =>
        simp only [step, hc, Bool.false_eq_true, if_false, hg]
        exact plain hg
      | fetching => simp only [exitPath, hg] at he; try cases he
      | merging_identical => simp only [exitPath, hg] at he; try cases he
      | finding_ancestor h1 h2 => simp only [exitPath, hg] at he; try cases he

/-- An event that is no exit of a round does not run the cleanup. -/
theorem no_cleanup_off_exit (r : MergeResolver) (ev : ResolverEvent)
    (he : exitPath r ev = false) :
    (r.step ev).log.count .cleanup = r.log.count .cleanup := by
  unfold step
  split
  · rfl
  · cases ev with
    | OnNewCommits => simp [PostCheckConflicts, emit]
    | SetMergeStrategy strategy =>
      simp only [SetMergeStrategy]
      split
      · split <;> simp [emit, crash]
      · split <;> simp [PostCheckConflicts, emit]
    | set_on_empty => rfl
    | CheckConflicts heads =>
      simp only [CheckConflicts]
      split
      · rfl
      · split
        · rfl
        · simp [ResolveConflicts, List.count_eq_zero]
    | commits_fetched i status commits =>
      simp only
      split
      · rename_i hg
        simp only [exitPath, hg, Bool.or_eq_false_iff, decide_eq_false_iff_not, ne_eq, not_not,
          Bool.and_eq_false_iff] at he
        obtain ⟨hs, he⟩ := he
        unfold onCommitsFetched
        split
        · rename_i c0 c1 rest
          by_cases hroot : c0.GetRootId = c1.GetRootId
          · simp [hroot, emit, setPhase]
          · have hn : r.next_strategy_.isSome = false := by
              rcases he with he | he
              · exact he
              · simp [differentHeads, hroot] at he
            simp only [hroot, hn, hs, if_false, Bool.false_eq_true, ne_eq,
              not_true_eq_false]
            split <;> simp [emit, setPhase, crash]
        · simp [crash]
      · rfl
    | identical_merged i status =>
      simp only
      split
      · rename_i hg
        simp only [exitPath, hg] at he
        cases he
      · rfl
    | ancestor_found i status common_ancestor =>
      simp only
      split
      · rename_i h1 h2 hg
        simp only [exitPath, hg, Bool.or_eq_false_iff, decide_eq_false_iff_not, ne_eq,
          not_not] at he
        obtain ⟨hn, hs⟩ := he
        simp only [onAncestorFound, hn, hs, Bool.false_eq_true, if_false, ne_eq,
          not_true_eq_false]
        split <;> simp [emit, setPhase, crash]
      · rfl
    | merge_done i =>
      simp only
      split
      · rename_i hg
        simp only [exitPath, hg] at he
        cases he
      · rfl

/-- C15: the scoped cleanup of a round of `ResolveConflicts` and the exits
of the round. When the fetch of the heads fails and the waiter hands over no
commit, the callback reads a missing commit before it looks at the status:
the round is at the exit `head fetch failed`, yet the cleanup does not run,
`merge_in_progress_` stays true and the cleanup stays armed. At every other
exit, and at the end of a fetch whose vector holds `commits[0]` and
`commits[1]` with different root ids, the cleanup runs once, in every state
the controller reaches without undefined behaviour: after it
`merge_in_progress_` is false and no cleanup is armed, `next_strategy_` is
empty and the pending strategy, if there was one, is `strategy_`, one
`PostCheckConflicts` has been made, and `on_empty_callback_`, if set, has been
called once, last. No event that is not an exit runs the cleanup. -/
theorem cleanup_skipped_on_failed_fetch :
    exitPath (create.run Example.fetchingRound) (.commits_fetched 0 .NOT_FOUND []) = true ∧
    ((create.run Example.fetchingRound).step (.commits_fetched 0 .NOT_FOUND [])).log =
      (create.run Example.fetchingRound).log ++ [.missing_commit] ∧
    ((create.run Example.fetchingRound).step
      (.commits_fetched 0 .NOT_FOUND [])).merge_in_progress_ = true ∧
    ((create.run Example.fetchingRound).step (.commits_fetched 0 .NOT_FOUND [])).rounds =
      [.fetching] ∧
    (∀ (evs : List ResolverEvent) (ev : ResolverEvent), (create.run evs).crashed = false →
      exitPath (create.run evs) ev = true → headsDiffer ev = true →
      CleanedUp (create.run evs) ((create.run evs).step ev)) ∧
    (∀ (evs : List ResolverEvent) (ev : ResolverEvent), exitPath (create.run evs) ev = false →
      ((create.run evs).step ev).log.count .cleanup = (create.run evs).log.count .cleanup) :=
  ⟨by decide, by decide, by decide, by decide,
   fun evs ev hc he hd => exit_cleanedUp _ (oneRound_run evs) hc ev he hd,
   fun evs ev he => no_cleanup_off_exit _ ev he⟩

/-- C16: the waiter's callback compares the root ids of `commits[0]` and
`commits[1]` before it looks at `status`. Whatever the status, it reads the
two commits: where the vector holds fewer it reads a missing commit, and where
their root ids are equal it calls `MergeIdenticalCommits`. On two heads of
which the fetch fails, the waiter handing over no commit, the round reads a
missing commit and does not reach its cleanup: `merge_in_progress_` stays
true and no `PostCheckConflicts` follows. -/
theorem failed_fetch_reads_commits :
    (∀ (r : MergeResolver) (i : Nat) (status : storage.Status),
      r.onCommitsFetched i status [] = r.crash .missing_commit) ∧
    (∀ (r : MergeResolver) (i : Nat) (status : storage.Status) (c0 : Commit),
      r.onCommitsFetched i status [c0] = r.crash .missing_commit) ∧
    (∀ (r : MergeResolver) (i : Nat) (status : storage.Status) (c0 c1 : Commit)
        (rest : List Commit), c0.GetRootId = c1.GetRootId →
      r.onCommitsFetched i status (c0 :: c1 :: rest) =
        (r.setPhase i .merging_identical).emit (.MergeIdenticalCommits c0 c1)) ∧
    (create.run Example.failedFetchRound).log =
      [.PostCheckConflicts, .PostCheckConflicts, .GetCommit 11, .GetCommit 12,
        .missing_commit] ∧
    (create.run Example.failedFetchRound).crashed = true ∧
    (create.run Example.failedFetchRound).merge_in_progress_ = true ∧
    (create.run Example.failedFetchRound).rounds = [.fetching] := by
  refine ⟨fun _ _ _ => rfl, fun _ _ _ _ => rfl, ?_, by decide, by decide, by decide,
    by decide⟩
  intro r i status c0 c1 rest h
  simp [onCommitsFetched, h]

end MergeResolver

namespace ConflictResolverClient

theorem quiet_refl (c : ConflictResolverClient) : Quiet c c :=
  ⟨rfl, rfl, rfl, rfl, rfl, rfl, ⟨[], by simp, by simp⟩, fun h => Or.inl h⟩

theorem quiet_trans {a b c : ConflictResolverClient} (h1 : Quiet a b) (h2 : Quiet b c) :
    Quiet a c := by
  obtain ⟨l1, hl1, hq1⟩ := h1.log
  obtain ⟨l2, hl2, hq2⟩ := h2.log
  refine ⟨h2.on_done.trans h1.on_done, h2.journal.trans h1.journal,
    h2.in_request.trans h1.in_request, h2.destroyed.trans h1.destroyed,
    h2.commit_pending.trans h1.commit_pending, h2.cancelled.trans h1.cancelled,
    ⟨l1 ++ l2, by rw [hl2, hl1, List.append_assoc], ?_⟩, ?_⟩
  · intro e he
    rcases List.mem_append.1 he with he | he
    · exact hq1 e he
    · exact hq2 e he
  · intro hc
    rcases h2.crashed hc with hb | hb
    · exact h1.crashed hb
    · rw [h1.journal] at hb; exact Or.inr hb

theorem quiet_emit (c : ConflictResolverClient) (e : ClientEffect) (he : e.isQuiet = true) :
    Quiet c (c.emit e) :=
  ⟨rfl, rfl, rfl, rfl, rfl, rfl, ⟨[e], rfl, by simpa using he⟩, fun h => Or.inl h⟩

theorem quiet_crash_null_journal (c : ConflictResolverClient) (h : c.journal_ = false) :
    Quiet c (c.crash .null_journal) :=
  ⟨rfl, rfl, rfl, rfl, rfl, rfl, ⟨[.null_journal], rfl, by simp [ClientEffect.isQuiet]⟩,
    fun _ => Or.inr h⟩

theorem quiet_logErrorIf (c : ConflictResolverClient) (failed : Bool) (message : String) :
    Quiet c (c.logErrorIf failed message) := by
  unfold logErrorIf
  split
  · exact quiet_emit c _ rfl
  · exact quiet_refl c

theorem quiet_serializer (c : ConflictResolverClient) (q : List PendingMerge) :
    Quiet c { c with operation_serializer_ := q } :=
  ⟨rfl, rfl, rfl, rfl, rfl, rfl, ⟨[], by simp, by simp⟩, fun h => Or.inl h⟩

theorem quiet_OnNextMergeResult (c : ConflictResolverClient) (v : MergedValue)
    (a : StorageAnswer) : Quiet c (c.OnNextMergeResult v a).1 := by
  unfold OnNextMergeResult
  split
  · split
    · split
      · refine quiet_trans (quiet_emit c _ ?_) (quiet_emit _ _ ?_) <;> rfl
      · exact quiet_emit c _ rfl
    · exact quiet_emit c _ rfl
  · split
    · exact quiet_emit c _ rfl
    · exact quiet_refl c
  · split
    · exact quiet_emit c _ rfl
    · rename_i h
      exact quiet_crash_null_journal c (by simpa using h)

theorem quiet_collectResults : ∀ (values : List (MergedValue × StorageAnswer))
    (c : ConflictResolverClient), Quiet c (c.collectResults values).1
  | [], c => quiet_refl c
  | (v, a) :: rest, c => by
    have h1 := quiet_OnNextMergeResult c v a
    simp only [collectResults]
    split
    · exact h1
    · exact quiet_trans h1 (quiet_collectResults rest _)

theorem quiet_putAll : ∀ (values : List (MergedValue × StorageAnswer))
    (results : List (storage.Status × ObjectId)) (c : ConflictResolverClient),
    Quiet c (c.putAll values results).1
  | [], _, c => by simp [putAll]; exact quiet_refl c
  | _ :: _, [], c => by simp [putAll]; exact quiet_refl c
  | (v, a) :: values, (st, object_id) :: results, c => by
    simp only [putAll]
    split
    · exact quiet_putAll values results c
    · split
      · split
        · exact quiet_emit c _ rfl
        · refine quiet_trans (quiet_emit c _ ?_) (quiet_putAll values results _)
          rfl
      · rename_i h
        exact quiet_crash_null_journal c (by simpa using h)

theorem quiet_startMerge (c : ConflictResolverClient)
    (values : List (MergedValue × StorageAnswer)) : Quiet c (c.startMerge values).1 := by
  unfold startMerge
  split
  · exact quiet_emit c _ rfl
  · exact quiet_collectResults values c

theorem quiet_pump : ∀ (fuel : Nat) (c : ConflictResolverClient), Quiet c (pump fuel c)
  | 0, c => quiet_refl c
  | fuel + 1, c => by
    simp only [pump]
    split
    · exact quiet_refl c
    · split
      · exact quiet_refl c
      · rename_i op rest _
        split
        · exact quiet_refl c
        · have h1 := quiet_startMerge c op.values
          split
          · rename_i c1 heq
            rw [heq] at h1
            exact quiet_trans (quiet_trans h1 (quiet_serializer c1 rest)) (quiet_pump fuel _)
          · rename_i c1 results heq
            rw [heq] at h1
            exact quiet_trans h1 (quiet_serializer c1 _)

theorem quiet_Merge (c : ConflictResolverClient)
    (merged_values : List (MergedValue × StorageAnswer)) : Quiet c (c.Merge merged_values) := by
  unfold Merge
  exact quiet_trans (quiet_serializer c _) (quiet_pump _ _)

/-! ### The journal is closed when `on_done_` is called -/

theorem journalStep_quiet (j : JournalState) {e : ClientEffect} (he : e.isQuiet = true) :
    journalStep j e = j := by
  cases e <;> simp [ClientEffect.isQuiet] at he <;> rfl

theorem journalState_append (log l : List ClientEffect) :
    journalState (log ++ l) = l.foldl journalStep (journalState log) := by
  simp [journalState, List.foldl_append]

theorem foldl_journalStep_quiet (j : JournalState) :
    ∀ l : List ClientEffect, (∀ e ∈ l, e.isQuiet = true) → l.foldl journalStep j = j
  | [], _ => rfl
  | e :: l, h => by
    simp only [List.foldl_cons]
    rw [journalStep_quiet j (h e (List.mem_cons_self _ _))]
    exact foldl_journalStep_quiet j l (fun x hx => h x (List.mem_cons_of_mem _ hx))

theorem journalState_append_quiet (log : List ClientEffect) {l : List ClientEffect}
    (h : ∀ e ∈ l, e.isQuiet = true) : journalState (log ++ l) = journalState log := by
  rw [journalState_append, foldl_journalStep_quiet _ l h]

theorem endCondition_closed : EndCondition JournalState.closed :=
  ⟨by simp [JournalState.closed], by simp [JournalState.closed]⟩

theorem endCondition_ended : EndCondition JournalState.ended := ⟨trivial, trivial⟩

theorem doneClosed_append {P : JournalState → Prop} {log l : List ClientEffect}
    (h : DoneClosed P log)
    (hl : ∀ pre post, l = pre ++ ClientEffect.on_done :: post →
      P (journalState (log ++ pre))) : DoneClosed P (log ++ l) := by
  intro pre post heq
  rcases List.append_eq_append_iff.1 heq with ⟨a, hpre, hl'⟩ | ⟨c, hlog, hc⟩
  · rw [hpre]
    exact hl a post hl'
  · cases c with
    | nil =>
      simp only [List.nil_append] at hc
      simp only [List.append_nil] at hlog
      have := hl [] post hc.symm
      simpa [hlog] using this
    | cons x c =>
      simp only [List.cons_append, List.cons.injEq] at hc
      obtain ⟨rfl, _⟩ := hc
      exact h pre c hlog

theorem doneClosed_append_no_done {P : JournalState → Prop} {log l : List ClientEffect}
    (h : DoneClosed P log) (hl : ClientEffect.on_done ∉ l) : DoneClosed P (log ++ l) := by
  refine doneClosed_append h ?_
  intro pre post heq
  exact absurd (by rw [heq]; simp) hl

theorem doneClosed_snoc_on_done {P : JournalState → Prop} {log : List ClientEffect}
    (h : DoneClosed P log) (hj : P (journalState log)) :
    DoneClosed P (log ++ [.on_done]) := by
  refine doneClosed_append h ?_
  intro pre post heq
  cases pre with
  | nil => simpa using hj
  | cons x pre =>
    simp only [List.cons_append, List.cons.injEq] at heq
    have := heq.2
    simp at this

theorem JournalEnded.closed {P : JournalState → Prop} {c : ConflictResolverClient}
    (h : JournalEnded P c) : JournalClosed P c := ⟨h.1, Or.inr h.2⟩

theorem journalClosed_quiet {P : JournalState → Prop} {c c' : ConflictResolverClient}
    (h : JournalClosed P c) (hq : Quiet c c') : JournalClosed P c' := by
  obtain ⟨l, hl, hquiet⟩ := hq.log
  constructor
  · rw [hl]
    refine doneClosed_append_no_done h.1 ?_
    intro hmem
    have := hquiet _ hmem
    simp [ClientEffect.isQuiet] at this
  · rw [hq.journal, hq.commit_pending, hl, journalState_append_quiet _ hquiet]
    exact h.2

theorem journalEnded_quiet {P : JournalState → Prop} {c c' : ConflictResolverClient}
    (h : JournalEnded P c) (hq : Quiet c c') : JournalEnded P c' := by
  obtain ⟨l, hl, hquiet⟩ := hq.log
  constructor
  · rw [hl]
    refine doneClosed_append_no_done h.1 ?_
    intro hmem
    have := hquiet _ hmem
    simp [ClientEffect.isQuiet] at this
  · rw [hl, journalState_append_quiet _ hquiet]
    exact h.2

theorem journalClosed_congr {P : JournalState → Prop} {c c' : ConflictResolverClient}
    (h : JournalClosed P c)
    (hlog : c'.log = c.log) (hj : c'.journal_ = c.journal_)
    (hp : c'.commit_pending = c.commit_pending) : JournalClosed P c' := by
  unfold JournalClosed
  rw [hlog, hj, hp]
  exact h

theorem journalEnded_congr {P : JournalState → Prop} {c c' : ConflictResolverClient}
    (h : JournalEnded P c) (hlog : c'.log = c.log) : JournalEnded P c' := by
  unfold JournalEnded
  rw [hlog]
  exact h

/-- After the rollback branch of `Finalize` or of the destructor the
journal is ended. -/
theorem journalEnded_rollbackJournal {P : JournalState → Prop} (hP : EndCondition P)
    {c : ConflictResolverClient} (h : JournalClosed P c) :
    JournalEnded P c.rollbackJournal := by
  unfold rollbackJournal
  by_cases hj : c.journal_ = true
  · simp only [hj, if_true]
    have hs : journalState (c.log ++ [.journal_Rollback]) = .rolled_back := by
      rw [journalState_append]
      simp [journalStep]
    exact ⟨doneClosed_append_no_done h.1 (by simp), by rw [hs]; exact hP.rolled_back⟩
  · simp only [hj]
    refine ⟨h.1, ?_⟩
    rcases h.2 with ⟨h1, _⟩ | h2
    · exact absurd h1 hj
    · exact h2

theorem journalEnded_callOnDone {P : JournalState → Prop} {c : ConflictResolverClient}
    (h : JournalEnded P c) : JournalEnded P c.callOnDone := by
  unfold callOnDone
  split
  · constructor
    · exact doneClosed_snoc_on_done h.1 h.2
    · show P (journalState (_ ++ [ClientEffect.on_done]))
      rw [journalState_append]
      simpa [journalStep] using h.2
  · constructor
    · exact doneClosed_append_no_done h.1 (by simp)
    · show P (journalState (_ ++ [ClientEffect.empty_on_done]))
      rw [journalState_append]
      simpa [journalStep] using h.2

theorem journalEnded_Finalize {P : JournalState → Prop} (hP : EndCondition P)
    {c : ConflictResolverClient} (h : JournalClosed P c) : JournalEnded P c.Finalize :=
  journalEnded_callOnDone (journalEnded_rollbackJournal hP h)

theorem journalEnded_emit {P : JournalState → Prop} {c : ConflictResolverClient}
    (h : JournalEnded P c) (e : ClientEffect) (he : e.isQuiet = true) :
    JournalEnded P (c.emit e) :=
  journalEnded_quiet h (quiet_emit c e he)

theorem journalClosed_emit {P : JournalState → Prop} {c : ConflictResolverClient}
    (h : JournalClosed P c) (e : ClientEffect) (he : e.isQuiet = true) :
    JournalClosed P (c.emit e) :=
  journalClosed_quiet h (quiet_emit c e he)

theorem journalClosed_Cancel {P : JournalState → Prop} (hP : EndCondition P)
    {c : ConflictResolverClient} (h : JournalClosed P c) : JournalClosed P c.Cancel := by
  have h1 : JournalClosed P { c with cancelled_ := true } := journalClosed_congr h rfl rfl rfl
  unfold Cancel
  simp only
  split
  · exact (journalEnded_Finalize hP h1).closed
  · exact h1

theorem journalClosed_GetDiff {P : JournalState → Prop} (hP : EndCondition P)
    {c : ConflictResolverClient} (h : JournalClosed P c) (commit : Commit) (token : String)
    (status : Status) (change : PageChange) (next_token : String) :
    JournalClosed P (c.GetDiff commit token status change next_token) := by
  have h1 := journalClosed_emit h (.ComputePageChange c.ancestor_.GetId commit.GetId token) rfl
  unfold GetDiff
  simp only
  split
  · exact journalClosed_emit h1 _ rfl
  · split
    · refine (journalEnded_Finalize hP ?_).closed
      exact journalClosed_emit h1 _ rfl
    · split
      · refine (journalEnded_Finalize hP ?_).closed
        refine journalClosed_emit ?_ _ rfl
        exact journalClosed_emit h1 _ rfl
      · exact journalClosed_emit h1 _ rfl

theorem journalClosed_onMergeResults {P : JournalState → Prop} (hP : EndCondition P)
    {c : ConflictResolverClient} (h : JournalClosed P c) (op : PendingMerge) :
    JournalClosed P (c.onMergeResults op) := by
  unfold onMergeResults
  split
  · exact journalClosed_emit h _ rfl
  · split
    · have h1 := (journalEnded_Finalize hP h).closed
      simp only
      split
      · exact h1
      · exact journalClosed_quiet h1 (quiet_emit _ _ rfl)
    · have h1 := journalClosed_quiet h (quiet_putAll op.values op.results c)
      simp only
      split
      · exact h1
      · exact journalClosed_quiet h1 (quiet_emit _ _ rfl)

theorem journalClosed_Done {P : JournalState → Prop} (hP : EndCondition P)
    {c : ConflictResolverClient} (h : JournalClosed P c) : JournalClosed P c.Done := by
  have h1 : JournalClosed P { c with in_client_request_ := false } :=
    journalClosed_congr h rfl rfl rfl
  unfold Done
  simp only
  split
  · constructor
    · exact doneClosed_append_no_done h.1 (by simp)
    · right
      show P (journalState (_ ++ [ClientEffect.journal_Commit]))
      rw [journalState_append]
      simpa [journalStep] using hP.committed
  · rename_i hj
    exact journalClosed_quiet h1 (quiet_crash_null_journal _ (by simpa using hj))

theorem journalClosed_onCommitDone {P : JournalState → Prop} (hP : EndCondition P)
    {c : ConflictResolverClient} (h : JournalClosed P c) (hp : c.commit_pending = true)
    (status : storage.Status) : JournalClosed P (c.onCommitDone status) := by
  have h0 : JournalEnded P c := by
    refine ⟨h.1, ?_⟩
    rcases h.2 with ⟨_, h1⟩ | h2
    · rw [hp] at h1; cases h1
    · exact h2
  have h1 : JournalEnded P { c with commit_pending := false } := journalEnded_congr h0 rfl
  have h2 := journalEnded_quiet h1
    (quiet_logErrorIf _ (decide (status ≠ .OK)) "Unable to commit merge journal")
  have h3 := journalEnded_emit h2 (.done_reply (ConvertStatus status)) rfl
  unfold onCommitDone
  simp only
  split
  · exact h3.closed
  · refine (journalEnded_Finalize hP ?_).closed
    refine JournalEnded.closed ?_
    exact journalEnded_congr h3 rfl

theorem journalClosed_destroy {P : JournalState → Prop} (hP : EndCondition P)
    {c : ConflictResolverClient} (h : JournalClosed P c) : JournalClosed P c.destroy :=
  (journalEnded_congr (journalEnded_rollbackJournal hP h) rfl).closed

theorem journalClosed_step {P : JournalState → Prop} (hP : EndCondition P)
    (c : ConflictResolverClient) (ev : ClientEvent) (h : JournalClosed P c) :
    JournalClosed P (c.step ev) := by
  unfold step
  split
  · exact h
  · cases ev with
    | Cancel =>
      simp only
      split
      · exact h
      · exact journalClosed_Cancel hP h
    | GetLeftDiff token status change next_token =>
      exact journalClosed_GetDiff hP h _ _ _ _ _
    | GetRightDiff token status change next_token =>
      exact journalClosed_GetDiff hP h _ _ _ _ _
    | Merge merged_values => exact journalClosed_quiet h (quiet_Merge c merged_values)
    | merge_results =>
      simp only
      split
      · rename_i op rest _
        split
        · have h1 := journalClosed_onMergeResults hP h op
          exact journalClosed_quiet h1
            (quiet_trans (quiet_serializer _ rest) (quiet_pump _ _))
        · exact h
      · exact h
    | Done =>
      simp only
      split
      · exact h
      · exact journalClosed_Done hP h
    | commit_done status =>
      simp only
      split
      · rename_i hp; exact journalClosed_onCommitDone hP h hp status
      · exact h
    | destroy =>
      simp only
      split
      · exact h
      · exact journalClosed_destroy hP h

theorem journalClosed_run {P : JournalState → Prop} (hP : EndCondition P) :
    ∀ (evs : List ClientEvent) (c : ConflictResolverClient), JournalClosed P c →
      JournalClosed P (c.run evs)
  | [], _, h => h
  | ev :: evs, c, h => journalClosed_run hP evs (c.step ev) (journalClosed_step hP c ev h)

theorem journalClosed_create {P : JournalState → Prop} (hP : P .not_started)
    (left right ancestor : Commit) : JournalClosed P (create left right ancestor) := by
  constructor
  · intro pre post h
    simp [create] at h
  · exact Or.inr hP

theorem journalClosed_Start {P : JournalState → Prop} (hP : EndCondition P)
    (left right ancestor : Commit) (status : storage.Status)
    (h0 : status ≠ .OK → P .not_started) :
    JournalClosed P ((create left right ancestor).Start status) := by
  unfold Start
  simp only
  split
  · rename_i hst
    refine (journalEnded_Finalize hP ?_).closed
    refine journalClosed_emit ?_ _ rfl
    constructor
    · intro pre post h
      have hmem : ClientEffect.on_done ∈
          [ClientEffect.StartMergeCommit left.GetId right.GetId status] := by
        have : [ClientEffect.StartMergeCommit left.GetId right.GetId status]
            = pre ++ ClientEffect.on_done :: post := by simpa [create] using h
        rw [this]; simp
      simp at hmem
    · right
      show P (journalState ([] ++ [ClientEffect.StartMergeCommit left.GetId right.GetId status]))
      rw [journalState_append]
      have : journalStep .not_started
          (ClientEffect.StartMergeCommit left.GetId right.GetId status) = .not_started := by
        cases status <;> first | rfl | exact absurd rfl hst
      simpa [journalState, this] using h0 hst
  · rename_i hst
    have hst' : status = .OK := by simpa using hst
    constructor
    · intro pre post h
      have hmem : ClientEffect.on_done ∈
          [ClientEffect.StartMergeCommit left.GetId right.GetId status,
            .BindPageSnapshot ancestor.GetId, .BindPageSnapshot left.GetId,
            .BindPageSnapshot right.GetId, .Resolve] := by
        have : [ClientEffect.StartMergeCommit left.GetId right.GetId status,
            .BindPageSnapshot ancestor.GetId, .BindPageSnapshot left.GetId,
            .BindPageSnapshot right.GetId, .Resolve]
            = pre ++ ClientEffect.on_done :: post := by simpa [create] using h
        rw [this]; simp
      simp at hmem
    · left
      simp [create, hst']

theorem ended_iff (j : JournalState) :
    j.ended ↔ j = .committed ∨ j = .rolled_back := by
  cases j <;> simp [JournalState.ended]

/-- C10: in every run of the client after `Start`, whichever events reach
it (cancel, diffs, merges, `Done` and the commit callback, destruction), at
every call of `on_done_` the journal is not open; when `StartMergeCommit`
succeeded and so opened one, it has been committed (by `Done`) or rolled back
(by `Finalize`) before the call. -/
theorem journal_closed_before_on_done (left right ancestor : Commit) (status : storage.Status)
    (evs : List ClientEvent) (pre post : List ClientEffect)
    (h : (((create left right ancestor).Start status).run evs).log
      = pre ++ ClientEffect.on_done :: post) :
    journalState pre ≠ .open_ ∧
    (status = .OK → journalState pre = .committed ∨ journalState pre = .rolled_back) := by
  constructor
  · have := journalClosed_run endCondition_closed evs _
      (journalClosed_Start endCondition_closed left right ancestor status
        (fun _ => by simp [JournalState.closed]))
    exact this.1 pre post h
  · intro hst
    have := journalClosed_run endCondition_ended evs _
      (journalClosed_Start endCondition_ended left right ancestor status
        (fun hne => absurd hst hne))
    exact (ended_iff _).1 (this.1 pre post h)

theorem journal_closed_before_on_done_witness :
    journalState [.StartMergeCommit 12 11 .OK, .BindPageSnapshot 0, .BindPageSnapshot 12,
        .BindPageSnapshot 11, .Resolve, .journal_Commit, .done_reply .OK] ≠ .open_ ∧
    (storage.Status.OK = .OK →
      journalState [.StartMergeCommit 12 11 .OK, .BindPageSnapshot 0, .BindPageSnapshot 12,
        .BindPageSnapshot 11, .Resolve, .journal_Commit, .done_reply .OK] = .committed ∨
      journalState [.StartMergeCommit 12 11 .OK, .BindPageSnapshot 0, .BindPageSnapshot 12,
        .BindPageSnapshot 11, .Resolve, .journal_Commit, .done_reply .OK] = .rolled_back) :=
  journal_closed_before_on_done Example.headNew Example.headOld Example.root .OK
    [.Done, .commit_done .OK] _ [] (by decide)

theorem OnDoneOnce.weaken {b : Bool} {c : ConflictResolverClient} (h : OnDoneOnce true c) :
    OnDoneOnce b c :=
  ⟨h.in_request, h.alive, h.no_commit, h.calls, h.held, h.dropped, fun _ => h.consumed rfl⟩

theorem onDoneCalls_append_quiet (log : List ClientEffect) {l : List ClientEffect}
    (h : ∀ e ∈ l, e.isQuiet = true) : onDoneCalls (log ++ l) = onDoneCalls log := by
  unfold onDoneCalls
  rw [List.count_append]
  have : List.count ClientEffect.on_done l = 0 := by
    rw [List.count_eq_zero]
    intro hmem
    have := h _ hmem
    simp [ClientEffect.isQuiet] at this
  omega

theorem onDoneOnce_quiet {b : Bool} {c c' : ConflictResolverClient} (h : OnDoneOnce b c)
    (hq : Quiet c c') : OnDoneOnce b c' := by
  obtain ⟨l, hl, hquiet⟩ := hq.log
  refine ⟨hq.in_request.trans h.in_request, hq.destroyed.trans h.alive,
    hq.commit_pending.trans h.no_commit, ?_, ?_, ?_, ?_⟩
  · rw [hl, onDoneCalls_append_quiet _ hquiet, hq.on_done]
    exact h.calls
  · intro hd
    rw [hq.on_done] at hd
    have hh := h.held hd
    refine ⟨hq.journal.trans hh.1, ?_⟩
    cases hc : c'.crashed with
    | false => rfl
    | true =>
      rcases hq.crashed hc with h1 | h1
      · rw [hh.2] at h1; cases h1
      · rw [hh.1] at h1; cases h1
  · intro hd
    rw [hq.on_done] at hd
    exact hq.journal.trans (h.dropped hd)
  · intro hb
    rw [hq.on_done]
    exact h.consumed hb

theorem onDoneOnce_cancelled {b : Bool} {c : ConflictResolverClient} (h : OnDoneOnce b c) :
    OnDoneOnce b { c with cancelled_ := true } :=
  ⟨h.in_request, h.alive, h.no_commit, h.calls, h.held, h.dropped, h.consumed⟩

theorem onDoneOnce_Finalize {b : Bool} {c : ConflictResolverClient} (h : OnDoneOnce b c) :
    OnDoneOnce true c.Finalize := by
  unfold Finalize rollbackJournal callOnDone
  by_cases hd : c.on_done_ = true
  · have hj := (h.held hd).1
    have hcalls := h.calls
    simp only [hd, if_true] at hcalls
    refine ⟨by simp [hj, hd, h.in_request], by simp [hj, hd, h.alive],
      by simp [hj, hd, h.no_commit], ?_, by simp [hj, hd], by simp [hj, hd],
      by simp [hj, hd]⟩
    simp [hj, hd, onDoneCalls, List.count_append] at hcalls ⊢
    exact hcalls
  · have hd' : c.on_done_ = false := by simpa using hd
    have hj := h.dropped hd'
    have hcalls := h.calls
    simp only [hd', Bool.false_eq_true, if_false] at hcalls
    refine ⟨by simp [hj, hd', crash, h.in_request], by simp [hj, hd', crash, h.alive],
      by simp [hj, hd', crash, h.no_commit], ?_, by simp [hj, hd', crash],
      by simp [hj, hd', crash], by simp [hj, hd', crash]⟩
    simp [hj, hd', crash, onDoneCalls, List.count_append] at hcalls ⊢
    exact hcalls

theorem onDoneOnce_emit {b : Bool} {c : ConflictResolverClient} (h : OnDoneOnce b c)
    (e : ClientEffect) (he : e.isQuiet = true) : OnDoneOnce b (c.emit e) :=
  onDoneOnce_quiet h (quiet_emit c e he)

theorem onDoneOnce_GetDiff {b : Bool} {c : ConflictResolverClient} (h : OnDoneOnce b c)
    (commit : Commit) (token : String) (status : Status) (change : PageChange)
    (next_token : String) : OnDoneOnce b (c.GetDiff commit token status change next_token) := by
  have h1 := onDoneOnce_emit h (.ComputePageChange c.ancestor_.GetId commit.GetId token) rfl
  unfold GetDiff
  simp only
  split
  · exact onDoneOnce_emit h1 _ rfl
  · split
    · refine OnDoneOnce.weaken (onDoneOnce_Finalize (b := b) ?_)
      exact onDoneOnce_emit h1 _ rfl
    · split
      · refine OnDoneOnce.weaken (onDoneOnce_Finalize (b := b) ?_)
        refine onDoneOnce_emit ?_ _ rfl
        exact onDoneOnce_emit h1 _ rfl
      · exact onDoneOnce_emit h1 _ rfl

theorem onDoneOnce_onMergeResults {b : Bool} {c : ConflictResolverClient}
    (h : OnDoneOnce b c) (op : PendingMerge) : OnDoneOnce b (c.onMergeResults op) := by
  unfold onMergeResults
  split
  · exact onDoneOnce_emit h _ rfl
  · split
    · have h1 : OnDoneOnce b c.Finalize := OnDoneOnce.weaken (onDoneOnce_Finalize h)
      simp only
      split
      · exact h1
      · exact onDoneOnce_quiet h1 (quiet_emit _ _ rfl)
    · have h1 := onDoneOnce_quiet h (quiet_putAll op.values op.results c)
      simp only
      split
      · exact h1
      · exact onDoneOnce_quiet h1 (quiet_emit _ _ rfl)

theorem onDoneOnce_Cancel {b : Bool} {c : ConflictResolverClient} (h : OnDoneOnce b c) :
    OnDoneOnce true c.Cancel := by
  unfold Cancel
  simp only
  split
  · exact onDoneOnce_Finalize (onDoneOnce_cancelled h)
  · rename_i hn
    exact absurd h.in_request hn

theorem onDoneOnce_step {b : Bool} (c : ConflictResolverClient) (ev : ClientEvent)
    (hev : ev.isProviderOp = true) (h : OnDoneOnce b c) : OnDoneOnce b (c.step ev) := by
  unfold step
  split
  · exact h
  · cases ev with
    | Cancel =>
      simp only [h.alive, Bool.false_eq_true, if_false]
      exact OnDoneOnce.weaken (onDoneOnce_Cancel h)
    | GetLeftDiff token status change next_token =>
      exact onDoneOnce_GetDiff h _ _ _ _ _
    | GetRightDiff token status change next_token =>
      exact onDoneOnce_GetDiff h _ _ _ _ _
    | Merge merged_values => exact onDoneOnce_quiet h (quiet_Merge c merged_values)
    | merge_results =>
      simp only
      split
      · rename_i op rest _
        split
        · have h1 := onDoneOnce_onMergeResults h op
          exact onDoneOnce_quiet h1 (quiet_trans (quiet_serializer _ rest) (quiet_pump _ _))
        · exact h
      · exact h
    | Done => simp [ClientEvent.isProviderOp] at hev
    | commit_done status => simp [ClientEvent.isProviderOp] at hev
    | destroy => simp [ClientEvent.isProviderOp] at hev

/-- A `Cancel` leaves `on_done_` consumed, also when the model had stopped
before. -/
theorem onDoneOnce_step_Cancel {b : Bool} (c : ConflictResolverClient) (h : OnDoneOnce b c) :
    OnDoneOnce true (c.step .Cancel) := by
  unfold step
  split
  · rename_i hc
    refine ⟨h.in_request, h.alive, h.no_commit, h.calls, h.held, h.dropped, fun _ => ?_⟩
    cases hd : c.on_done_ with
    | false => rfl
    | true =>
      have := (h.held hd).2
      rw [this] at hc
      cases hc
  · simp only [h.alive, Bool.false_eq_true, if_false]
    exact onDoneOnce_Cancel h

theorem onDoneOnce_run {b : Bool} : ∀ (evs : List ClientEvent) (c : ConflictResolverClient),
    (∀ ev ∈ evs, ev.isProviderOp = true) → OnDoneOnce b c → OnDoneOnce b (c.run evs)
  | [], _, _, h => h
  | ev :: evs, c, hops, h =>
    onDoneOnce_run evs (c.step ev) (fun e he => hops e (List.mem_cons_of_mem _ he))
      (onDoneOnce_step c ev (hops ev (List.mem_cons_self _ _)) h)

theorem onDoneOnce_run_Cancel {b : Bool} : ∀ (evs : List ClientEvent)
    (c : ConflictResolverClient), (∀ ev ∈ evs, ev.isProviderOp = true) →
    ClientEvent.Cancel ∈ evs → OnDoneOnce b c → OnDoneOnce true (c.run evs)
  | [], _, _, hc, _ => by simp at hc
  | ev :: evs, c, hops, hc, h => by
    have hops' : ∀ e ∈ evs, e.isProviderOp = true :=
      fun e he => hops e (List.mem_cons_of_mem _ he)
    by_cases hev : ev = .Cancel
    · subst hev
      exact onDoneOnce_run evs _ hops' (onDoneOnce_step_Cancel c h)
    · have hc' : ClientEvent.Cancel ∈ evs := by
        rcases List.mem_cons.1 hc with h1 | h1
        · exact absurd h1.symm hev
        · exact h1
      exact onDoneOnce_run_Cancel evs _ hops' hc'
        (onDoneOnce_step c ev (hops ev (List.mem_cons_self _ _)) h)

theorem onDoneOnce_Start (left right ancestor : Commit) :
    OnDoneOnce false ((create left right ancestor).Start .OK) := by
  refine ⟨?_, ?_, ?_, ?_, ?_, ?_, ?_⟩ <;>
    simp [Start, create, onDoneCalls]

theorem run_snoc (c : ConflictResolverClient) (evs : List ClientEvent) (ev : ClientEvent) :
    c.run (evs ++ [ev]) = (c.run evs).step ev := by
  simp [run, List.foldl_append]

/-- A further `Cancel` on a client whose `on_done_` is consumed calls the
empty closure. -/
theorem Cancel_again {c : ConflictResolverClient} (h : OnDoneOnce true c)
    (hc : c.crashed = false) : (c.step .Cancel).log = c.log ++ [.empty_on_done] := by
  have hd := h.consumed rfl
  have hj := h.dropped hd
  simp [step, hc, h.alive, Cancel, h.in_request, Finalize, rollbackJournal, hj, callOnDone, hd,
    crash]

/-- Up to the end of a sequence of `GetLeftDiff`, `GetRightDiff`, `Merge`
and `Cancel` (and `Merge` completions) on a client after a successful `Start`
in which `Cancel` occurs, the closure `on_done_` has been called once; and if
no step of the sequence has called an empty closure or a null journal, one
more `Cancel` runs `Finalize` on the consumed `on_done_`. -/
theorem on_done_called_once (left right ancestor : Commit) (evs : List ClientEvent)
    (hops : ∀ ev ∈ evs, ev.isProviderOp = true) (hc : ClientEvent.Cancel ∈ evs) :
    onDoneCalls (((create left right ancestor).Start .OK).run evs).log = 1 ∧
    ((((create left right ancestor).Start .OK).run evs).crashed = false →
      (((create left right ancestor).Start .OK).run (evs ++ [.Cancel])).log =
        (((create left right ancestor).Start .OK).run evs).log ++ [.empty_on_done]) := by
  have h := onDoneOnce_run_Cancel evs _ hops hc (onDoneOnce_Start left right ancestor)
  constructor
  · have := h.calls
    simpa [h.consumed rfl] using this
  · intro hcr
    rw [run_snoc]
    exact Cancel_again h hcr

theorem on_done_called_once_witness :
    onDoneCalls (((create Example.headNew Example.headOld Example.root).Start .OK).run
      [.GetLeftDiff "" .OK [] "", .Cancel]).log = 1 ∧
    ((((create Example.headNew Example.headOld Example.root).Start .OK).run
      [.GetLeftDiff "" .OK [] "", .Cancel]).crashed = false →
      (((create Example.headNew Example.headOld Example.root).Start .OK).run
        ([.GetLeftDiff "" .OK [] "", .Cancel] ++ [.Cancel])).log =
      (((create Example.headNew Example.headOld Example.root).Start .OK).run
        [.GetLeftDiff "" .OK [] "", .Cancel]).log ++ [.empty_on_done]) :=
  on_done_called_once Example.headNew Example.headOld Example.root
    [.GetLeftDiff "" .OK [] "", .Cancel] (by decide) (by decide)

/-- C9: `Cancel` twice on a client after a successful `Start`. The first
`Cancel` runs `Finalize`, which rolls the journal back and calls `on_done_`;
`in_client_request_` stays true, so the second `Cancel` runs `Finalize` again,
on the consumed `on_done_`: it calls the empty closure. So does a further
`Cancel` after any sequence of operations of the resolver that has consumed
`on_done_` on a client that is still alive. -/
theorem Cancel_twice_finalizes_twice :
    (∀ ev ∈ [ClientEvent.Cancel, ClientEvent.Cancel], ev.isProviderOp = true) ∧
    (((create Example.headNew Example.headOld Example.root).Start .OK).run
      [.Cancel, .Cancel]).log =
      [.StartMergeCommit 12 11 .OK, .BindPageSnapshot 0, .BindPageSnapshot 12,
        .BindPageSnapshot 11, .Resolve, .journal_Rollback, .on_done, .empty_on_done] ∧
    (∀ c : ConflictResolverClient, OnDoneOnce true c → c.crashed = false →
      (c.step .Cancel).log = c.log ++ [.empty_on_done]) :=
  ⟨by decide, by decide, fun _ h hc => Cancel_again h hc⟩

/-! ### The replies to the diff requests -/

theorem diffReplies_append (l1 l2 : List ClientEffect) :
    diffReplies (l1 ++ l2) = diffReplies l1 ++ diffReplies l2 :=
  List.filterMap_append _ _ _

/-- What `Finalize` adds to the log: the rollback if a journal is held,
then the call of `on_done_`. -/
theorem Finalize_log (c : ConflictResolverClient) :
    c.Finalize.log = c.log ++ (if c.journal_ then [ClientEffect.journal_Rollback] else []) ++
      [if c.on_done_ then ClientEffect.on_done else ClientEffect.empty_on_done] := by
  unfold Finalize rollbackJournal callOnDone crash
  cases hj : c.journal_ <;> cases ho : c.on_done_ <;> simp [hj, ho]

theorem diffReplies_Finalize (c : ConflictResolverClient) :
    diffReplies c.Finalize.log = diffReplies c.log := by
  rw [Finalize_log, diffReplies_append, diffReplies_append]
  cases c.journal_ <;> cases c.on_done_ <;> simp [diffReplies]

/-- C12: what a diff request is answered with. `GetLeftDiff` and
`GetRightDiff` are `GetDiff` on the left and on the right commit. When the
client is alive and not cancelled and the page change is computed with status
OK, the one reply added carries the computed change unchanged, with status OK
and no token if the computed next token is empty, and with status
PARTIAL_RESULT and that token if it is not. When the client is destroyed or
cancelled or the computation fails, the one reply added carries no page change
and no token. -/
theorem GetDiff_reply (c : ConflictResolverClient) (commit : Commit) (token : String)
    (status : Status) (change : PageChange) (next_token : String) :
    (c.destroyed = false → c.cancelled_ = false → status = .OK →
      diffReplies (c.GetDiff commit token status change next_token).log =
        diffReplies c.log ++
          [(if next_token = "" then .OK else .PARTIAL_RESULT, some change,
            if next_token = "" then none else some next_token)]) ∧
    ((c.destroyed = true ∨ c.cancelled_ = true ∨ status ≠ .OK) →
      diffReplies (c.GetDiff commit token status change next_token).log =
        diffReplies c.log ++
          [(if c.destroyed = true ∨ c.cancelled_ = true then .INTERNAL_ERROR else status,
            none, none)]) ∧
    c.GetLeftDiff token status change next_token =
      c.GetDiff c.left_ token status change next_token ∧
    c.GetRightDiff token status change next_token =
      c.GetDiff c.right_ token status change next_token := by
  refine ⟨?_, ?_, rfl, rfl⟩
  · intro hd hc hs
    have he : next_token.isEmpty = decide (next_token = "") := by
      by_cases h : next_token = ""
      · simpa [h] using (String.isEmpty_iff "").2 rfl
      · simpa [h] using fun h' => h ((String.isEmpty_iff _).1 h')
    simp [GetDiff, emit, hd, hc, hs, he, diffReplies_append, diffReplies]
  · intro h
    unfold GetDiff
    by_cases hd : c.destroyed = true
    · simp [emit, hd, diffReplies_append, diffReplies]
    · by_cases hc : c.cancelled_ = true
      · simp only [emit, hd, hc, diffReplies_Finalize, diffReplies_append, if_true, if_false,
          Bool.false_eq_true, or_self, or_true, true_or]
        simp [diffReplies]
      · have hs : status ≠ .OK := by
          rcases h with h | h | h
          · exact absurd h hd
          · exact absurd h hc
          · exact h
        simp only [emit, hd, hc, hs, diffReplies_Finalize, diffReplies_append, if_true, if_false,
          Bool.false_eq_true, or_self, ne_eq, not_false_eq_true]
        simp [diffReplies]

/-! ### The journal operations of a merge -/

theorem journalOps_append (l1 l2 : List ClientEffect) :
    journalOps (l1 ++ l2) = journalOps l1 ++ journalOps l2 :=
  List.filterMap_append _ _ _

theorem mergeReplies_append (l1 l2 : List ClientEffect) :
    mergeReplies (l1 ++ l2) = mergeReplies l1 ++ mergeReplies l2 :=
  List.filterMap_append _ _ _

theorem toKeyPriority_eq (p : Priority) : toKeyPriority p = specKeyPriority p := by
  cases p <;> rfl

/-- One value whose lookup or add succeeds: the waiter receives the object
id of its put, and the journal is called for a delete only. -/
theorem OnNextMergeResult_ok (c : ConflictResolverClient) (v : MergedValue) (a : StorageAnswer)
    (hj : c.journal_ = true) (ha : a.status = .OK) :
    (c.OnNextMergeResult v a).2 = (.OK, (specMergeOp (v, a)).object_id) ∧
    journalOps (c.OnNextMergeResult v a).1.log =
      journalOps c.log ++ [specMergeOp (v, a)].filter (fun op => !op.isPut) ∧
    mergeReplies (c.OnNextMergeResult v a).1.log = mergeReplies c.log := by
  unfold OnNextMergeResult specMergeOp
  cases hs : v.source
  · simp [hs, ha, emit, journalOps_append, mergeReplies_append, journalOps, mergeReplies,
      JournalOp.object_id, JournalOp.isPut]
  · cases hn : v.new_value <;>
      simp [hs, hn, ha, emit, journalOps_append, mergeReplies_append, journalOps, mergeReplies,
        JournalOp.object_id, JournalOp.isPut]
  · simp [hs, hj, emit, journalOps_append, mergeReplies_append, journalOps, mergeReplies,
      JournalOp.object_id, JournalOp.isPut]

/-- The loop over a batch whose lookups and adds all succeed: the waiter
collects the object id of each value, and the journal is called for the
deletes, in batch order. -/
theorem collectResults_ok : ∀ (batch : List (MergedValue × StorageAnswer))
    (c : ConflictResolverClient), c.crashed = false → c.journal_ = true →
    (∀ va ∈ batch, va.2.status = .OK) →
    (c.collectResults batch).2 = batch.map (fun va => (.OK, (specMergeOp va).object_id)) ∧
    journalOps (c.collectResults batch).1.log =
      journalOps c.log ++ (batch.map specMergeOp).filter (fun op => !op.isPut) ∧
    mergeReplies (c.collectResults batch).1.log = mergeReplies c.log := by
  intro batch
  induction batch with
  | nil => intro c _ _ _; simp [collectResults]
  | cons va rest ih =>
    intro c hc hj hok
    obtain ⟨v, a⟩ := va
    have ha : a.status = .OK := hok (v, a) (List.mem_cons_self _ _)
    obtain ⟨h1, h2, h3⟩ := OnNextMergeResult_ok c v a hj ha
    have hq := quiet_OnNextMergeResult c v a
    have hc1 : (c.OnNextMergeResult v a).1.crashed = false := by
      cases hcr : (c.OnNextMergeResult v a).1.crashed
      · rfl
      · rcases hq.crashed hcr with h | h
        · rw [hc] at h; cases h
        · rw [hj] at h; cases h
    have hj1 : (c.OnNextMergeResult v a).1.journal_ = true := by rw [hq.journal, hj]
    obtain ⟨i1, i2, i3⟩ := ih (c.OnNextMergeResult v a).1 hc1 hj1
      (fun va hva => hok va (List.mem_cons_of_mem _ hva))
    simp only [collectResults, hc1, Bool.false_eq_true, if_false, List.map_cons,
      List.filter_cons]
    refine ⟨?_, ?_, ?_⟩
    · rw [h1, i1]
    · rw [i2, h2, List.append_assoc]
      congr 1
      simp only [List.filter_cons, List.filter_nil]
      split <;> rfl
    · rw [i3, h3]

/-- The loop of puts over the object ids of a batch whose puts all
succeed: one put for each value with an object id that is not empty, in batch
order, and the status to reply with is OK. -/
theorem putAll_ok : ∀ (batch : List (MergedValue × StorageAnswer))
    (c : ConflictResolverClient), c.crashed = false → c.journal_ = true →
    (∀ va ∈ batch, va.2.put_status = .OK) →
    (c.putAll batch (batch.map (fun va => (.OK, (specMergeOp va).object_id)))).2 = .OK ∧
    (c.putAll batch (batch.map (fun va => (.OK, (specMergeOp va).object_id)))).1.crashed
      = false ∧
    journalOps (c.putAll batch (batch.map (fun va => (.OK, (specMergeOp va).object_id)))).1.log =
      journalOps c.log ++
        (batch.map specMergeOp).filter (fun op => op.isPut && !op.object_id.isEmpty) ∧
    mergeReplies (c.putAll batch (batch.map (fun va => (.OK, (specMergeOp va).object_id)))).1.log
      = mergeReplies c.log := by
  intro batch
  induction batch with
  | nil => intro c hc _ _; simp [putAll, hc]
  | cons va rest ih =>
    intro c hc hj hok
    obtain ⟨v, a⟩ := va
    have ha : a.put_status = .OK := hok (v, a) (List.mem_cons_self _ _)
    have hrest := fun va hva => hok va (List.mem_cons_of_mem _ hva)
    simp only [List.map_cons, putAll, List.filter_cons]
    by_cases he : (specMergeOp (v, a)).object_id.isEmpty = true
    · simp only [he, if_true, Bool.not_true, Bool.and_false, Bool.false_eq_true, if_false]
      exact ih c hc hj hrest
    · have hput : (specMergeOp (v, a)).isPut = true := by
        cases hop : specMergeOp (v, a) with
        | put k id pr => rfl
        | delete k =>
          rw [hop] at he
          exact absurd ((String.isEmpty_iff _).2 rfl) he
      have hop : JournalOp.put v.key (specMergeOp (v, a)).object_id (toKeyPriority v.priority) =
          specMergeOp (v, a) := by
        rw [toKeyPriority_eq]
        unfold specMergeOp at hput ⊢
        cases hs : v.source
        · simp [hs, JournalOp.object_id]
        · cases hn : v.new_value <;> simp [hs, hn, JournalOp.object_id]
        · simp [hs, JournalOp.isPut] at hput
      obtain ⟨i1, i2, i3, i4⟩ := ih
        (c.emit (.journal_Put v.key (specMergeOp (v, a)).object_id (toKeyPriority v.priority)
          a.put_status)) hc hj hrest
      rw [ha] at i1 i2 i3 i4
      simp only [he, hj, ha, hput, if_true, if_false, Bool.false_eq_true, ne_eq,
        not_true_eq_false, Bool.not_false, Bool.and_true]
      refine ⟨i1, i2, ?_, ?_⟩
      · rw [i3]
        simp only [emit, journalOps_append, List.append_assoc]
        congr 1
        simp [journalOps, hop]
      · rw [i4]
        simp [emit, mergeReplies_append, mergeReplies]

theorem waiterStatus_ok (batch : List (MergedValue × StorageAnswer)) (f : MergedValue × StorageAnswer → ObjectId) :
    waiterStatus (batch.map (fun va => (.OK, f va))) = .OK := by
  induction batch with
  | nil => rfl
  | cons va rest ih => simpa [waiterStatus] using ih

/-- `Merge` on a client with no merge under way: the batch is collected at
once and waits for its waiter. -/
theorem step_Merge_alone (c : ConflictResolverClient) (batch : List (MergedValue × StorageAnswer))
    (hcr : c.crashed = false) (hd : c.destroyed = false) (hq : c.operation_serializer_ = []) :
    c.step (.Merge batch) =
      { (ConflictResolverClient.collectResults
          { c with operation_serializer_ := [⟨batch, false, []⟩] } batch).1 with
        operation_serializer_ := [⟨batch, true,
          (ConflictResolverClient.collectResults
            { c with operation_serializer_ := [⟨batch, false, []⟩] } batch).2⟩] } := by
  simp [step, hcr, Merge, hq, pump, startMerge, hd]

/-- The waiter of the only merge under way calls back on a client that is
alive and not cancelled, with all results OK: the puts are made and the reply
is the status of the puts. -/
theorem step_merge_results_puts (c : ConflictResolverClient) (op : PendingMerge)
    (hq : c.operation_serializer_ = [op]) (hst : op.started = true)
    (hcr : c.crashed = false) (hd : c.destroyed = false) (hcan : c.cancelled_ = false)
    (hw : waiterStatus op.results = .OK)
    (hp : (c.putAll op.values op.results).1.crashed = false) :
    (c.step .merge_results).log =
      (c.putAll op.values op.results).1.log ++
        [.merge_reply (c.putAll op.values op.results).2] := by
  unfold step
  rw [if_neg (by simp [hcr])]
  simp only [hq, hst, if_true, List.length_nil, pump]
  unfold onMergeResults
  simp only [hd, hcan, hw, Bool.false_eq_true, if_false, Bool.false_or, ne_eq,
    not_true_eq_false, decide_False]
  generalize c.putAll op.values op.results = pr at hp ⊢
  obtain ⟨c2, st⟩ := pr
  simp only at hp
  simp [hp, emit]

/-- The whole of a merge whose lookups, adds and puts succeed, on a client
that is alive, not cancelled, holds its journal and has no merge under way:
the reply is OK, and the journal is called for the deletes of the batch, then
for the puts of the values with an object id that is not empty. -/
theorem Merge_ok_log (c : ConflictResolverClient) (batch : List (MergedValue × StorageAnswer))
    (hcr : c.crashed = false) (hd : c.destroyed = false) (hcan : c.cancelled_ = false)
    (hj : c.journal_ = true) (hq : c.operation_serializer_ = [])
    (hok : ∀ va ∈ batch, va.2.status = .OK ∧ va.2.put_status = .OK) :
    mergeReplies ((c.step (.Merge batch)).step .merge_results).log =
      mergeReplies c.log ++ [.OK] ∧
    journalOps ((c.step (.Merge batch)).step .merge_results).log =
      journalOps c.log ++ ((batch.map specMergeOp).filter (fun op => !op.isPut) ++
        (batch.map specMergeOp).filter (fun op => op.isPut && !op.object_id.isEmpty)) := by
  rw [step_Merge_alone c batch hcr hd hq]
  obtain ⟨a1, a2, a3⟩ := collectResults_ok batch
    { c with operation_serializer_ := [⟨batch, false, []⟩] } hcr hj (fun va h => (hok va h).1)
  have hQ := quiet_collectResults batch { c with operation_serializer_ := [⟨batch, false, []⟩] }
  generalize ConflictResolverClient.collectResults
    { c with operation_serializer_ := [⟨batch, false, []⟩] } batch = cr at a1 a2 a3 hQ
  obtain ⟨c1, results⟩ := cr
  simp only at a1 a2 a3 hQ
  have hc1 : c1.crashed = false := by
    cases hcr1 : c1.crashed
    · rfl
    · rcases hQ.crashed hcr1 with h | h
      · exact absurd (hcr ▸ h : false = true) (by decide)
      · exact absurd (hj ▸ h : true = false) (by decide)
  have hj1 : c1.journal_ = true := by rw [hQ.journal]; exact hj
  have hd1 : c1.destroyed = false := by rw [hQ.destroyed]; exact hd
  have hcan1 : c1.cancelled_ = false := by rw [hQ.cancelled]; exact hcan
  subst a1
  obtain ⟨b1, b2, b3, b4⟩ := putAll_ok batch
    { c1 with operation_serializer_ := [⟨batch, true,
        batch.map (fun va => (.OK, (specMergeOp va).object_id))⟩] } hc1 hj1
    (fun va h => (hok va h).2)
  have hs := step_merge_results_puts
    { c1 with operation_serializer_ := [⟨batch, true,
        batch.map (fun va => (.OK, (specMergeOp va).object_id))⟩] }
    ⟨batch, true, batch.map (fun va => (.OK, (specMergeOp va).object_id))⟩ rfl rfl hc1 hd1 hcan1
    (waiterStatus_ok batch _) b2
  refine ⟨?_, ?_⟩
  · refine (congrArg mergeReplies hs).trans ?_
    rw [mergeReplies_append]
    refine (congrArg (· ++ _) (b4.trans a3)).trans ?_
    exact congrArg (fun st => mergeReplies c.log ++ [st]) b1
  · refine (congrArg journalOps hs).trans ?_
    rw [journalOps_append]
    refine (congrArg (· ++ _) (b3.trans (congrArg (· ++ _) a2))).trans ?_
    simp [journalOps]

/-- The serializer reaches a batch that has not been started, on a client
that is alive: the closure of the batch runs, whatever is queued behind it. -/
theorem pump_start (c : ConflictResolverClient) (batch : List (MergedValue × StorageAnswer))
    (results : List (storage.Status × ObjectId)) (rest : List PendingMerge) (fuel : Nat)
    (hq : c.operation_serializer_ = ⟨batch, false, results⟩ :: rest)
    (hcr : c.crashed = false) (hd : c.destroyed = false) :
    pump (fuel + 1) c =
      { (c.collectResults batch).1 with
        operation_serializer_ := ⟨batch, true, (c.collectResults batch).2⟩ :: rest } := by
  simp [pump, hcr, hq, startMerge, hd]

/-- The waiter of the batch at the head of the serializer calls back: its
callback runs, then the serializer goes on to the operations queued behind. -/
theorem step_merge_results (c : ConflictResolverClient) (op : PendingMerge)
    (rest : List PendingMerge) (hq : c.operation_serializer_ = op :: rest)
    (hst : op.started = true) (hcr : c.crashed = false) :
    c.step .merge_results =
      pump rest.length { c.onMergeResults op with operation_serializer_ := rest } := by
  unfold step
  rw [if_neg (by simp [hcr])]
  simp only [hq, hst, if_true]

/-- The callback of the waiter of a batch whose lookups and adds succeeded,
on a client that is alive and not cancelled: the puts are made and the reply
is the status of the puts. -/
theorem onMergeResults_puts (c : ConflictResolverClient) (op : PendingMerge)
    (hd : c.destroyed = false) (hcan : c.cancelled_ = false)
    (hw : waiterStatus op.results = .OK)
    (hp : (c.putAll op.values op.results).1.crashed = false) :
    (c.onMergeResults op).log =
      (c.putAll op.values op.results).1.log ++
        [.merge_reply (c.putAll op.values op.results).2] := by
  unfold onMergeResults
  simp only [hd, hcan, hw, Bool.false_eq_true, if_false, Bool.false_or, ne_eq,
    not_true_eq_false, decide_False]
  generalize c.putAll op.values op.results = pr at hp ⊢
  obtain ⟨c2, st⟩ := pr
  simp only at hp
  simp [hp, emit]

/-- C11 (amended): the journal operations of a batch of a `Merge` whose
lookups, object adds and journal puts all succeed, wherever the batch stands
in the operation serializer. In `c` the serializer has reached the batch
(`pump` starts it, whatever is queued behind it), the client being alive and
holding its journal: the journal is called for one delete for each `DELETE`
value of the batch, in batch order, and nothing is replied. In `c'` the
waiter of the batch calls back, the client being alive, not cancelled and
holding its journal: the journal is called for one put for each other value
of the batch whose object id is not empty, in batch order, each with its key,
its object id (of the right commit's entry, of the object added, or of the
reference) and its priority mapped by name, and the reply is OK; a value
whose object id is empty is given no put. After its callback the serializer
goes on to the operations queued behind the batch. -/
theorem Merge_journal_operations (c c' : ConflictResolverClient)
    (batch : List (MergedValue × StorageAnswer)) (rest rest' : List PendingMerge) (fuel : Nat)
    (hok : ∀ va ∈ batch, va.2.status = .OK ∧ va.2.put_status = .OK)
    (hq : c.operation_serializer_ = ⟨batch, false, []⟩ :: rest)
    (hcr : c.crashed = false) (hd : c.destroyed = false) (hj : c.journal_ = true)
    (hq' : c'.operation_serializer_ =
      ⟨batch, true, batch.map (fun va => (.OK, (specMergeOp va).object_id))⟩ :: rest')
    (hcr' : c'.crashed = false) (hd' : c'.destroyed = false) (hcan' : c'.cancelled_ = false)
    (hj' : c'.journal_ = true) :
    (pump (fuel + 1) c).operation_serializer_ =
      ⟨batch, true, batch.map (fun va => (.OK, (specMergeOp va).object_id))⟩ :: rest ∧
    journalOps (pump (fuel + 1) c).log =
      journalOps c.log ++ (batch.map specMergeOp).filter (fun op => !op.isPut) ∧
    mergeReplies (pump (fuel + 1) c).log = mergeReplies c.log ∧
    journalOps (c'.onMergeResults
        ⟨batch, true, batch.map (fun va => (.OK, (specMergeOp va).object_id))⟩).log =
      journalOps c'.log ++
        (batch.map specMergeOp).filter (fun op => op.isPut && !op.object_id.isEmpty) ∧
    mergeReplies (c'.onMergeResults
        ⟨batch, true, batch.map (fun va => (.OK, (specMergeOp va).object_id))⟩).log =
      mergeReplies c'.log ++ [.OK] ∧
    c'.step .merge_results =
      pump rest'.length
        { c'.onMergeResults
            ⟨batch, true, batch.map (fun va => (.OK, (specMergeOp va).object_id))⟩ with
          operation_serializer_ := rest' } := by
  obtain ⟨a1, a2, a3⟩ := collectResults_ok batch c hcr hj (fun va h => (hok va h).1)
  obtain ⟨b1, b2, b3, b4⟩ := putAll_ok batch c' hcr' hj' (fun va h => (hok va h).2)
  have hs := onMergeResults_puts c'
    ⟨batch, true, batch.map (fun va => (.OK, (specMergeOp va).object_id))⟩ hd' hcan'
    (waiterStatus_ok batch _) b2
  rw [pump_start c batch [] rest fuel hq hcr hd]
  refine ⟨?_, a2, a3, ?_, ?_, step_merge_results c' _ rest' hq' rfl hcr'⟩
  · show (⟨batch, true, (c.collectResults batch).2⟩ :: rest : List PendingMerge) = _
    rw [a1]
  · refine (congrArg journalOps hs).trans ?_
    rw [journalOps_append]
    refine (congrArg (· ++ _) b3).trans ?_
    simp [journalOps]
  · refine (congrArg mergeReplies hs).trans ?_
    rw [mergeReplies_append]
    refine (congrArg (· ++ _) b4).trans ?_
    exact congrArg (fun st => mergeReplies c'.log ++ [st]) b1

/-- C11 (witness): on a started client, a batch with a value of each kind
at the head of the serializer and a second batch queued behind it; `c'` is the
state the start of the first batch leaves. The run of the two batches, the
second submitted while the first waits for its lookups, performs the deletes
and then the puts of the first batch, then those of the second. -/
theorem Merge_journal_operations_witness :
    ((pump 2 Example.queued).operation_serializer_ =
      ⟨Example.allSources, true,
        Example.allSources.map (fun va => (.OK, (specMergeOp va).object_id))⟩ ::
        Example.behind ∧
    journalOps (pump 2 Example.queued).log =
      journalOps Example.queued.log ++
        (Example.allSources.map specMergeOp).filter (fun op => !op.isPut) ∧
    mergeReplies (pump 2 Example.queued).log = mergeReplies Example.queued.log ∧
    journalOps ((pump 2 Example.queued).onMergeResults
        ⟨Example.allSources, true,
          Example.allSources.map (fun va => (.OK, (specMergeOp va).object_id))⟩).log =
      journalOps (pump 2 Example.queued).log ++
        (Example.allSources.map specMergeOp).filter
          (fun op => op.isPut && !op.object_id.isEmpty) ∧
    mergeReplies ((pump 2 Example.queued).onMergeResults
        ⟨Example.allSources, true,
          Example.allSources.map (fun va => (.OK, (specMergeOp va).object_id))⟩).log =
      mergeReplies (pump 2 Example.queued).log ++ [.OK] ∧
    (pump 2 Example.queued).step .merge_results =
      pump Example.behind.length
        { (pump 2 Example.queued).onMergeResults
            ⟨Example.allSources, true,
              Example.allSources.map (fun va => (.OK, (specMergeOp va).object_id))⟩ with
          operation_serializer_ := Example.behind }) ∧
    journalOps (Example.client.run [.Merge Example.allSources, .Merge Example.putThenDelete,
      .merge_results, .merge_results]).log =
      [.delete "b", .put "a" "entry" .LAZY, .put "c" "added" .EAGER, .put "d" "obj" .LAZY,
        .delete "k", .put "k" "obj" .EAGER] ∧
    mergeReplies (Example.client.run [.Merge Example.allSources, .Merge Example.putThenDelete,
      .merge_results, .merge_results]).log = [.OK, .OK] :=
  ⟨Merge_journal_operations Example.queued (pump 2 Example.queued) Example.allSources
    Example.behind Example.behind 1
    (by decide) (by decide) (by decide) (by decide) (by decide) (by decide) (by decide)
    (by decide) (by decide) (by decide), by decide, by decide⟩

/-- C11 (counterexample): two batches for which every lookup, add and put
succeeds, on a started client. In the first, which sets the key `k` and then
deletes it, the journal is called for the delete before the put. In the
second, a reference with an empty `opaque_id`, the journal is not called at
all. Both are answered with OK. -/
theorem Merge_deletes_first_and_skips_empty_id :
    (∀ va ∈ Example.putThenDelete ++ Example.emptyReference,
      va.2.status = .OK ∧ va.2.put_status = .OK) ∧
    Example.putThenDelete.map specMergeOp = [.put "k" "obj" .EAGER, .delete "k"] ∧
    journalOps ((Example.client.step (.Merge Example.putThenDelete)).step .merge_results).log =
      [.delete "k", .put "k" "obj" .EAGER] ∧
    mergeReplies ((Example.client.step (.Merge Example.putThenDelete)).step
      .merge_results).log = [.OK] ∧
    Example.emptyReference.map specMergeOp = [.put "e" "" .EAGER] ∧
    journalOps ((Example.client.step (.Merge Example.emptyReference)).step .merge_results).log =
      [] ∧
    mergeReplies ((Example.client.step (.Merge Example.emptyReference)).step
      .merge_results).log = [.OK] := by
  decide

/-! ### A merge that fails -/

/-- C14: what the client does when a step of a merge batch fails. When
the lookup of a `RIGHT` value or the add of a `NEW` object fails, the client
rolls the journal back, calls `on_done_` and replies with the translated
status. When `journal_->Put` fails it replies with the translated status and
does neither: whatever the puts return, the callback of the waiter of a batch
whose lookups and adds succeeded keeps the journal and `on_done_` as they are
and calls neither `Rollback` nor `on_done_`. -/
theorem Merge_failed_put_not_finalized :
    (∀ (c : ConflictResolverClient) (op : PendingMerge), c.destroyed = false →
      c.cancelled_ = false → waiterStatus op.results = .OK → Quiet c (c.onMergeResults op)) ∧
    (Example.client.run [.Merge Example.failedPut, .merge_results]).log =
      Example.client.log ++
        [.journal_Put "k" "obj" .EAGER .ILLEGAL_STATE, .merge_reply .ILLEGAL_STATE] ∧
    (Example.client.run [.Merge Example.failedPut, .merge_results]).journal_ = true ∧
    (Example.client.run [.Merge Example.failedPut, .merge_results]).on_done_ = true ∧
    (Example.client.run [.Merge Example.failedLookup, .merge_results]).log =
      Example.client.log ++
        [.GetEntryFromCommit 11 "k", .log_error "Key is not present in the right change.",
          .journal_Rollback, .on_done, .merge_reply .NOT_FOUND] ∧
    (Example.client.run [.Merge Example.failedAdd, .merge_results]).log =
      Example.client.log ++
        [.AddObjectFromLocal "text", .journal_Rollback, .on_done,
          .merge_reply .INTERNAL_ERROR] := by
  refine ⟨?_, by decide, by decide, by decide, by decide, by decide⟩
  intro c op hd hcan hw
  unfold onMergeResults
  simp only [hd, hcan, hw, Bool.false_eq_true, if_false, Bool.false_or, ne_eq,
    not_true_eq_false, decide_False]
  have h1 := quiet_putAll op.values op.results c
  split
  · exact h1
  · exact quiet_trans h1 (quiet_emit _ _ rfl)

end ConflictResolverClient

end Ledger
